import Mathlib

/-!
# BasicAlgorithms: heaps, naive Dijkstra, Kosaraju

A shallow embedding of the three C++ sources of the repository

* `src/Cpp/006_heaps_template.hpp` (binary heaps `Heap_Min<T>` / `Heap_Max<T>`, taken at `T = int`),
* `src/005_dijkstra_shortest_path_algorithm.cpp` (`DSP_handler_naive`),
* `src/Cpp/004_graph_kosaraju_scc_algorithm.cpp` (`DFS_handler`),

followed by the theorems that settle the claims of the specification.

Conventions of the embedding.
* `std::vector<T> m_elements` is a `List Int`; the heap code numbers positions from 1, and
  `get_element` / `switch_indexes` keep that convention.
* `Vertex*` is a natural number (the identity of the vertex); the mutable fields of a vertex
  (`m_Dijkstra_weight`, `_explored`) live in the state of the handler as functions of the vertex.
* `Edge*` is the edge record itself: the code never compares two edge pointers.
-/

set_option autoImplicit false

/-! ## Heaps (`src/Cpp/006_heaps_template.hpp`) -/

/-- Source `Heap<T>::get_element(_index)`: `m_elements[_index - 1]`. -/
def get_element (m_elements : List Int) (_index : Nat) : Int :=
  m_elements.getD (_index - 1) 0

/-- Source `Heap<T>::switch_indexes(i, j)`: swaps the elements at the 1-based positions `i` and `j`. -/
def switch_indexes (m_elements : List Int) (i j : Nat) : List Int :=
  let _tmp := m_elements.getD (i - 1) 0
  (m_elements.set (i - 1) (m_elements.getD (j - 1) 0)).set (j - 1) _tmp

/-- Source `Heap<T>::peek()`: `0` on the empty heap, `m_elements[0]` otherwise. -/
def Heap.peek (m_elements : List Int) : Int :=
  if m_elements.isEmpty then 0 else m_elements.getD 0 0

/-- Source `Heap<T>::size()`. -/
def Heap.size (m_elements : List Int) : Nat := m_elements.length

/-- Source `Heap<T>::empty()`. -/
def Heap.empty (m_elements : List Int) : Bool := m_elements.isEmpty

/-- The `while (current_index > 1)` loop of `Heap_Min<T>::push`. It does not stop at the first
position where no exchange is needed: it walks up to the root. -/
def Heap_Min.pushLoop (m_elements : List Int) (current_index : Nat) : List Int :=
  if h : current_index > 1 then
    let next_index := current_index / 2
    if get_element m_elements current_index < get_element m_elements next_index then
      Heap_Min.pushLoop (switch_indexes m_elements current_index next_index) next_index
    else
      Heap_Min.pushLoop m_elements next_index
  else m_elements
termination_by current_index
decreasing_by all_goals omega

/-- Source `Heap_Min<T>::push(_t)`. -/
def Heap_Min.push (m_elements : List Int) (_t : Int) : List Int :=
  let m_elements := m_elements ++ [_t]
  Heap_Min.pushLoop m_elements m_elements.length

/-- The `while (current_index * 2 <= m_elements.size())` loop of `Heap_Min<T>::pop`.
`current_index` starts at 1 and only grows (array numbering starts at 1); the conjunct
`0 < current_index` records that. -/
def Heap_Min.popLoop (m_elements : List Int) (current_index : Nat) : List Int :=
  if h : 0 < current_index ∧ current_index * 2 ≤ m_elements.length then
    if current_index * 2 + 1 ≤ m_elements.length then
      let _tmp := min (get_element m_elements (current_index * 2))
        (get_element m_elements (current_index * 2 + 1))
      if get_element m_elements current_index > _tmp then
        if get_element m_elements (current_index * 2)
            < get_element m_elements (current_index * 2 + 1) then
          Heap_Min.popLoop (switch_indexes m_elements current_index (current_index * 2))
            (current_index * 2)
        else
          Heap_Min.popLoop (switch_indexes m_elements current_index (current_index * 2 + 1))
            (current_index * 2 + 1)
      else m_elements
    else
      if get_element m_elements (current_index * 2) < get_element m_elements current_index then
        switch_indexes m_elements current_index (current_index * 2)
      else m_elements
  else m_elements
termination_by m_elements.length - current_index
decreasing_by all_goals (simp only [switch_indexes, List.length_set]; omega)

/-- Source `Heap_Min<T>::pop()`: the returned value and the new element array. -/
def Heap_Min.pop (m_elements : List Int) : Int × List Int :=
  if m_elements.isEmpty then (0, m_elements)
  else
    let _first_element := get_element m_elements 1
    let m_elements := (switch_indexes m_elements 1 m_elements.length).dropLast
    (_first_element, Heap_Min.popLoop m_elements 1)

/-- Source `std::sort(_vec_t.begin(), _vec_t.end())` on integers: the ascending rearrangement. -/
def std_sort (_vec_t : List Int) : List Int := _vec_t.insertionSort (· ≤ ·)

/-- Source `Heap_Min<T>::heapify(_vec_t)`: sorts the argument and appends it to `m_elements`. -/
def Heap_Min.heapify (m_elements : List Int) (_vec_t : List Int) : List Int :=
  m_elements ++ std_sort _vec_t

/-- Source `Heap_Min<T>::check()`: the loop over `i = 1 .. size`, answering `false` at the first parent
that is greater than one of its children. -/
def Heap_Min.check (m_elements : List Int) : Bool :=
  (List.range m_elements.length).all fun k =>
    let i := k + 1
    !(decide (2 * i ≤ m_elements.length)
        && decide (get_element m_elements i > get_element m_elements (i * 2)))
    && !(decide (2 * i + 1 ≤ m_elements.length)
        && decide (get_element m_elements i > get_element m_elements (i * 2 + 1)))

/-- The `while (current_index > 1)` loop of `Heap_Max<T>::push`. -/
def Heap_Max.pushLoop (m_elements : List Int) (current_index : Nat) : List Int :=
  if h : current_index > 1 then
    let next_index := current_index / 2
    if get_element m_elements current_index > get_element m_elements next_index then
      Heap_Max.pushLoop (switch_indexes m_elements current_index next_index) next_index
    else
      Heap_Max.pushLoop m_elements next_index
  else m_elements
termination_by current_index
decreasing_by all_goals omega

/-- Source `Heap_Max<T>::push(_t)`. -/
def Heap_Max.push (m_elements : List Int) (_t : Int) : List Int :=
  let m_elements := m_elements ++ [_t]
  Heap_Max.pushLoop m_elements m_elements.length

/-- The `while (current_index * 2 <= m_elements.size())` loop of `Heap_Max<T>::pop`. -/
def Heap_Max.popLoop (m_elements : List Int) (current_index : Nat) : List Int :=
  if h : 0 < current_index ∧ current_index * 2 ≤ m_elements.length then
    if current_index * 2 + 1 ≤ m_elements.length then
      let _tmp := max (get_element m_elements (current_index * 2))
        (get_element m_elements (current_index * 2 + 1))
      if get_element m_elements current_index < _tmp then
        if get_element m_elements (current_index * 2)
            > get_element m_elements (current_index * 2 + 1) then
          Heap_Max.popLoop (switch_indexes m_elements current_index (current_index * 2))
            (current_index * 2)
        else
          Heap_Max.popLoop (switch_indexes m_elements current_index (current_index * 2 + 1))
            (current_index * 2 + 1)
      else m_elements
    else
      if get_element m_elements (current_index * 2) > get_element m_elements current_index then
        switch_indexes m_elements current_index (current_index * 2)
      else m_elements
  else m_elements
termination_by m_elements.length - current_index
decreasing_by all_goals (simp only [switch_indexes, List.length_set]; omega)

/-- Source `Heap_Max<T>::pop()`: the returned value and the new element array. -/
def Heap_Max.pop (m_elements : List Int) : Int × List Int :=
  if m_elements.isEmpty then (0, m_elements)
  else
    let _first_element := get_element m_elements 1
    let m_elements := (switch_indexes m_elements 1 m_elements.length).dropLast
    (_first_element, Heap_Max.popLoop m_elements 1)

/-- Source `Heap_Max<T>::heapify(_vec_t)`: sorts the argument and appends it, last element first. -/
def Heap_Max.heapify (m_elements : List Int) (_vec_t : List Int) : List Int :=
  m_elements ++ (std_sort _vec_t).reverse

/-- Source `Heap_Max<T>::check()`. -/
def Heap_Max.check (m_elements : List Int) : Bool :=
  (List.range m_elements.length).all fun k =>
    let i := k + 1
    !(decide (2 * i ≤ m_elements.length)
        && decide (get_element m_elements i < get_element m_elements (i * 2)))
    && !(decide (2 * i + 1 ≤ m_elements.length)
        && decide (get_element m_elements i < get_element m_elements (i * 2 + 1)))

/-- Pushing the values of `input`, first to last, onto a min-heap. -/
def Heap_Min.pushAll (m_elements : List Int) (input : List Int) : List Int :=
  input.foldl Heap_Min.push m_elements

/-- Calling `pop()` `n` times on a min-heap: the values returned, in order, and the final
element array. -/
def Heap_Min.popN : Nat → List Int → List Int × List Int
  | 0, m_elements => ([], m_elements)
  | n + 1, m_elements =>
    let r := Heap_Min.pop m_elements
    let rest := Heap_Min.popN n r.2
    (r.1 :: rest.1, rest.2)

/-- Pushing the values of `input`, first to last, onto a max-heap. -/
def Heap_Max.pushAll (m_elements : List Int) (input : List Int) : List Int :=
  input.foldl Heap_Max.push m_elements

/-- Calling `pop()` `n` times on a max-heap. -/
def Heap_Max.popN : Nat → List Int → List Int × List Int
  | 0, m_elements => ([], m_elements)
  | n + 1, m_elements =>
    let r := Heap_Max.pop m_elements
    let rest := Heap_Max.popN n r.2
    (r.1 :: rest.1, rest.2)

/-- The order invariant of a min-heap: every non-root position holds a value that is at least
the value of its parent. -/
def MinOrder (xs : List Int) : Prop :=
  ∀ i, 2 ≤ i → i ≤ xs.length → get_element xs (i / 2) ≤ get_element xs i

/-- The order invariant of a max-heap. -/
def MaxOrder (xs : List Int) : Prop :=
  ∀ i, 2 ≤ i → i ≤ xs.length → get_element xs (i / 2) ≥ get_element xs i

/-- The element array with every element negated. -/
def neg (xs : List Int) : List Int := xs.map fun x => -x

/-- Loop invariant of the sift-up of `Heap_Min<T>::push` at position `cur`: the order holds at
every position other than `cur`, and the children of `cur` respect the parent of `cur`. -/
def MinUpInv (xs : List Int) (cur : Nat) : Prop :=
  (∀ i, 2 ≤ i → i ≤ xs.length → i ≠ cur → get_element xs (i / 2) ≤ get_element xs i) ∧
  (∀ i, 2 ≤ i → i ≤ xs.length → i / 2 = cur → 2 ≤ cur →
    get_element xs (cur / 2) ≤ get_element xs i)

/-- Loop invariant of the sift-down of `Heap_Min<T>::pop` at position `cur`: the order holds at
every position whose parent is not `cur`, and the children of `cur` respect the parent of
`cur`. -/
def MinDownInv (xs : List Int) (cur : Nat) : Prop :=
  (∀ i, 2 ≤ i → i ≤ xs.length → i / 2 ≠ cur → get_element xs (i / 2) ≤ get_element xs i) ∧
  (∀ i, 2 ≤ i → i ≤ xs.length → i / 2 = cur → 2 ≤ cur →
    get_element xs (cur / 2) ≤ get_element xs i)

/-- The element arrays that a `Heap_Min` can hold: those reached from the empty heap by `push`
and `pop`. -/
inductive Heap_Min.Reachable : List Int → Prop
  | empty : Heap_Min.Reachable []
  | push (xs : List Int) (t : Int) : Heap_Min.Reachable xs → Heap_Min.Reachable (Heap_Min.push xs t)
  | pop (xs : List Int) : Heap_Min.Reachable xs → Heap_Min.Reachable (Heap_Min.pop xs).2

/-- The element arrays that a `Heap_Max` can hold: those reached from the empty heap by `push`
and `pop`. -/
inductive Heap_Max.Reachable : List Int → Prop
  | empty : Heap_Max.Reachable []
  | push (xs : List Int) (t : Int) : Heap_Max.Reachable xs → Heap_Max.Reachable (Heap_Max.push xs t)
  | pop (xs : List Int) : Heap_Max.Reachable xs → Heap_Max.Reachable (Heap_Max.pop xs).2

/-! ## Naive Dijkstra (`src/005_dijkstra_shortest_path_algorithm.cpp`) -/

/-- Source `std::numeric_limits<int>::max()`. -/
def INT_MAX : Int := 2147483647

/-- Addition of two `int`s, wrapping around on overflow (32-bit, two-complement). -/
def int_add (a b : Int) : Int := (a + b + 2147483648) % 4294967296 - 2147483648

namespace Dijkstra

/-- Source `class Edge`: the two ends (vertex identities) and the weight. -/
structure Edge where
  m_vertex1 : Nat
  m_vertex2 : Nat
  m_weight : Int
deriving DecidableEq

/-- Source `Edge::getOtherEnd(end)`: does not check that `end` is an end of the edge. -/
def Edge.getOtherEnd (e : Edge) (end_ : Nat) : Nat :=
  if end_ = e.m_vertex1 then e.m_vertex2 else e.m_vertex1

/-- Source `class Graph`: the vertices (their identities) and the edges, in insertion order. -/
structure Graph where
  m_vertexes : List Nat
  m_edges : List Edge

/-- Source `class DSP_handler_naive`, together with the `m_Dijkstra_weight` field of the vertices.
`m_X` (a `std::set`) is a list that `insert` extends only by an absent element;
`m_vertex_route` (a `std::map`) is a function into `Option`. -/
structure DSP_handler_naive where
  m_graph : Graph
  m_startVertex : Nat
  m_vertex_route : Nat → Option Edge
  m_X : List Nat
  m_Dijkstra_weight : Nat → Int

/-- A freshly constructed handler over a freshly constructed graph: `m_X` and `m_vertex_route`
are empty and `Vertex::Vertex` has set every `m_Dijkstra_weight` to `INT_MAX`. -/
def DSP_handler_naive.fresh (_g : Graph) (_s : Nat) : DSP_handler_naive where
  m_graph := _g
  m_startVertex := _s
  m_vertex_route := fun _ => none
  m_X := []
  m_Dijkstra_weight := fun _ => INT_MAX

/-- Source `DSP_handler_naive::_getVertexInX(_e)`: the first end of `_e` found in `m_X`, `none` for
`nullptr`. -/
def DSP_handler_naive._getVertexInX (h : DSP_handler_naive) (_e : Edge) : Option Nat :=
  if _e.m_vertex1 ∈ h.m_X then some _e.m_vertex1
  else if _e.m_vertex2 ∈ h.m_X then some _e.m_vertex2
  else none

/-- One iteration of the `for (Edge* e : m_graph->m_edges)` loop of `_getMinimumEdgeWeight`,
on the pair (`_current_min`, `_current_min_weight`). -/
def DSP_handler_naive.minStep (h : DSP_handler_naive) (acc : Option Edge × Int) (e : Edge) :
    Option Edge × Int :=
  match h._getVertexInX e with
  | some _extremityInX =>
    if e.getOtherEnd _extremityInX ∉ h.m_X then
      let _vertexWeight := h.m_Dijkstra_weight _extremityInX
      if int_add e.m_weight _vertexWeight < acc.2 then (some e, int_add e.m_weight _vertexWeight)
      else acc
    else acc
  | none => acc

/-- Source `DSP_handler_naive::_getMinimumEdgeWeight()`; `none` for `nullptr`. -/
def DSP_handler_naive._getMinimumEdgeWeight (h : DSP_handler_naive) : Option Edge :=
  (h.m_graph.m_edges.foldl h.minStep (none, INT_MAX)).1

/-- The body of the loop of `run` once an edge has been selected and its end in `m_X` found:
`m_X.insert(target)`, the assignment of `target->m_Dijkstra_weight`, and
`m_vertex_route[target] = _current_min`. -/
def DSP_handler_naive.settle (h : DSP_handler_naive) (_current_min : Edge) (source : Nat) :
    DSP_handler_naive :=
  let target := _current_min.getOtherEnd source
  { h with
    m_X := h.m_X.insert target
    m_Dijkstra_weight := fun v =>
      if v = target then int_add (h.m_Dijkstra_weight source) _current_min.m_weight
      else h.m_Dijkstra_weight v
    m_vertex_route := fun v => if v = target then some _current_min else h.m_vertex_route v }

/-- The `while (m_X.size() < m_graph->m_vertexes.size())` loop of `run`. `fuel` bounds the
number of times the loop condition is evaluated; `none` when it is used up, or when
`_getVertexInX` answers `nullptr` for the selected edge (the code then dereferences it). -/
def DSP_handler_naive.runLoop : Nat → DSP_handler_naive → Option DSP_handler_naive
  | 0, _ => none
  | fuel + 1, h =>
    if h.m_X.length < h.m_graph.m_vertexes.length then
      match h._getMinimumEdgeWeight with
      | none => some h
      | some _current_min =>
        match h._getVertexInX _current_min with
        | none => none
        | some source => DSP_handler_naive.runLoop fuel (h.settle _current_min source)
    else some h

/-- Source `DSP_handler_naive::run()`. -/
def DSP_handler_naive.run (fuel : Nat) (h : DSP_handler_naive) : Option DSP_handler_naive :=
  DSP_handler_naive.runLoop fuel
    { h with
      m_X := h.m_X.insert h.m_startVertex
      m_Dijkstra_weight := fun v => if v = h.m_startVertex then 0 else h.m_Dijkstra_weight v }

/-- Source `DSP_handler_naive::getReversedPath(_t)`: the edges pushed onto `_path`, first to last.
`fuel` bounds the number of times the loop condition is evaluated. -/
def DSP_handler_naive.getReversedPath :
    Nat → DSP_handler_naive → Nat → Option (List Edge)
  | 0, _, _ => none
  | fuel + 1, h, _current_target =>
    match h.m_vertex_route _current_target with
    | none => some []
    | some e =>
      (DSP_handler_naive.getReversedPath fuel h (e.getOtherEnd _current_target)).map
        fun _path => e :: _path

/-- The value of `_current_target` after `n` iterations of the loop of `getReversedPath` started
at `v`: each iteration replaces it by `m_vertex_route[_current_target]->getOtherEnd(...)`;
`none` when the loop stops before. -/
def DSP_handler_naive.routeTarget (h : DSP_handler_naive) : Nat → Nat → Option Nat
  | 0, v => some v
  | n + 1, v =>
    match h.m_vertex_route v with
    | none => none
    | some e => DSP_handler_naive.routeTarget h n (e.getOtherEnd v)

/-- Walking from `a` along a sequence of edges: each edge must have the current vertex as one
of its ends and leads to `getOtherEnd`; the vertex reached at the end. -/
def pathEnd (a : Nat) : List Edge → Option Nat
  | [] => some a
  | e :: es =>
    if a = e.m_vertex1 ∨ a = e.m_vertex2 then pathEnd (e.getOtherEnd a) es else none

/-- The vertices visited when walking from `a` along a sequence of edges, `a` included. -/
def pathVertices (a : Nat) : List Edge → List Nat
  | [] => [a]
  | e :: es => a :: pathVertices (e.getOtherEnd a) es

/-- Total weight of a sequence of edges (as a mathematical integer). -/
def pathWeight (es : List Edge) : Int := (es.map fun e => e.m_weight).sum

/-- A path of the graph from `a` to `b`: a sequence of consecutive edges of the graph. -/
def IsPath (g : Graph) (a b : Nat) (es : List Edge) : Prop :=
  (∀ e ∈ es, e ∈ g.m_edges) ∧ pathEnd a es = some b

/-- A path that visits no vertex twice. -/
def IsSimplePath (g : Graph) (a b : Nat) (es : List Edge) : Prop :=
  IsPath g a b es ∧ (pathVertices a es).Nodup

/-- Every edge weight is non-negative. -/
def NonNegWeights (g : Graph) : Prop := ∀ e ∈ g.m_edges, 0 ≤ e.m_weight

/-- The path sums stay below `INT_MAX`: every path from `s` that visits no vertex twice has
total weight below `INT_MAX`. -/
def PathSumsBelowIntMax (g : Graph) (s : Nat) : Prop :=
  ∀ b es, IsSimplePath g s b es → pathWeight es < INT_MAX

/-- A well-formed graph: the vertices are distinct objects and every edge joins two vertices
of the graph. -/
def Graph.WellFormed (g : Graph) : Prop :=
  g.m_vertexes.Nodup ∧ ∀ e ∈ g.m_edges, e.m_vertex1 ∈ g.m_vertexes ∧ e.m_vertex2 ∈ g.m_vertexes

/-- The edge has exactly one end in `X`. -/
def Crossing (X : List Nat) (e : Edge) : Prop :=
  (e.m_vertex1 ∈ X ∧ e.m_vertex2 ∉ X) ∨ (e.m_vertex1 ∉ X ∧ e.m_vertex2 ∈ X)


/-- The value `e->m_weight + _vertexWeight` that `_getMinimumEdgeWeight` computes for an edge
with one end in `m_X` and the other end outside; `none` for the edges it skips. -/
def DSP_handler_naive.frontierValue (h : DSP_handler_naive) (e : Edge) : Option Int :=
  match h._getVertexInX e with
  | some _extremityInX =>
    if e.getOtherEnd _extremityInX ∉ h.m_X then
      some (int_add e.m_weight (h.m_Dijkstra_weight _extremityInX))
    else none
  | none => none


/-- Structure of the handler state while `run` executes on a fresh handler over `g` from `s`:
which vertices have a route entry, where the entry leads, and the distance fields it links. -/
def RouteInv (g : Graph) (s : Nat) (h : DSP_handler_naive) : Prop :=
  h.m_graph = g ∧ h.m_startVertex = s ∧ s ∈ h.m_X ∧ h.m_X.Nodup
  ∧ (∀ v, h.m_vertex_route v = none ↔ (v ∉ h.m_X ∨ v = s))
  ∧ (∀ v e, h.m_vertex_route v = some e →
      e ∈ g.m_edges ∧ (v = e.m_vertex1 ∨ v = e.m_vertex2) ∧ e.getOtherEnd v ∈ h.m_X
      ∧ h.m_X.indexOf v < h.m_X.indexOf (e.getOtherEnd v)
      ∧ h.m_Dijkstra_weight v = int_add (h.m_Dijkstra_weight (e.getOtherEnd v)) e.m_weight)
  ∧ (∀ v, v ∉ h.m_X → h.m_Dijkstra_weight v = INT_MAX)
  ∧ h.m_Dijkstra_weight s = 0

/-- The distances of the settled vertices while `run` executes: each is the weight of a path
without repeated vertex inside `m_X`, none exceeds the weight of a path from `s`, and along a
route entry the distance grows by the weight of the edge. -/
def MetricInv (g : Graph) (s : Nat) (h : DSP_handler_naive) : Prop :=
  (∀ v ∈ h.m_X, ∃ es, IsSimplePath g s v es ∧ (∀ u ∈ pathVertices s es, u ∈ h.m_X)
      ∧ h.m_Dijkstra_weight v = pathWeight es)
  ∧ (∀ v ∈ h.m_X, ∀ es, IsPath g s v es → h.m_Dijkstra_weight v ≤ pathWeight es)
  ∧ (∀ v e, h.m_vertex_route v = some e →
      h.m_Dijkstra_weight v = h.m_Dijkstra_weight (e.getOtherEnd v) + e.m_weight)


/-- The graph of the worked example: vertices 1, 2, 3 and the edges 1-2 (weight 5) and
2-3 (weight 3), in that order. -/
def exampleGraph : Graph where
  m_vertexes := [1, 2, 3]
  m_edges := [⟨1, 2, 5⟩, ⟨2, 3, 3⟩]

/-- The graph with the single vertex 1 and no edge. -/
def singleVertexGraph : Graph where
  m_vertexes := [1]
  m_edges := []

/-- A graph with a self-loop, two parallel edges, edges of weight zero and an edge listed from
its larger end: vertices 1, 2, 3 and the edges 1-1 (0), 1-2 (0), 1-2 (0), 2-1 (4), 2-3 (0). -/
def degenerateGraph : Graph where
  m_vertexes := [1, 2, 3]
  m_edges := [⟨1, 1, 0⟩, ⟨1, 2, 0⟩, ⟨1, 2, 0⟩, ⟨2, 1, 4⟩, ⟨2, 3, 0⟩]


/-- The vertex `x` is the end of the edge `e` that lies in `X`, the other end lying outside. -/
def IsSettledEnd (X : List Nat) (e : Edge) (x : Nat) : Prop :=
  x ∈ X ∧ (x = e.m_vertex1 ∨ x = e.m_vertex2) ∧ e.getOtherEnd x ∉ X


/-- The handler state on the example graph when the loop of `run` starts from source 1: only
the source is settled, with distance 0. -/
def exampleStart : DSP_handler_naive where
  m_graph := exampleGraph
  m_startVertex := 1
  m_vertex_route := fun _ => none
  m_X := [1]
  m_Dijkstra_weight := fun v => if v = 1 then 0 else INT_MAX

end Dijkstra

/-! ## Two-pass algorithm of Kosaraju (`src/Cpp/004_graph_kosaraju_scc_algorithm.cpp`) -/

namespace Kosaraju

/-- Source `class Edge`: the head and the tail (vertex identities) of a directed edge tail -> head. -/
structure Edge where
  _head : Nat
  _tail : Nat
deriving DecidableEq

/-- Source `class Graph`: the vertices (their identities, in order) and, for every vertex, its
`_in_edges` and `_out_edges`. -/
structure Graph where
  _vertexes : List Nat
  _in_edges : Nat → List Edge
  _out_edges : Nat → List Edge

/-- Source `class DFS_handler`, together with the `_explored` flag of the vertices. -/
structure DFS_handler where
  _graph : Graph
  _explored : Nat → Bool
  _stack_finish : List Nat
  _SCC_sizes : List Int

/-- A handler as constructed by `DFS_handler(_g)` over freshly constructed vertices. -/
def DFS_handler.fresh (_g : Graph) : DFS_handler where
  _graph := _g
  _explored := fun _ => false
  _stack_finish := []
  _SCC_sizes := []

/-- Source `Graph::ResetVertexes()`: clears the `_explored` flag of the vertices of the graph. -/
def DFS_handler.ResetVertexes (h : DFS_handler) : DFS_handler :=
  { h with _explored := fun v => if v ∈ h._graph._vertexes then false else h._explored v }

/-- Source `DFS_handler::DFS_Reversed(_vertex)`. `fuel` bounds the depth of the recursion. -/
def DFS_handler.DFS_Reversed : Nat → DFS_handler → Nat → Option DFS_handler
  | 0, _, _ => none
  | fuel + 1, h, _vertex =>
    if !h._explored _vertex then
      let h1 := { h with _explored := fun v => if v = _vertex then true else h._explored v }
      match (h._graph._in_edges _vertex).foldlM
          (fun st _edge => DFS_handler.DFS_Reversed fuel st _edge._tail) h1 with
      | none => none
      | some h2 => some { h2 with _stack_finish := h2._stack_finish ++ [_vertex] }
    else some h

/-- Source `DFS_handler::DFS_Loop_Reversed()`. -/
def DFS_handler.DFS_Loop_Reversed (fuel : Nat) (h : DFS_handler) : Option DFS_handler :=
  h._graph._vertexes.foldlM
    (fun st _vertex =>
      if !st._explored _vertex then DFS_handler.DFS_Reversed fuel st _vertex else some st)
    { h.ResetVertexes with _stack_finish := [] }

/-- Source `DFS_handler::DFS_SCC(_vertex, _counter)`: the handler and the value of the counter.
`fuel` bounds the depth of the recursion. -/
def DFS_handler.DFS_SCC : Nat → DFS_handler × Int → Nat → Option (DFS_handler × Int)
  | 0, _, _ => none
  | fuel + 1, (h, _counter), _vertex =>
    if !h._explored _vertex then
      let h1 := { h with _explored := fun v => if v = _vertex then true else h._explored v }
      (h._graph._out_edges _vertex).foldlM
        (fun st _edge => DFS_handler.DFS_SCC fuel st _edge._head) (h1, int_add _counter 1)
    else some (h, _counter)

/-- Source `DFS_handler::DFS_Loop_SCC()`. -/
def DFS_handler.DFS_Loop_SCC (fuel : Nat) (h : DFS_handler) : Option DFS_handler :=
  h._stack_finish.reverse.foldlM
    (fun st _vertex =>
      if !st._explored _vertex then
        match DFS_handler.DFS_SCC fuel (st, 0) _vertex with
        | none => none
        | some (st2, _counter) => some { st2 with _SCC_sizes := st2._SCC_sizes ++ [_counter] }
      else some st)
    { h.ResetVertexes with _SCC_sizes := [] }

/-- Source `DFS_handler::getSCC()`: sorts `_SCC_sizes` and returns it. -/
def DFS_handler.getSCC (h : DFS_handler) : List Int := std_sort h._SCC_sizes

/-- The three calls of `main`: `DFS_Loop_Reversed()`, `DFS_Loop_SCC()`, `getSCC()`. -/
def computeSCCSizes (fuel : Nat) (g : Graph) : Option (List Int) :=
  match (DFS_handler.fresh g).DFS_Loop_Reversed fuel with
  | none => none
  | some h1 =>
    match h1.DFS_Loop_SCC fuel with
    | none => none
    | some h2 => some h2.getSCC

/-- The graph that `main` builds from a vertex count and the lines `tail head` of the input:
vertices `1 .. vertexCount`, each edge appended to the `_in_edges` of its head and to the
`_out_edges` of its tail. -/
def Graph.ofLines (vertexCount : Nat) (lines : List (Nat × Nat)) : Graph where
  _vertexes := (List.range vertexCount).map fun i => i + 1
  _in_edges := fun v => (lines.filter fun l => l.2 = v).map fun l => ⟨l.2, l.1⟩
  _out_edges := fun v => (lines.filter fun l => l.1 = v).map fun l => ⟨l.2, l.1⟩

/-- The vertices that a forward search tries from `u`: the heads of the out-edges. -/
def Graph.succF (g : Graph) (u : Nat) : List Nat := (g._out_edges u).map fun e => e._head

/-- The vertices that a reversed search tries from `u`: the tails of the in-edges. -/
def Graph.succR (g : Graph) (u : Nat) : List Nat := (g._in_edges u).map fun e => e._tail

/-- A well-formed graph: distinct vertices, and every edge in an adjacency list of a vertex of
the graph leads to a vertex of the graph. -/
def Graph.WellFormed (g : Graph) : Prop :=
  g._vertexes.Nodup
  ∧ (∀ v ∈ g._vertexes, ∀ w ∈ g.succR v, w ∈ g._vertexes)
  ∧ (∀ v ∈ g._vertexes, ∀ w ∈ g.succF v, w ∈ g._vertexes)

/-- The in-edge and out-edge lists describe one edge set: `u` has an out-edge to `w` exactly
when `w` has an in-edge from `u`. -/
def Graph.Consistent (g : Graph) : Prop :=
  ∀ u ∈ g._vertexes, ∀ w ∈ g._vertexes, w ∈ g.succF u ↔ u ∈ g.succR w


/-- A path `x -> ... -> y` along `succ` all of whose vertices, ends included, satisfy `P`. -/
inductive ReachIn (succ : Nat → List Nat) (P : Nat → Prop) : Nat → Nat → Prop
  | refl {x : Nat} : P x → ReachIn succ P x x
  | head {x w y : Nat} : P x → w ∈ succ x → ReachIn succ P w y → ReachIn succ P x y

/-- The vertex `w` is reachable from `u` along directed edges of the graph. -/
def Graph.Reach (g : Graph) (u w : Nat) : Prop :=
  ReachIn g.succF (fun v => v ∈ g._vertexes) u w

/-- The list `comps` is the list of the strongly connected components of the graph: every
vertex lies in exactly one member, no member is empty, and each member consists of exactly
the vertices that are mutually reachable with any one of its vertices. -/
def IsSCCDecomposition (g : Graph) (comps : List (List Nat)) : Prop :=
  comps.flatten.Perm g._vertexes
  ∧ (∀ c ∈ comps, c ≠ [])
  ∧ (∀ c ∈ comps, ∀ u ∈ c, ∀ w ∈ g._vertexes, w ∈ c ↔ (g.Reach u w ∧ g.Reach w u))

/-- Depth-first search along `succ` from `v` with explored set `E`, as both `DFS_Reversed` and
`DFS_SCC` perform it: the new explored set and the vertices newly explored, in the order in
which their exploration finished. -/
def dfs (succ : Nat → List Nat) : Nat → (Nat → Bool) → Nat → Option ((Nat → Bool) × List Nat)
  | 0, _, _ => none
  | fuel + 1, E, v =>
    if !E v then
      match (succ v).foldlM
          (fun acc c =>
            match dfs succ fuel acc.1 c with
            | none => none
            | some r => some (r.1, acc.2 ++ r.2))
          (fun u => if u = v then true else E u, []) with
      | none => none
      | some r => some (r.1, r.2 ++ [v])
    else some (E, [])

/-- The loop over the successors inside `dfs`, and the loops over the vertices in
`DFS_Loop_Reversed` and `DFS_Loop_SCC`. -/
def dfsList (succ : Nat → List Nat) (fuel : Nat) (acc : (Nat → Bool) × List Nat)
    (cs : List Nat) : Option ((Nat → Bool) × List Nat) :=
  cs.foldlM
    (fun acc c =>
      match dfs succ fuel acc.1 c with
      | none => none
      | some r => some (r.1, acc.2 ++ r.2))
    acc

/-- The finish-order property of a stack `S` (first finished first): whenever `y` is reachable
from `x` inside `S`, some vertex mutually reachable with `x` inside `S` is `y` or was finished
after `y`. -/
def StackOrdered (succ : Nat → List Nat) (S : List Nat) : Prop :=
  ∀ x y, ReachIn succ (fun u => u ∈ S) x y →
    ∃ m, ReachIn succ (fun u => u ∈ S) x m ∧ ReachIn succ (fun u => u ∈ S) m x
      ∧ ∃ l1 l2, S = l1 ++ y :: l2 ∧ (m = y ∨ m ∈ l2)

/-- What a search assumes of the finished vertices `S` and the explored set `E`: `S` is
ordered, explored, and the successors of its vertices are explored. -/
def StackPre (succ : Nat → List Nat) (S : List Nat) (E : Nat → Bool) : Prop :=
  StackOrdered succ S ∧ (∀ u ∈ S, E u = true) ∧ (∀ u ∈ S, ∀ w ∈ succ u, E w = true)

/-- What a search from the vertices `cs` with explored set `E` guarantees of the new explored
set `E2` and the list `T` of newly explored vertices. -/
def DfsPost (succ : Nat → List Nat) (V : List Nat) (E : Nat → Bool) (cs : List Nat)
    (E2 : Nat → Bool) (T : List Nat) : Prop :=
  (∀ u, E2 u = true ↔ (E u = true ∨ u ∈ T))
  ∧ T.Nodup ∧ (∀ u ∈ T, E u = false) ∧ (∀ u ∈ T, u ∈ V)
  ∧ (∀ c ∈ cs, E2 c = true)
  ∧ (∀ u ∈ T, ∃ c ∈ cs, ReachIn succ (fun a => a ∈ T) c u)
  ∧ (∀ S, StackPre succ S E → StackPre succ (S ++ T) E2)

/-- The number of unexplored vertices of `V`. -/
def unexploredCount (V : List Nat) (E : Nat → Bool) : Nat :=
  (V.filter fun v => !E v).length


/-- Invariant of the loop of `DFS_Loop_SCC` after the stack entries `done` have been visited:
`comps` lists the sets of vertices explored by the searches started so far, in order; their
sizes are the entries of `_SCC_sizes`, and their vertices are the explored vertices. -/
def CountInv (g : Graph) (st : DFS_handler) (done : List Nat) (comps : List (List Nat)) : Prop :=
  st._graph = g
  ∧ st._SCC_sizes = comps.map (fun c => (c.length : Int))
  ∧ (∀ u ∈ g._vertexes, st._explored u = true ↔ u ∈ comps.flatten)
  ∧ comps.flatten.Nodup
  ∧ (∀ c ∈ comps, ∀ u ∈ c, u ∈ g._vertexes)
  ∧ (∀ p ∈ done, st._explored p = true)

/-- The invariant `CountInv` together with: every member of `comps` is a strongly connected
component. -/
def SccInv (g : Graph) (st : DFS_handler) (done : List Nat) (comps : List (List Nat)) : Prop :=
  CountInv g st done comps
  ∧ (∀ c ∈ comps, c ≠ [])
  ∧ (∀ c ∈ comps, ∀ u ∈ c, ∀ w ∈ g._vertexes, w ∈ c ↔ (g.Reach u w ∧ g.Reach w u))


/-- The graph of the worked example: four vertices, the cycle 1 -> 2 -> 3 -> 1, and the
isolated vertex 4. -/
def cycleGraph : Graph := Graph.ofLines 4 [(1, 2), (2, 3), (3, 1)]


/-- The graph with the single vertex 1 and no edge. -/
def singleVertexGraph : Graph := Graph.ofLines 1 []

end Kosaraju

/-! ## Theorems on the heaps -/

theorem length_switch_indexes (xs : List Int) (i j : Nat) :
    (switch_indexes xs i j).length = xs.length := by
  simp [switch_indexes]

theorem get_element_switch (xs : List Int) (i j k : Nat) (hi : 1 ≤ i) (hi2 : i ≤ xs.length)
    (hj : 1 ≤ j) (hj2 : j ≤ xs.length) (hk : 1 ≤ k) :
    get_element (switch_indexes xs i j) k =
      if k = j then get_element xs i else if k = i then get_element xs j else get_element xs k := by
  unfold get_element switch_indexes
  simp only [List.getD_eq_getElem?_getD, List.getElem?_set, List.length_set]
  by_cases h1 : k = j
  · subst h1
    rw [if_pos rfl, if_pos (by omega), if_pos rfl]
    rfl
  · by_cases h2 : k = i
    · subst h2
      rw [if_neg (by omega), if_pos rfl, if_pos (by omega), if_neg h1, if_pos rfl]
      rfl
    · rw [if_neg (by omega), if_neg (by omega), if_neg h1, if_neg h2]

theorem set_set_count (xs : List Int) (p q : Nat) (hp : p < xs.length) (hq : q < xs.length)
    (c : Int) : ((xs.set p xs[q]).set q xs[p]).count c = xs.count c := by
  have hq2 : q < (xs.set p xs[q]).length := by simpa using hq
  rw [List.count_set _ _ _ _ hq2, List.count_set _ _ _ _ hp]
  have hval : (xs.set p xs[q])[q] = xs[q] := by
    rw [List.getElem_set]
    split <;> rfl
  rw [hval]
  have h1 : (if (xs[p] == c) = true then 1 else 0) ≤ xs.count c := by
    split
    · rename_i h
      have : xs[p] = c := by simpa using h
      have hmem : c ∈ xs := this ▸ List.getElem_mem hp
      exact List.count_pos_iff.mpr hmem
    · omega
  omega

theorem switch_indexes_perm (xs : List Int) (i j : Nat) (hi : 1 ≤ i) (hi2 : i ≤ xs.length)
    (hj : 1 ≤ j) (hj2 : j ≤ xs.length) : (switch_indexes xs i j).Perm xs := by
  rw [List.perm_iff_count]
  intro c
  unfold switch_indexes
  simp only
  rw [List.getD_eq_getElem _ _ (show i - 1 < xs.length by omega),
    List.getD_eq_getElem _ _ (show j - 1 < xs.length by omega)]
  exact set_set_count xs (i - 1) (j - 1) (by omega) (by omega) c

theorem minUp_done (xs : List Int) (cur : Nat) (hc : ¬ cur > 1) (h : MinUpInv xs cur) :
    MinOrder xs := by
  intro i hi hin
  exact h.1 i hi hin (by omega)

theorem minUp_keep (xs : List Int) (cur : Nat) (hc : cur > 1) (hn : cur ≤ xs.length)
    (hlt : ¬ get_element xs cur < get_element xs (cur / 2)) (h : MinUpInv xs cur) :
    MinUpInv xs (cur / 2) := by
  have hall : MinOrder xs := by
    intro i hi hin
    by_cases hic : i = cur
    · subst hic; omega
    · exact h.1 i hi hin hic
  refine ⟨fun i hi hin _ => hall i hi hin, fun i hi hin hp h2 => ?_⟩
  have a1 := hall i hi hin
  have a2 := hall (cur / 2) h2 (by omega)
  rw [hp] at a1
  omega

theorem minUp_swap (xs : List Int) (cur : Nat) (hc : cur > 1) (hn : cur ≤ xs.length)
    (hlt : get_element xs cur < get_element xs (cur / 2)) (h : MinUpInv xs cur) :
    MinUpInv (switch_indexes xs cur (cur / 2)) (cur / 2) := by
  obtain ⟨h1, h2⟩ := h
  have hg : ∀ k, 1 ≤ k → get_element (switch_indexes xs cur (cur / 2)) k =
      if k = cur / 2 then get_element xs cur else if k = cur then get_element xs (cur / 2)
      else get_element xs k :=
    fun k hk => get_element_switch xs cur (cur / 2) k (by omega) hn (by omega) (by omega) hk
  constructor
  · intro i hi hin hne
    rw [length_switch_indexes] at hin
    rw [hg _ (by omega), hg _ (by omega), if_neg hne]
    by_cases hic : i = cur
    · subst hic
      rw [if_pos rfl, if_pos rfl]
      omega
    · rw [if_neg hic]
      by_cases hp : i / 2 = cur
      · rw [if_neg (by omega), if_pos hp]
        exact h2 i hi hin hp (by omega)
      · rw [if_neg hp]
        have a1 := h1 i hi hin hic
        split
        · rename_i hq
          rw [hq] at a1
          omega
        · exact a1
  · intro i hi hin hp hcur
    rw [length_switch_indexes] at hin
    rw [hg _ (by omega), hg _ (by omega), if_neg (by omega), if_neg (by omega), if_neg (by omega)]
    have a0 := h1 (cur / 2) hcur (by omega) (by omega)
    by_cases hic : i = cur
    · rw [if_pos hic]
      exact a0
    · rw [if_neg hic]
      have a1 := h1 i hi hin hic
      rw [hp] at a1
      omega

theorem minPushLoop_spec (xs : List Int) (cur : Nat) :
    cur ≤ xs.length → MinUpInv xs cur →
      MinOrder (Heap_Min.pushLoop xs cur) ∧ (Heap_Min.pushLoop xs cur).Perm xs := by
  induction xs, cur using Heap_Min.pushLoop.induct with
  | case1 xs cur hc nxt hlt ih =>
    intro hn h
    rw [Heap_Min.pushLoop, dif_pos hc]
    simp only [hlt, if_true]
    have := ih (by rw [length_switch_indexes]; omega) (minUp_swap xs cur hc hn hlt h)
    exact ⟨this.1, this.2.trans
      (switch_indexes_perm xs cur (cur / 2) (by omega) hn (by omega) (by omega))⟩
  | case2 xs cur hc nxt hlt ih =>
    intro hn h
    rw [Heap_Min.pushLoop, dif_pos hc]
    simp only [hlt, if_false]
    exact ih (by omega) (minUp_keep xs cur hc hn hlt h)
  | case3 xs cur hc =>
    intro hn h
    rw [Heap_Min.pushLoop, dif_neg hc]
    exact ⟨minUp_done xs cur hc h, List.Perm.refl _⟩

theorem get_element_append_left (xs ys : List Int) (i : Nat) (h1 : 1 ≤ i) (h2 : i ≤ xs.length) :
    get_element (xs ++ ys) i = get_element xs i := by
  unfold get_element
  rw [List.getD_append _ _ _ _ (by omega)]

theorem minPush_spec (xs : List Int) (t : Int) (h : MinOrder xs) :
    MinOrder (Heap_Min.push xs t) ∧ (Heap_Min.push xs t).Perm (t :: xs) := by
  have hinv : MinUpInv (xs ++ [t]) (xs ++ [t]).length := by
    constructor
    · intro i hi hin hne
      simp only [List.length_append, List.length_singleton] at hin hne
      rw [get_element_append_left _ _ _ (by omega) (by omega),
        get_element_append_left _ _ _ (by omega) (by omega)]
      exact h i hi (by omega)
    · intro i hi hin hp
      simp only [List.length_append, List.length_singleton] at hin hp
      omega
  have := minPushLoop_spec (xs ++ [t]) (xs ++ [t]).length (le_refl _) hinv
  refine ⟨this.1, this.2.trans ?_⟩
  exact List.perm_append_singleton t xs

theorem minDown_leaf (xs : List Int) (cur : Nat) (hc : ¬ (0 < cur ∧ cur * 2 ≤ xs.length))
    (hpos : 0 < cur) (h : MinDownInv xs cur) : MinOrder xs := by
  intro i hi hin
  exact h.1 i hi hin (by omega)

theorem minDown_stop (xs : List Int) (cur : Nat)
    (hle : ∀ i, 2 ≤ i → i ≤ xs.length → i / 2 = cur → get_element xs cur ≤ get_element xs i)
    (h : MinDownInv xs cur) : MinOrder xs := by
  intro i hi hin
  by_cases hp : i / 2 = cur
  · rw [hp]; exact hle i hi hin hp
  · exact h.1 i hi hin hp

theorem minDown_swap (xs : List Int) (cur c : Nat) (hpos : 0 < cur) (hc : c / 2 = cur)
    (hcn : c ≤ xs.length) (hlt : get_element xs c < get_element xs cur)
    (hsib : ∀ i, 2 ≤ i → i ≤ xs.length → i / 2 = cur → get_element xs c ≤ get_element xs i)
    (h : MinDownInv xs cur) : MinDownInv (switch_indexes xs cur c) c := by
  obtain ⟨h1, h2⟩ := h
  have hg : ∀ k, 1 ≤ k → get_element (switch_indexes xs cur c) k =
      if k = c then get_element xs cur else if k = cur then get_element xs c
      else get_element xs k :=
    fun k hk => get_element_switch xs cur c k (by omega) (by omega) (by omega) hcn hk
  constructor
  · intro i hi hin hne
    rw [length_switch_indexes] at hin
    rw [hg _ (by omega), hg _ (by omega), if_neg hne]
    by_cases hic : i = c
    · subst hic
      rw [if_pos hc, if_pos rfl]
      omega
    · rw [if_neg hic]
      by_cases hicur : i = cur
      · subst hicur
        rw [if_pos rfl, if_neg (by omega)]
        exact h2 c (by omega) hcn hc hi
      · rw [if_neg hicur]
        by_cases hp : i / 2 = cur
        · rw [if_pos hp]
          exact hsib i hi hin hp
        · rw [if_neg hp]
          exact h1 i hi hin hp
  · intro i hi hin hp hc2
    rw [length_switch_indexes] at hin
    rw [hg _ (by omega), hg _ (by omega), if_neg (by omega), if_pos hc, if_neg (by omega),
      if_neg (by omega)]
    have := h1 i hi hin (by omega)
    rw [hp] at this
    exact this

theorem minPopLoop_spec (xs : List Int) (cur : Nat) :
    0 < cur → MinDownInv xs cur →
      MinOrder (Heap_Min.popLoop xs cur) ∧ (Heap_Min.popLoop xs cur).Perm xs := by
  induction xs, cur using Heap_Min.popLoop.induct with
  | case1 xs cur hc h2 tmp hgt hlt ih =>
    intro hpos h
    rw [Heap_Min.popLoop, dif_pos hc, if_pos h2]
    simp only [tmp] at hgt
    simp only [hgt, hlt, if_true]
    have hsw := minDown_swap xs cur (cur * 2) hpos (by omega) hc.2
      (by rw [min_eq_left (le_of_lt hlt)] at hgt; exact hgt)
      (by
        intro i hi hin hp
        have : i = cur * 2 ∨ i = cur * 2 + 1 := by omega
        rcases this with rfl | rfl
        · exact le_refl _
        · exact le_of_lt hlt) h
    have := ih (by omega) hsw
    exact ⟨this.1, this.2.trans
      (switch_indexes_perm xs cur (cur * 2) (by omega) (by omega) (by omega) hc.2)⟩
  | case2 xs cur hc h2 tmp hgt hlt ih =>
    intro hpos h
    rw [Heap_Min.popLoop, dif_pos hc, if_pos h2]
    simp only [tmp] at hgt
    simp only [hgt, hlt, if_true, if_false]
    have hsw := minDown_swap xs cur (cur * 2 + 1) hpos (by omega) h2
      (by rw [min_eq_right (not_lt.mp hlt)] at hgt; exact hgt)
      (by
        intro i hi hin hp
        have : i = cur * 2 ∨ i = cur * 2 + 1 := by omega
        rcases this with rfl | rfl
        · exact not_lt.mp hlt
        · exact le_refl _) h
    have := ih (by omega) hsw
    exact ⟨this.1, this.2.trans
      (switch_indexes_perm xs cur (cur * 2 + 1) (by omega) (by omega) (by omega) h2)⟩
  | case3 xs cur hc h2 tmp hgt =>
    intro hpos h
    rw [Heap_Min.popLoop, dif_pos hc, if_pos h2]
    simp only [tmp] at hgt
    simp only [hgt, if_false]
    refine ⟨minDown_stop xs cur ?_ h, List.Perm.refl _⟩
    intro i hi hin hp
    have hmin := not_lt.mp hgt
    have : i = cur * 2 ∨ i = cur * 2 + 1 := by omega
    rcases this with rfl | rfl
    · exact le_trans hmin (min_le_left _ _)
    · exact le_trans hmin (min_le_right _ _)
  | case4 xs cur hc h2 hlt =>
    intro hpos h
    rw [Heap_Min.popLoop, dif_pos hc, if_neg h2, if_pos hlt]
    have hsw := minDown_swap xs cur (cur * 2) hpos (by omega) hc.2 hlt
      (by
        intro i hi hin hp
        have : i = cur * 2 := by omega
        subst this
        exact le_refl _) h
    refine ⟨minDown_leaf _ (cur * 2) ?_ (by omega) hsw,
      switch_indexes_perm xs cur (cur * 2) (by omega) (by omega) (by omega) hc.2⟩
    rw [length_switch_indexes]
    omega
  | case5 xs cur hc h2 hlt =>
    intro hpos h
    rw [Heap_Min.popLoop, dif_pos hc, if_neg h2, if_neg hlt]
    refine ⟨minDown_stop xs cur ?_ h, List.Perm.refl _⟩
    intro i hi hin hp
    have : i = cur * 2 := by omega
    subst this
    exact not_lt.mp hlt
  | case6 xs cur hc =>
    intro hpos h
    rw [Heap_Min.popLoop, dif_neg hc]
    exact ⟨minDown_leaf xs cur hc hpos h, List.Perm.refl _⟩

theorem minOrder_root_le (xs : List Int) (h : MinOrder xs) (i : Nat) :
    1 ≤ i → i ≤ xs.length → get_element xs 1 ≤ get_element xs i := by
  induction i using Nat.strong_induction_on with
  | _ i ih =>
    intro h1 h2
    by_cases hi : i = 1
    · subst hi; exact le_refl _
    · have a1 := h i (by omega) h2
      have a2 := ih (i / 2) (by omega) (by omega) (by omega)
      omega

theorem mem_iff_get_element (xs : List Int) (x : Int) :
    x ∈ xs ↔ ∃ i, 1 ≤ i ∧ i ≤ xs.length ∧ get_element xs i = x := by
  constructor
  · intro hx
    obtain ⟨k, hk, rfl⟩ := List.getElem_of_mem hx
    refine ⟨k + 1, by omega, by omega, ?_⟩
    unfold get_element
    rw [List.getD_eq_getElem _ _ (by omega)]
    rfl
  · rintro ⟨i, h1, h2, rfl⟩
    unfold get_element
    rw [List.getD_eq_getElem _ _ (by omega)]
    exact List.getElem_mem _

theorem minOrder_root_le_mem (xs : List Int) (h : MinOrder xs) (x : Int) (hx : x ∈ xs) :
    get_element xs 1 ≤ x := by
  obtain ⟨i, h1, h2, rfl⟩ := (mem_iff_get_element xs x).mp hx
  exact minOrder_root_le xs h i h1 h2

theorem eq_dropLast_append (zs : List Int) (h : zs ≠ []) :
    zs = zs.dropLast ++ [get_element zs zs.length] := by
  have hlen : 0 < zs.length := List.length_pos.mpr h
  have : get_element zs zs.length = zs.getLast h := by
    unfold get_element
    rw [List.getD_eq_getElem _ _ (by omega), List.getLast_eq_getElem]
  rw [this, List.dropLast_append_getLast]

theorem switch_last_split (xs : List Int) (h : xs ≠ []) :
    switch_indexes xs 1 xs.length =
      (switch_indexes xs 1 xs.length).dropLast ++ [get_element xs 1] := by
  have hlen : 0 < xs.length := List.length_pos.mpr h
  have hne : switch_indexes xs 1 xs.length ≠ [] := by
    intro h0
    have := length_switch_indexes xs 1 xs.length
    rw [h0] at this
    simp at this
    omega
  have h1 := eq_dropLast_append _ hne
  rw [length_switch_indexes,
    get_element_switch xs 1 xs.length xs.length (le_refl _) hlen hlen (le_refl _) hlen,
    if_pos rfl] at h1
  exact h1

theorem minPop_spec (xs : List Int) (hne : xs ≠ []) (h : MinOrder xs) :
    (Heap_Min.pop xs).1 = get_element xs 1 ∧ MinOrder (Heap_Min.pop xs).2 ∧
      ((Heap_Min.pop xs).1 :: (Heap_Min.pop xs).2).Perm xs := by
  have hlen : 0 < xs.length := List.length_pos.mpr hne
  have hemp : xs.isEmpty = false := by
    cases xs with
    | nil => exact absurd rfl hne
    | cons a l => rfl
  have hsplit := switch_last_split xs hne
  have hylen : (switch_indexes xs 1 xs.length).dropLast.length = xs.length - 1 := by
    rw [List.length_dropLast, length_switch_indexes]
  have hget : ∀ k, 1 ≤ k → k ≤ xs.length - 1 →
      get_element (switch_indexes xs 1 xs.length).dropLast k =
        if k = 1 then get_element xs xs.length else get_element xs k := by
    intro k hk1 hk2
    have := get_element_append_left (switch_indexes xs 1 xs.length).dropLast
      [get_element xs 1] k hk1 (by rw [hylen]; exact hk2)
    rw [← hsplit, get_element_switch xs 1 xs.length k (le_refl _) hlen hlen (le_refl _) hk1,
      if_neg (by omega)] at this
    exact this.symm
  have hinv : MinDownInv (switch_indexes xs 1 xs.length).dropLast 1 := by
    constructor
    · intro i hi hin hp
      rw [hylen] at hin
      rw [hget _ (by omega) (by omega), hget _ (by omega) (by omega), if_neg (by omega),
        if_neg (by omega)]
      exact h i hi (by omega)
    · intro i _ _ _ h2
      omega
  have hloop := minPopLoop_spec _ 1 (by omega) hinv
  unfold Heap_Min.pop
  simp only [hemp, Bool.false_eq_true, if_false]
  refine ⟨trivial, hloop.1, ?_⟩
  have p1 : (get_element xs 1 :: (switch_indexes xs 1 xs.length).dropLast).Perm
      (switch_indexes xs 1 xs.length) := by
    conv => rhs; rw [hsplit]
    exact (List.perm_append_singleton _ _).symm
  exact ((List.Perm.cons _ hloop.2).trans p1).trans
    (switch_indexes_perm xs 1 xs.length (le_refl _) hlen hlen (le_refl _))

theorem minCheck_iff (xs : List Int) : Heap_Min.check xs = true ↔ MinOrder xs := by
  unfold Heap_Min.check MinOrder
  simp only [List.all_eq_true, List.mem_range, Bool.and_eq_true, Bool.not_eq_true',
    Bool.and_eq_false_iff, decide_eq_false_iff_not, not_le, gt_iff_lt, not_lt]
  constructor
  · intro h j hj hjn
    have hk := h (j / 2 - 1) (by omega)
    have e : j / 2 - 1 + 1 = j / 2 := by omega
    rw [e] at hk
    rcases Nat.mod_two_eq_zero_or_one j with hm | hm
    · have e2 : j / 2 * 2 = j := by omega
      rcases hk.1 with hk1 | hk1
      · omega
      · rw [e2] at hk1; exact hk1
    · have e2 : j / 2 * 2 + 1 = j := by omega
      rcases hk.2 with hk1 | hk1
      · omega
      · rw [e2] at hk1; exact hk1
  · intro h k hk
    constructor
    · by_cases hc : 2 * (k + 1) ≤ xs.length
      · right
        have := h ((k + 1) * 2) (by omega) (by omega)
        rw [show (k + 1) * 2 / 2 = k + 1 by omega] at this
        exact this
      · left; omega
    · by_cases hc : 2 * (k + 1) + 1 ≤ xs.length
      · right
        have := h ((k + 1) * 2 + 1) (by omega) (by omega)
        rw [show ((k + 1) * 2 + 1) / 2 = k + 1 by omega] at this
        exact this
      · left; omega

theorem neg_neg_list (xs : List Int) : neg (neg xs) = xs := by
  unfold neg
  rw [List.map_map]
  conv => rhs; rw [← List.map_id xs]
  apply List.map_congr_left
  intro a _
  simp

theorem length_neg (xs : List Int) : (neg xs).length = xs.length := by
  simp [neg]

theorem get_element_neg (xs : List Int) (i : Nat) :
    get_element (neg xs) i = - get_element xs i := by
  unfold get_element neg
  rw [List.getD_eq_getElem?_getD, List.getD_eq_getElem?_getD, List.getElem?_map]
  cases xs[i - 1]? <;> simp

theorem switch_indexes_neg (xs : List Int) (i j : Nat) :
    switch_indexes (neg xs) i j = neg (switch_indexes xs i j) := by
  have h1 := get_element_neg xs i
  have h2 := get_element_neg xs j
  unfold get_element at h1 h2
  unfold switch_indexes
  simp only [h1, h2]
  unfold neg
  rw [List.map_set, List.map_set]

theorem maxCheck_eq (xs : List Int) : Heap_Max.check xs = Heap_Min.check (neg xs) := by
  unfold Heap_Max.check Heap_Min.check
  rw [length_neg]
  apply congrArg
  funext k
  simp only [get_element_neg, gt_iff_lt, neg_lt_neg_iff]

theorem maxOrder_iff (xs : List Int) : MaxOrder xs ↔ MinOrder (neg xs) := by
  unfold MaxOrder MinOrder
  rw [length_neg]
  constructor
  · intro h i hi hin
    rw [get_element_neg, get_element_neg]
    have := h i hi hin
    omega
  · intro h i hi hin
    have := h i hi hin
    rw [get_element_neg, get_element_neg] at this
    omega

theorem maxCheck_iff (xs : List Int) : Heap_Max.check xs = true ↔ MaxOrder xs := by
  rw [maxCheck_eq, minCheck_iff, maxOrder_iff]

theorem maxPushLoop_eq (xs : List Int) (cur : Nat) :
    Heap_Max.pushLoop xs cur = neg (Heap_Min.pushLoop (neg xs) cur) := by
  induction xs, cur using Heap_Max.pushLoop.induct with
  | case1 xs cur hc nxt hlt ih =>
    rw [Heap_Max.pushLoop, Heap_Min.pushLoop, dif_pos hc, dif_pos hc]
    have hlt2 : get_element (neg xs) cur < get_element (neg xs) (cur / 2) := by
      rw [get_element_neg, get_element_neg]
      have : get_element xs cur > get_element xs (cur / 2) := hlt
      omega
    simp only [hlt2, if_true]
    have : get_element xs cur > get_element xs (cur / 2) := hlt
    simp only [this, if_true]
    rw [switch_indexes_neg]
    exact ih
  | case2 xs cur hc nxt hlt ih =>
    rw [Heap_Max.pushLoop, Heap_Min.pushLoop, dif_pos hc, dif_pos hc]
    have hlt2 : ¬ get_element (neg xs) cur < get_element (neg xs) (cur / 2) := by
      rw [get_element_neg, get_element_neg]
      have : ¬ get_element xs cur > get_element xs (cur / 2) := hlt
      omega
    simp only [hlt2, if_false]
    have : ¬ get_element xs cur > get_element xs (cur / 2) := hlt
    simp only [this, if_false]
    exact ih
  | case3 xs cur hc =>
    rw [Heap_Max.pushLoop, Heap_Min.pushLoop, dif_neg hc, dif_neg hc, neg_neg_list]

theorem maxPush_eq (xs : List Int) (t : Int) :
    Heap_Max.push xs t = neg (Heap_Min.push (neg xs) (-t)) := by
  unfold Heap_Max.push Heap_Min.push
  simp only
  rw [maxPushLoop_eq]
  have : neg (xs ++ [t]) = neg xs ++ [-t] := by simp [neg]
  rw [this]
  simp [length_neg]

theorem neg_min_gt_iff (a b c : Int) : (-a > min (-b) (-c)) ↔ a < max b c := by
  rcases le_total b c with h | h
  · rw [max_eq_right h, min_eq_right (by omega)]; omega
  · rw [max_eq_left h, min_eq_left (by omega)]; omega

theorem maxPopLoop_eq (xs : List Int) (cur : Nat) :
    Heap_Max.popLoop xs cur = neg (Heap_Min.popLoop (neg xs) cur) := by
  have hB : ∀ (ys : List Int) (p q : Nat),
      (get_element (neg ys) p < get_element (neg ys) q) ↔ get_element ys p > get_element ys q := by
    intro ys p q
    rw [get_element_neg, get_element_neg]
    omega
  have hA : ∀ (ys : List Int) (p q r : Nat),
      (get_element (neg ys) p > min (get_element (neg ys) q) (get_element (neg ys) r)) ↔
        get_element ys p < max (get_element ys q) (get_element ys r) := by
    intro ys p q r
    rw [get_element_neg, get_element_neg, get_element_neg]
    exact neg_min_gt_iff _ _ _
  induction xs, cur using Heap_Max.popLoop.induct with
  | case1 xs cur hc h2 tmp hgt hlt ih =>
    rw [Heap_Max.popLoop, Heap_Min.popLoop]
    simp only [length_neg, hA, hB, dif_pos hc, if_pos h2]
    simp only [tmp] at hgt
    rw [if_pos hgt, if_pos hlt, if_pos hgt, if_pos hlt, switch_indexes_neg]
    exact ih
  | case2 xs cur hc h2 tmp hgt hlt ih =>
    rw [Heap_Max.popLoop, Heap_Min.popLoop]
    simp only [length_neg, hA, hB, dif_pos hc, if_pos h2]
    simp only [tmp] at hgt
    rw [if_pos hgt, if_neg hlt, if_pos hgt, if_neg hlt, switch_indexes_neg]
    exact ih
  | case3 xs cur hc h2 tmp hgt =>
    rw [Heap_Max.popLoop, Heap_Min.popLoop]
    simp only [length_neg, hA, hB, dif_pos hc, if_pos h2]
    simp only [tmp] at hgt
    rw [if_neg hgt, if_neg hgt, neg_neg_list]
  | case4 xs cur hc h2 hlt =>
    rw [Heap_Max.popLoop, Heap_Min.popLoop]
    simp only [length_neg, hA, hB, dif_pos hc, if_neg h2]
    rw [if_pos hlt, if_pos hlt, switch_indexes_neg, neg_neg_list]
  | case5 xs cur hc h2 hlt =>
    rw [Heap_Max.popLoop, Heap_Min.popLoop]
    simp only [length_neg, hA, hB, dif_pos hc, if_neg h2]
    rw [if_neg hlt, if_neg hlt, neg_neg_list]
  | case6 xs cur hc =>
    rw [Heap_Max.popLoop, Heap_Min.popLoop]
    simp only [length_neg, dif_neg hc]
    rw [neg_neg_list]

theorem neg_dropLast (xs : List Int) : neg xs.dropLast = (neg xs).dropLast := by
  unfold neg
  exact List.map_dropLast _ _

theorem neg_isEmpty (xs : List Int) : (neg xs).isEmpty = xs.isEmpty := by
  cases xs <;> rfl

theorem maxPop_eq (xs : List Int) :
    Heap_Max.pop xs = (-(Heap_Min.pop (neg xs)).1, neg (Heap_Min.pop (neg xs)).2) := by
  unfold Heap_Max.pop Heap_Min.pop
  rw [neg_isEmpty]
  cases h : xs.isEmpty
  · simp only [Bool.false_eq_true, if_false]
    rw [get_element_neg, neg_neg, maxPopLoop_eq, neg_dropLast, ← switch_indexes_neg, length_neg]
  · simp only [if_true]
    rw [neg_neg_list]
    rfl

theorem minPopN_spec (n : Nat) : ∀ xs : List Int, xs.length = n → MinOrder xs →
    Heap_Min.popN n xs = (xs.insertionSort (· ≤ ·), []) := by
  induction n with
  | zero =>
    intro xs hlen _
    have : xs = [] := List.length_eq_zero.mp hlen
    subst this
    rfl
  | succ n ih =>
    intro xs hlen h
    have hne : xs ≠ [] := by
      intro h0; rw [h0] at hlen; simp at hlen
    obtain ⟨hroot, hord, hperm⟩ := minPop_spec xs hne h
    have hlen2 : (Heap_Min.pop xs).2.length = n := by
      have := hperm.length_eq
      simp only [List.length_cons] at this
      omega
    have hrec := ih _ hlen2 hord
    unfold Heap_Min.popN
    simp only [hrec]
    congr 1
    apply List.eq_of_perm_of_sorted (r := (· ≤ ·))
    · exact (List.Perm.cons _ (List.perm_insertionSort _ _)).trans
        (hperm.trans (List.perm_insertionSort _ _).symm)
    · rw [List.sorted_cons]
      refine ⟨?_, List.sorted_insertionSort _ _⟩
      intro b hb
      have hb2 : b ∈ (Heap_Min.pop xs).2 := (List.perm_insertionSort _ _).mem_iff.mp hb
      have hb3 : b ∈ xs := hperm.mem_iff.mp (List.mem_cons_of_mem _ hb2)
      rw [hroot]
      exact minOrder_root_le_mem xs h b hb3
    · exact List.sorted_insertionSort _ _

theorem sorted_minOrder (xs : List Int) (h : xs.Sorted (· ≤ ·)) : MinOrder xs := by
  intro i hi hin
  unfold get_element
  rw [List.getD_eq_getElem _ _ (by omega), List.getD_eq_getElem _ _ (by omega)]
  rcases Nat.lt_or_ge (i / 2 - 1) (i - 1) with hlt | hge
  · exact (List.pairwise_iff_getElem.mp h) (i / 2 - 1) (i - 1) (by omega) (by omega) hlt
  · omega

theorem minPushAll_spec (input : List Int) : ∀ xs : List Int, MinOrder xs →
    MinOrder (Heap_Min.pushAll xs input) ∧ (Heap_Min.pushAll xs input).Perm (xs ++ input) := by
  induction input with
  | nil =>
    intro xs h
    simpa [Heap_Min.pushAll] using h
  | cons a l ih =>
    intro xs h
    obtain ⟨h1, h2⟩ := minPush_spec xs a h
    obtain ⟨h3, h4⟩ := ih (Heap_Min.push xs a) h1
    refine ⟨h3, ?_⟩
    have : Heap_Min.pushAll xs (a :: l) = Heap_Min.pushAll (Heap_Min.push xs a) l := rfl
    rw [this]
    refine h4.trans ?_
    refine (List.Perm.append_right l h2).trans ?_
    simp only [List.cons_append]
    exact List.perm_middle.symm

theorem minOrder_nil : MinOrder [] := by
  intro i hi hin
  simp at hin
  omega

theorem maxPushAll_eq (input : List Int) : ∀ xs : List Int,
    Heap_Max.pushAll xs input = neg (Heap_Min.pushAll (neg xs) (neg input)) := by
  induction input with
  | nil =>
    intro xs
    simp [Heap_Max.pushAll, Heap_Min.pushAll, neg, Function.comp_def]
  | cons a l ih =>
    intro xs
    have e1 : Heap_Max.pushAll xs (a :: l) = Heap_Max.pushAll (Heap_Max.push xs a) l := rfl
    have e2 : Heap_Min.pushAll (neg xs) (neg (a :: l)) =
        Heap_Min.pushAll (Heap_Min.push (neg xs) (-a)) (neg l) := rfl
    rw [e1, e2, ih, maxPush_eq, neg_neg_list]

theorem maxPopN_eq (n : Nat) : ∀ xs : List Int,
    Heap_Max.popN n xs = (neg (Heap_Min.popN n (neg xs)).1, neg (Heap_Min.popN n (neg xs)).2) := by
  induction n with
  | zero =>
    intro xs
    simp [Heap_Max.popN, Heap_Min.popN, neg, Function.comp_def]
  | succ n ih =>
    intro xs
    unfold Heap_Max.popN Heap_Min.popN
    simp only
    rw [ih, maxPop_eq]
    simp only [neg_neg_list]
    simp [neg]

theorem neg_sort_neg (l : List Int) :
    neg ((neg l).insertionSort (· ≤ ·)) = l.insertionSort (· ≥ ·) := by
  apply List.eq_of_perm_of_sorted (r := (· ≥ ·))
  · have p1 : (neg ((neg l).insertionSort (· ≤ ·))).Perm (neg (neg l)) :=
      (List.perm_insertionSort _ _).map _
    rw [neg_neg_list] at p1
    exact p1.trans (List.perm_insertionSort _ _).symm
  · have hs := List.sorted_insertionSort (· ≤ ·) (neg l)
    unfold neg List.Sorted
    rw [List.pairwise_map]
    exact hs.imp (fun {a b} hab => by omega)
  · exact List.sorted_insertionSort _ _

theorem sort_ge_eq_reverse (l : List Int) :
    l.insertionSort (· ≥ ·) = (l.insertionSort (· ≤ ·)).reverse := by
  apply List.eq_of_perm_of_sorted (r := (· ≥ ·))
  · exact (List.perm_insertionSort _ _).trans
      ((List.perm_insertionSort _ _).symm.trans (List.reverse_perm _).symm)
  · exact List.sorted_insertionSort _ _
  · have hs := List.sorted_insertionSort (· ≤ ·) l
    unfold List.Sorted
    rw [List.pairwise_reverse]
    exact hs.imp (fun {a b} hab => hab)

theorem insertionSort_congr_perm (r : Int → Int → Prop) [DecidableRel r] [IsAntisymm Int r]
    [IsTotal Int r] [IsTrans Int r] (l1 l2 : List Int) (h : l1.Perm l2) :
    l1.insertionSort r = l2.insertionSort r :=
  List.eq_of_perm_of_sorted
    ((List.perm_insertionSort r l1).trans (h.trans (List.perm_insertionSort r l2).symm))
    (List.sorted_insertionSort r l1) (List.sorted_insertionSort r l2)

theorem maxPopN_spec (xs : List Int) (h : MaxOrder xs) :
    Heap_Max.popN xs.length xs = (xs.insertionSort (· ≥ ·), []) := by
  rw [maxPopN_eq, minPopN_spec xs.length (neg xs) (length_neg xs) ((maxOrder_iff xs).mp h)]
  simp only [neg_sort_neg]
  rfl

theorem sorted_maxOrder (xs : List Int) (h : xs.Sorted (· ≥ ·)) : MaxOrder xs := by
  rw [maxOrder_iff]
  apply sorted_minOrder
  unfold neg List.Sorted
  rw [List.pairwise_map]
  exact h.imp (fun {a b} hab => by omega)

/-- C3. Pushing `x1..xn` in order onto an empty `Heap_Min` and popping `n` times returns the
input sorted ascending (a sorted rearrangement of the input) and leaves the heap empty; for
`Heap_Max` the pops return the input sorted descending, and the heap is empty afterwards. -/
theorem heap_round_trip (input : List Int) :
    (Heap_Min.popN input.length (Heap_Min.pushAll [] input)
        = (input.insertionSort (· ≤ ·), [])
      ∧ (Heap_Min.popN input.length (Heap_Min.pushAll [] input)).1.Sorted (· ≤ ·)
      ∧ (Heap_Min.popN input.length (Heap_Min.pushAll [] input)).1.Perm input)
    ∧ (Heap_Max.popN input.length (Heap_Max.pushAll [] input)
        = (input.insertionSort (· ≥ ·), [])
      ∧ (Heap_Max.popN input.length (Heap_Max.pushAll [] input)).1.Sorted (· ≥ ·)
      ∧ (Heap_Max.popN input.length (Heap_Max.pushAll [] input)).1.Perm input) := by
  obtain ⟨hord, hperm⟩ := minPushAll_spec input [] minOrder_nil
  rw [List.nil_append] at hperm
  have hmin : Heap_Min.popN input.length (Heap_Min.pushAll [] input)
      = (input.insertionSort (· ≤ ·), []) := by
    rw [← hperm.length_eq, minPopN_spec _ _ rfl hord,
      insertionSort_congr_perm (· ≤ ·) _ _ hperm]
  obtain ⟨hord2, hperm2⟩ := minPushAll_spec (neg input) [] minOrder_nil
  rw [List.nil_append] at hperm2
  have hmax : Heap_Max.popN input.length (Heap_Max.pushAll [] input)
      = (input.insertionSort (· ≥ ·), []) := by
    have hnil : neg [] = [] := rfl
    rw [maxPopN_eq, maxPushAll_eq, neg_neg_list, hnil]
    have hl : input.length = (Heap_Min.pushAll [] (neg input)).length := by
      rw [hperm2.length_eq, length_neg]
    rw [hl, minPopN_spec _ _ rfl hord2, insertionSort_congr_perm (· ≤ ·) _ _ hperm2]
    simp only [neg_sort_neg]
    rfl
  refine ⟨⟨hmin, ?_, ?_⟩, ⟨hmax, ?_, ?_⟩⟩
  · rw [hmin]; exact List.sorted_insertionSort _ _
  · rw [hmin]; exact List.perm_insertionSort _ _
  · rw [hmax]; exact List.sorted_insertionSort _ _
  · rw [hmax]; exact List.perm_insertionSort _ _

/-- C4. If `check()` is true on a `Heap_Min` (resp. `Heap_Max`), it is still true after
`push(t)` for every `t` and after `pop()` (in particular on the non-empty heap). -/
theorem heap_order_preserved (xs ys : List Int) (hx : Heap_Min.check xs = true)
    (hy : Heap_Max.check ys = true) :
    (∀ t, Heap_Min.check (Heap_Min.push xs t) = true)
      ∧ Heap_Min.check (Heap_Min.pop xs).2 = true
      ∧ (∀ t, Heap_Max.check (Heap_Max.push ys t) = true)
      ∧ Heap_Max.check (Heap_Max.pop ys).2 = true := by
  have popMin : ∀ zs : List Int, Heap_Min.check zs = true →
      Heap_Min.check (Heap_Min.pop zs).2 = true := by
    intro zs hz
    by_cases hne : zs = []
    · subst hne; exact hz
    · exact (minCheck_iff _).mpr (minPop_spec zs hne ((minCheck_iff zs).mp hz)).2.1
  have hy2 : Heap_Min.check (neg ys) = true := by rw [← maxCheck_eq]; exact hy
  refine ⟨fun t => ?_, popMin xs hx, fun t => ?_, ?_⟩
  · exact (minCheck_iff _).mpr (minPush_spec xs t ((minCheck_iff xs).mp hx)).1
  · rw [maxCheck_eq, maxPush_eq, neg_neg_list]
    exact (minCheck_iff _).mpr (minPush_spec (neg ys) (-t) ((minCheck_iff _).mp hy2)).1
  · rw [maxCheck_eq, maxPop_eq, neg_neg_list]
    exact popMin (neg ys) hy2

/-- Witness of C4 on the min-heap `[1, 3, 2]` and the max-heap `[3, 1, 2]`. -/
theorem heap_order_preserved_witness :
    Heap_Min.check [1, 3, 2] = true ∧ Heap_Max.check [3, 1, 2] = true
      ∧ ((∀ t, Heap_Min.check (Heap_Min.push [1, 3, 2] t) = true)
        ∧ Heap_Min.check (Heap_Min.pop [1, 3, 2]).2 = true
        ∧ (∀ t, Heap_Max.check (Heap_Max.push [3, 1, 2] t) = true)
        ∧ Heap_Max.check (Heap_Max.pop [3, 1, 2]).2 = true) :=
  ⟨by decide, by decide, heap_order_preserved [1, 3, 2] [3, 1, 2] (by decide) (by decide)⟩

/-- C9. `heapify(v)` on a newly constructed `Heap_Min` followed by `v.size()` calls of `pop()`
returns the elements of `v` in ascending order; on a newly constructed `Heap_Max` the pops
return them in descending order. The heap is empty afterwards. -/
theorem heapify_then_drain_sorts (v : List Int) :
    Heap_Min.popN v.length (Heap_Min.heapify [] v) = (v.insertionSort (· ≤ ·), [])
      ∧ Heap_Max.popN v.length (Heap_Max.heapify [] v) = (v.insertionSort (· ≥ ·), []) := by
  constructor
  · have e : Heap_Min.heapify [] v = v.insertionSort (· ≤ ·) := by
      simp [Heap_Min.heapify, std_sort]
    rw [e]
    have hl : v.length = (v.insertionSort (· ≤ ·)).length := (List.length_insertionSort _ _).symm
    rw [hl, minPopN_spec _ _ rfl (sorted_minOrder _ (List.sorted_insertionSort _ _)),
      insertionSort_congr_perm (· ≤ ·) _ _ (List.perm_insertionSort _ _)]
  · have e : Heap_Max.heapify [] v = v.insertionSort (· ≥ ·) := by
      simp only [Heap_Max.heapify, std_sort, List.nil_append]
      exact (sort_ge_eq_reverse v).symm
    rw [e]
    have hl : v.length = (v.insertionSort (· ≥ ·)).length := (List.length_insertionSort _ _).symm
    rw [hl, maxPopN_spec _ (sorted_maxOrder _ (List.sorted_insertionSort _ _)),
      insertionSort_congr_perm (· ≥ ·) _ _ (List.perm_insertionSort _ _)]

/-- C10, as the code behaves: on the empty heap `peek()` and `pop()` return `0`, the very value
they return on the one-element heap that holds `0`. -/
theorem empty_heap_result_is_a_data_value :
    Heap.peek [] = Heap.peek [0]
      ∧ (Heap_Min.pop []).1 = (Heap_Min.pop [0]).1
      ∧ (Heap_Max.pop []).1 = (Heap_Max.pop [0]).1 := by
  refine ⟨rfl, ?_, ?_⟩
  · simp [Heap_Min.pop, get_element]
  · simp [Heap_Max.pop, get_element]

/-- C10 amended. On the empty heap `peek()` returns `0` and `pop()` of `Heap_Min` and of
`Heap_Max` returns `0`; `pop()` leaves the heap empty. -/
theorem empty_heap_returns_zero :
    Heap.peek [] = 0 ∧ Heap_Min.pop [] = (0, []) ∧ Heap_Max.pop [] = (0, []) :=
  ⟨rfl, rfl, rfl⟩

theorem minPopLoop_perm (xs : List Int) (cur : Nat) : (Heap_Min.popLoop xs cur).Perm xs := by
  induction xs, cur using Heap_Min.popLoop.induct with
  | case1 xs cur hc h2 tmp hgt hlt ih =>
    rw [Heap_Min.popLoop, dif_pos hc, if_pos h2]
    simp only [tmp] at hgt
    simp only [hgt, hlt, if_true]
    exact ih.trans (switch_indexes_perm xs cur (cur * 2) (by omega) (by omega) (by omega) hc.2)
  | case2 xs cur hc h2 tmp hgt hlt ih =>
    rw [Heap_Min.popLoop, dif_pos hc, if_pos h2]
    simp only [tmp] at hgt
    simp only [hgt, hlt, if_true, if_false]
    exact ih.trans
      (switch_indexes_perm xs cur (cur * 2 + 1) (by omega) (by omega) (by omega) h2)
  | case3 xs cur hc h2 tmp hgt =>
    rw [Heap_Min.popLoop, dif_pos hc, if_pos h2]
    simp only [tmp] at hgt
    simp only [hgt, if_false]
    exact List.Perm.refl _
  | case4 xs cur hc h2 hlt =>
    rw [Heap_Min.popLoop, dif_pos hc, if_neg h2, if_pos hlt]
    exact switch_indexes_perm xs cur (cur * 2) (by omega) (by omega) (by omega) hc.2
  | case5 xs cur hc h2 hlt =>
    rw [Heap_Min.popLoop, dif_pos hc, if_neg h2, if_neg hlt]
  | case6 xs cur hc =>
    rw [Heap_Min.popLoop, dif_neg hc]

theorem isEmpty_false_of_ne_nil (xs : List Int) (hne : xs ≠ []) : xs.isEmpty = false := by
  cases xs with
  | nil => exact absurd rfl hne
  | cons a l => rfl

theorem peek_eq_get_element (xs : List Int) (hne : xs ≠ []) :
    Heap.peek xs = get_element xs 1 := by
  unfold Heap.peek get_element
  rw [isEmpty_false_of_ne_nil xs hne]
  rfl

/-- What `Heap_Min<T>::pop()` does on a non-empty heap, whatever the order of its elements. -/
theorem minPop_any (xs : List Int) (hne : xs ≠ []) :
    (Heap_Min.pop xs).1 = get_element xs 1
      ∧ ((Heap_Min.pop xs).1 :: (Heap_Min.pop xs).2).Perm xs := by
  have hlen : 0 < xs.length := List.length_pos.mpr hne
  have hsplit := switch_last_split xs hne
  unfold Heap_Min.pop
  simp only [isEmpty_false_of_ne_nil xs hne, Bool.false_eq_true, if_false]
  refine ⟨trivial, ?_⟩
  have p1 : (get_element xs 1 :: (switch_indexes xs 1 xs.length).dropLast).Perm
      (switch_indexes xs 1 xs.length) := by
    conv => rhs; rw [hsplit]
    exact (List.perm_append_singleton _ _).symm
  exact ((List.Perm.cons _ (minPopLoop_perm _ 1)).trans p1).trans
    (switch_indexes_perm xs 1 xs.length (le_refl _) hlen hlen (le_refl _))

theorem neg_ne_nil (xs : List Int) (hne : xs ≠ []) : neg xs ≠ [] := by
  intro h
  have := length_neg xs
  rw [h] at this
  exact hne (List.length_eq_zero.mp this.symm)

theorem neg_perm (xs ys : List Int) (h : xs.Perm ys) : (neg xs).Perm (neg ys) :=
  h.map _

theorem maxPop_any (xs : List Int) (hne : xs ≠ []) :
    (Heap_Max.pop xs).1 = get_element xs 1
      ∧ ((Heap_Max.pop xs).1 :: (Heap_Max.pop xs).2).Perm xs := by
  obtain ⟨h1, h2⟩ := minPop_any (neg xs) (neg_ne_nil xs hne)
  rw [maxPop_eq]
  constructor
  · simp only [h1, get_element_neg, neg_neg]
  · have := neg_perm _ _ h2
    rw [neg_neg_list] at this
    exact this

/-- C11. On every non-empty `Heap_Min` or `Heap_Max`, whether or not the order invariant holds,
`pop()` returns the element stored at the root (the value `peek()` returns just before),
`size()` decreases by exactly one, and the remaining elements are the previous ones with one
occurrence of the returned value removed. -/
theorem pop_postcondition (xs : List Int) (hne : xs ≠ []) :
    ((Heap_Min.pop xs).1 = Heap.peek xs ∧ (Heap_Min.pop xs).1 = get_element xs 1
      ∧ Heap.size (Heap_Min.pop xs).2 + 1 = Heap.size xs
      ∧ (Heap_Min.pop xs).2.Perm (xs.erase (Heap_Min.pop xs).1))
    ∧ ((Heap_Max.pop xs).1 = Heap.peek xs ∧ (Heap_Max.pop xs).1 = get_element xs 1
      ∧ Heap.size (Heap_Max.pop xs).2 + 1 = Heap.size xs
      ∧ (Heap_Max.pop xs).2.Perm (xs.erase (Heap_Max.pop xs).1)) := by
  obtain ⟨a1, a2⟩ := minPop_any xs hne
  obtain ⟨b1, b2⟩ := maxPop_any xs hne
  refine ⟨⟨?_, a1, ?_, ?_⟩, ⟨?_, b1, ?_, ?_⟩⟩
  · rw [a1, peek_eq_get_element xs hne]
  · have := a2.length_eq
    simpa [Heap.size] using this
  · exact (List.cons_perm_iff_perm_erase.mp a2).2
  · rw [b1, peek_eq_get_element xs hne]
  · have := b2.length_eq
    simpa [Heap.size] using this
  · exact (List.cons_perm_iff_perm_erase.mp b2).2

/-- Witness of C11 on the array `[2, 1, 3]`, which satisfies neither order invariant. -/
theorem pop_postcondition_witness :
    ([2, 1, 3] : List Int) ≠ [] ∧ Heap_Min.check [2, 1, 3] = false
      ∧ Heap_Max.check [2, 1, 3] = false
      ∧ (((Heap_Min.pop [2, 1, 3]).1 = Heap.peek [2, 1, 3]
        ∧ (Heap_Min.pop [2, 1, 3]).1 = get_element [2, 1, 3] 1
        ∧ Heap.size (Heap_Min.pop [2, 1, 3]).2 + 1 = Heap.size [2, 1, 3]
        ∧ (Heap_Min.pop [2, 1, 3]).2.Perm (([2, 1, 3] : List Int).erase (Heap_Min.pop [2, 1, 3]).1))
      ∧ ((Heap_Max.pop [2, 1, 3]).1 = Heap.peek [2, 1, 3]
        ∧ (Heap_Max.pop [2, 1, 3]).1 = get_element [2, 1, 3] 1
        ∧ Heap.size (Heap_Max.pop [2, 1, 3]).2 + 1 = Heap.size [2, 1, 3]
        ∧ (Heap_Max.pop [2, 1, 3]).2.Perm
            (([2, 1, 3] : List Int).erase (Heap_Max.pop [2, 1, 3]).1))) :=
  ⟨by decide, by decide, by decide, pop_postcondition [2, 1, 3] (by decide)⟩

theorem get_element_one_mem (xs : List Int) (hne : xs ≠ []) : get_element xs 1 ∈ xs :=
  (mem_iff_get_element xs _).mpr ⟨1, le_refl _, List.length_pos.mpr hne, rfl⟩

/-- C12. On a non-empty `Heap_Min` for which `check()` is true, `peek()` returns an element of
the heap that is less than or equal to every element (the minimum); on a non-empty `Heap_Max`
for which `check()` is true it returns the maximum. `peek()` is a function of the element array
and does not write it. -/
theorem peek_returns_extreme (xs ys : List Int) (hx : xs ≠ []) (hy : ys ≠ [])
    (hcx : Heap_Min.check xs = true) (hcy : Heap_Max.check ys = true) :
    (Heap.peek xs ∈ xs ∧ ∀ x ∈ xs, Heap.peek xs ≤ x)
      ∧ (Heap.peek ys ∈ ys ∧ ∀ y ∈ ys, y ≤ Heap.peek ys) := by
  rw [peek_eq_get_element xs hx, peek_eq_get_element ys hy]
  refine ⟨⟨get_element_one_mem xs hx, ?_⟩, ⟨get_element_one_mem ys hy, ?_⟩⟩
  · intro x hxm
    exact minOrder_root_le_mem xs ((minCheck_iff xs).mp hcx) x hxm
  · intro y hym
    have hmin : MinOrder (neg ys) := (maxOrder_iff ys).mp ((maxCheck_iff ys).mp hcy)
    have hmem : -y ∈ neg ys := List.mem_map.mpr ⟨y, hym, rfl⟩
    have := minOrder_root_le_mem (neg ys) hmin (-y) hmem
    rw [get_element_neg] at this
    omega

/-- Witness of C12 on the min-heap `[1, 3, 2]` and the max-heap `[3, 1, 2]`. -/
theorem peek_returns_extreme_witness :
    ([1, 3, 2] : List Int) ≠ [] ∧ ([3, 1, 2] : List Int) ≠ []
      ∧ Heap_Min.check [1, 3, 2] = true ∧ Heap_Max.check [3, 1, 2] = true
      ∧ ((Heap.peek [1, 3, 2] ∈ ([1, 3, 2] : List Int)
          ∧ ∀ x ∈ ([1, 3, 2] : List Int), Heap.peek [1, 3, 2] ≤ x)
        ∧ (Heap.peek [3, 1, 2] ∈ ([3, 1, 2] : List Int)
          ∧ ∀ y ∈ ([3, 1, 2] : List Int), y ≤ Heap.peek [3, 1, 2])) :=
  ⟨by decide, by decide, by decide, by decide,
    peek_returns_extreme [1, 3, 2] [3, 1, 2] (by decide) (by decide) (by decide) (by decide)⟩

/-- C13. After `heapify(v)` on a newly constructed (empty) `Heap_Min` or `Heap_Max`, `check()`
returns true, `size()` equals `v.size()`, and the elements of the heap are a permutation of the
elements of `v`. -/
theorem heapify_creates_valid_heap (v : List Int) :
    (Heap_Min.check (Heap_Min.heapify [] v) = true
      ∧ Heap.size (Heap_Min.heapify [] v) = v.length
      ∧ (Heap_Min.heapify [] v).Perm v)
    ∧ (Heap_Max.check (Heap_Max.heapify [] v) = true
      ∧ Heap.size (Heap_Max.heapify [] v) = v.length
      ∧ (Heap_Max.heapify [] v).Perm v) := by
  have e1 : Heap_Min.heapify [] v = v.insertionSort (· ≤ ·) := by
    simp [Heap_Min.heapify, std_sort]
  have e2 : Heap_Max.heapify [] v = v.insertionSort (· ≥ ·) := by
    simp only [Heap_Max.heapify, std_sort, List.nil_append]
    exact (sort_ge_eq_reverse v).symm
  rw [e1, e2]
  refine ⟨⟨?_, ?_, List.perm_insertionSort _ _⟩, ⟨?_, ?_, List.perm_insertionSort _ _⟩⟩
  · exact (minCheck_iff _).mpr (sorted_minOrder _ (List.sorted_insertionSort _ _))
  · exact List.length_insertionSort _ _
  · exact (maxCheck_iff _).mpr (sorted_maxOrder _ (List.sorted_insertionSort _ _))
  · exact List.length_insertionSort _ _

/-- C16. On a `Heap_Min`, `check()` returns true exactly when, for every position `i >= 2` of
the array (numbered from 1), the element at position `i / 2` is at most the element at position
`i`; on a `Heap_Max`, exactly when it is at least that element. In particular `check()` is true
on the empty heap and on every one-element heap. -/
theorem check_decides_order (xs : List Int) :
    (Heap_Min.check xs = true ↔
        ∀ i, 2 ≤ i → i ≤ xs.length → get_element xs (i / 2) ≤ get_element xs i)
      ∧ (Heap_Max.check xs = true ↔
        ∀ i, 2 ≤ i → i ≤ xs.length → get_element xs (i / 2) ≥ get_element xs i)
      ∧ Heap_Min.check [] = true ∧ Heap_Max.check [] = true
      ∧ (∀ a : Int, Heap_Min.check [a] = true ∧ Heap_Max.check [a] = true) := by
  refine ⟨minCheck_iff xs, maxCheck_iff xs, rfl, rfl, ?_⟩
  intro a
  constructor
  · rw [minCheck_iff]
    intro i h1 h2
    simp at h2
    omega
  · rw [maxCheck_iff]
    intro i h1 h2
    simp at h2
    omega

theorem minReachable_order (xs : List Int) (h : Heap_Min.Reachable xs) : MinOrder xs := by
  induction h with
  | empty => exact minOrder_nil
  | push xs t _ ih => exact (minPush_spec xs t ih).1
  | pop xs _ ih =>
    by_cases hne : xs = []
    · subst hne
      exact minOrder_nil
    · exact (minPop_spec xs hne ih).2.1

theorem maxReachable_order (xs : List Int) (h : Heap_Max.Reachable xs) : MaxOrder xs := by
  induction h with
  | empty => exact (maxOrder_iff []).mpr minOrder_nil
  | push xs t _ ih =>
    rw [maxOrder_iff, maxPush_eq, neg_neg_list]
    exact (minPush_spec (neg xs) (-t) ((maxOrder_iff xs).mp ih)).1
  | pop xs _ ih =>
    rw [maxOrder_iff, maxPop_eq, neg_neg_list]
    by_cases hne : xs = []
    · subst hne
      exact minOrder_nil
    · exact (minPop_spec (neg xs) (neg_ne_nil xs hne) ((maxOrder_iff xs).mp ih)).2.1

/-- C18, as the code behaves: the `Heap_Min` obtained from the empty heap by `push(1)` and
`push(2)` holds `[1, 2]`, whose parent `1` is not greater than its child `2`; the `Heap_Max`
obtained by `push(2)` and `push(1)` holds `[2, 1]`, whose parent is not smaller than its
child. -/
theorem documented_heap_order_fails :
    (Heap_Min.Reachable (Heap_Min.push (Heap_Min.push [] 1) 2)
      ∧ Heap_Min.push (Heap_Min.push [] 1) 2 = [1, 2]
      ∧ ¬ (get_element (Heap_Min.push (Heap_Min.push [] 1) 2) (2 / 2)
            > get_element (Heap_Min.push (Heap_Min.push [] 1) 2) 2))
    ∧ (Heap_Max.Reachable (Heap_Max.push (Heap_Max.push [] 2) 1)
      ∧ Heap_Max.push (Heap_Max.push [] 2) 1 = [2, 1]
      ∧ ¬ (get_element (Heap_Max.push (Heap_Max.push [] 2) 1) (2 / 2)
            < get_element (Heap_Max.push (Heap_Max.push [] 2) 1) 2)) := by
  have e1 : Heap_Min.push (Heap_Min.push [] 1) 2 = [1, 2] := by
    simp [Heap_Min.push, Heap_Min.pushLoop, get_element]
  have e2 : Heap_Max.push (Heap_Max.push [] 2) 1 = [2, 1] := by
    simp [Heap_Max.push, Heap_Max.pushLoop, get_element]
  refine ⟨⟨Heap_Min.Reachable.push _ _ (Heap_Min.Reachable.push _ _ Heap_Min.Reachable.empty),
      e1, ?_⟩,
    ⟨Heap_Max.Reachable.push _ _ (Heap_Max.Reachable.push _ _ Heap_Max.Reachable.empty),
      e2, ?_⟩⟩
  · rw [e1]; decide
  · rw [e2]; decide

/-- C18 amended. In every `Heap_Min` reachable from the empty heap by `push` and `pop`, each
parent is less than or equal to its children; in every `Heap_Max` so reachable, each parent is
greater than or equal to its children. -/
theorem reachable_heap_order (xs ys : List Int) (hx : Heap_Min.Reachable xs)
    (hy : Heap_Max.Reachable ys) :
    (∀ i, 2 ≤ i → i ≤ xs.length → get_element xs (i / 2) ≤ get_element xs i)
      ∧ (∀ i, 2 ≤ i → i ≤ ys.length → get_element ys (i / 2) ≥ get_element ys i) :=
  ⟨minReachable_order xs hx, maxReachable_order ys hy⟩

/-- Witness of C18 amended on the heaps obtained by two calls of `push`. -/
theorem reachable_heap_order_witness :
    Heap_Min.Reachable (Heap_Min.push (Heap_Min.push [] 1) 2)
      ∧ Heap_Max.Reachable (Heap_Max.push (Heap_Max.push [] 2) 1)
      ∧ ((∀ i, 2 ≤ i → i ≤ (Heap_Min.push (Heap_Min.push [] 1) 2).length →
            get_element (Heap_Min.push (Heap_Min.push [] 1) 2) (i / 2)
              ≤ get_element (Heap_Min.push (Heap_Min.push [] 1) 2) i)
        ∧ (∀ i, 2 ≤ i → i ≤ (Heap_Max.push (Heap_Max.push [] 2) 1).length →
            get_element (Heap_Max.push (Heap_Max.push [] 2) 1) (i / 2)
              ≥ get_element (Heap_Max.push (Heap_Max.push [] 2) 1) i)) :=
  ⟨Heap_Min.Reachable.push _ _ (Heap_Min.Reachable.push _ _ Heap_Min.Reachable.empty),
    Heap_Max.Reachable.push _ _ (Heap_Max.Reachable.push _ _ Heap_Max.Reachable.empty),
    reachable_heap_order _ _
      (Heap_Min.Reachable.push _ _ (Heap_Min.Reachable.push _ _ Heap_Min.Reachable.empty))
      (Heap_Max.Reachable.push _ _ (Heap_Max.Reachable.push _ _ Heap_Max.Reachable.empty))⟩

/-- C19. On every heap, `heapify(v)` leaves the element array `xs` in place and appends the
sorted vector: `xs` followed by the ascending sort of `v` for `Heap_Min`, by the descending sort
for `Heap_Max`. So the valid `Heap_Min` holding `[5]` fails `check()` after `heapify([1, 2])`,
and the valid `Heap_Max` holding `[1]` fails it after `heapify([5, 2])`. -/
theorem heapify_appends (xs v : List Int) :
    Heap_Min.heapify xs v = xs ++ v.insertionSort (· ≤ ·)
      ∧ Heap_Max.heapify xs v = xs ++ v.insertionSort (· ≥ ·)
      ∧ (Heap_Min.heapify xs v).take xs.length = xs
      ∧ (Heap_Max.heapify xs v).take xs.length = xs
      ∧ (Heap_Min.check [5] = true ∧ Heap_Min.heapify [5] [1, 2] = [5, 1, 2]
          ∧ Heap_Min.check (Heap_Min.heapify [5] [1, 2]) = false)
      ∧ (Heap_Max.check [1] = true ∧ Heap_Max.heapify [1] [5, 2] = [1, 5, 2]
          ∧ Heap_Max.check (Heap_Max.heapify [1] [5, 2]) = false) := by
  have e1 : Heap_Min.heapify xs v = xs ++ v.insertionSort (· ≤ ·) := rfl
  have e2 : Heap_Max.heapify xs v = xs ++ v.insertionSort (· ≥ ·) := by
    simp only [Heap_Max.heapify, std_sort]
    rw [sort_ge_eq_reverse]
  refine ⟨e1, e2, ?_, ?_, ⟨by decide, by decide, by decide⟩, ⟨by decide, by decide, by decide⟩⟩
  · rw [e1, List.take_left']
    rfl
  · rw [e2, List.take_left']
    rfl

/-- C20. Writing `neg xs` for the element array with every element negated: `Heap_Max.push(t)`
on `xs` gives `neg` of what `Heap_Min.push(-t)` gives on `neg xs`; `Heap_Max.pop()` on `xs`
returns the negation of what `Heap_Min.pop()` returns on `neg xs` and leaves `neg` of the array
it leaves (on the empty heap too); and `Heap_Max.check()` on `xs` equals `Heap_Min.check()` on
`neg xs`. -/
theorem heap_max_is_dual_of_heap_min (xs : List Int) :
    (∀ t, Heap_Max.push xs t = neg (Heap_Min.push (neg xs) (-t)))
      ∧ (Heap_Max.pop xs).1 = -(Heap_Min.pop (neg xs)).1
      ∧ (Heap_Max.pop xs).2 = neg (Heap_Min.pop (neg xs)).2
      ∧ Heap_Max.check xs = Heap_Min.check (neg xs) := by
  refine ⟨fun t => maxPush_eq xs t, ?_, ?_, maxCheck_eq xs⟩
  · rw [maxPop_eq]
  · rw [maxPop_eq]

/-! ## Theorems on the naive Dijkstra handler -/

namespace Dijkstra

theorem int_add_eq (a b : Int) (h1 : -2147483648 ≤ a + b) (h2 : a + b < 2147483648) :
    int_add a b = a + b := by
  unfold int_add
  omega

theorem minStep_eq (h : DSP_handler_naive) (acc : Option Edge × Int) (e : Edge) :
    h.minStep acc e =
      match h.frontierValue e with
      | some c => if c < acc.2 then (some e, c) else acc
      | none => acc := by
  unfold DSP_handler_naive.minStep DSP_handler_naive.frontierValue
  cases h._getVertexInX e with
  | none => rfl
  | some x =>
    simp only
    split <;> rfl

theorem foldl_minStep (h : DSP_handler_naive) (es : List Edge) :
    ∀ acc : Option Edge × Int,
      (es.foldl h.minStep acc).2 ≤ acc.2
      ∧ (∀ e ∈ es, ∀ c, h.frontierValue e = some c → (es.foldl h.minStep acc).2 ≤ c)
      ∧ (es.foldl h.minStep acc = acc
          ∨ ∃ e ∈ es, (es.foldl h.minStep acc).1 = some e
              ∧ h.frontierValue e = some (es.foldl h.minStep acc).2
              ∧ (es.foldl h.minStep acc).2 < acc.2) := by
  induction es with
  | nil =>
    intro acc
    exact ⟨le_refl _, fun e he => absurd he (List.not_mem_nil e), Or.inl rfl⟩
  | cons a l ih =>
    intro acc
    rw [List.foldl_cons]
    obtain ⟨h1, h2, h3⟩ := ih (h.minStep acc a)
    have hs := minStep_eq h acc a
    cases hf : h.frontierValue a with
    | none =>
      rw [hf] at hs
      simp only at hs
      rw [hs] at h1 h2 h3 ⊢
      refine ⟨h1, ?_, ?_⟩
      · intro e he c hc
        rcases List.mem_cons.mp he with rfl | he
        · rw [hf] at hc; exact absurd hc (by simp)
        · exact h2 e he c hc
      · rcases h3 with h3 | ⟨e, he, h3⟩
        · exact Or.inl h3
        · exact Or.inr ⟨e, List.mem_cons_of_mem _ he, h3⟩
    | some c0 =>
      rw [hf] at hs
      simp only at hs
      by_cases hlt : c0 < acc.2
      · rw [if_pos hlt] at hs
        rw [hs] at h1 h2 h3 ⊢
        simp only at h1
        refine ⟨by omega, ?_, Or.inr ?_⟩
        · intro e he c hc
          rcases List.mem_cons.mp he with rfl | he
          · rw [hf] at hc
            have : c0 = c := by simpa using hc
            omega
          · exact h2 e he c hc
        · rcases h3 with h3 | ⟨e, he, h3a, h3b, h3c⟩
          · rw [h3]
            exact ⟨a, List.mem_cons_self _ _, rfl, hf, hlt⟩
          · exact ⟨e, List.mem_cons_of_mem _ he, h3a, h3b, by simp only at h3c; omega⟩
      · rw [if_neg hlt] at hs
        rw [hs] at h1 h2 h3 ⊢
        refine ⟨h1, ?_, ?_⟩
        · intro e he c hc
          rcases List.mem_cons.mp he with rfl | he
          · rw [hf] at hc
            have : c0 = c := by simpa using hc
            omega
          · exact h2 e he c hc
        · rcases h3 with h3 | ⟨e, he, h3⟩
          · exact Or.inl h3
          · exact Or.inr ⟨e, List.mem_cons_of_mem _ he, h3⟩

theorem getMin_none (h : DSP_handler_naive) (hn : h._getMinimumEdgeWeight = none) :
    ∀ e ∈ h.m_graph.m_edges, ∀ c, h.frontierValue e = some c → INT_MAX ≤ c := by
  unfold DSP_handler_naive._getMinimumEdgeWeight at hn
  obtain ⟨_, h2, h3⟩ := foldl_minStep h h.m_graph.m_edges (none, INT_MAX)
  rcases h3 with h3 | ⟨e, _, h3, _⟩
  · rw [h3] at h2
    exact h2
  · rw [hn] at h3
    exact absurd h3 (by simp)

theorem getMin_some (h : DSP_handler_naive) (e : Edge) (hs : h._getMinimumEdgeWeight = some e) :
    e ∈ h.m_graph.m_edges ∧ ∃ c, h.frontierValue e = some c ∧ c < INT_MAX
      ∧ ∀ e2 ∈ h.m_graph.m_edges, ∀ c2, h.frontierValue e2 = some c2 → c ≤ c2 := by
  unfold DSP_handler_naive._getMinimumEdgeWeight at hs
  obtain ⟨_, h2, h3⟩ := foldl_minStep h h.m_graph.m_edges (none, INT_MAX)
  rcases h3 with h3 | ⟨e2, he2, h3a, h3b, h3c⟩
  · rw [h3] at hs
    exact absurd hs (by simp)
  · rw [hs] at h3a
    have : e = e2 := by simpa using h3a
    subst this
    exact ⟨he2, _, h3b, h3c, h2⟩

/-- What `frontierValue e = some c` says: the end found in `m_X`, the other end outside. -/
theorem frontierValue_some (h : DSP_handler_naive) (e : Edge) (c : Int)
    (hc : h.frontierValue e = some c) :
    ∃ x, h._getVertexInX e = some x ∧ x ∈ h.m_X ∧ (x = e.m_vertex1 ∨ x = e.m_vertex2)
      ∧ e.getOtherEnd x ∉ h.m_X ∧ c = int_add e.m_weight (h.m_Dijkstra_weight x) := by
  unfold DSP_handler_naive.frontierValue at hc
  cases hx : h._getVertexInX e with
  | none => rw [hx] at hc; exact absurd hc (by simp)
  | some x =>
    rw [hx] at hc
    simp only at hc
    by_cases ho : e.getOtherEnd x ∉ h.m_X
    · rw [if_pos ho] at hc
      refine ⟨x, rfl, ?_, ?_, ho, by simpa using hc.symm⟩
      · unfold DSP_handler_naive._getVertexInX at hx
        split at hx
        · rename_i h1
          have : e.m_vertex1 = x := by simpa using hx
          rw [← this]; exact h1
        · split at hx
          · rename_i h1 h2
            have : e.m_vertex2 = x := by simpa using hx
            rw [← this]; exact h2
          · exact absurd hx (by simp)
      · unfold DSP_handler_naive._getVertexInX at hx
        split at hx
        · left; simpa using hx.symm
        · split at hx
          · right; simpa using hx.symm
          · exact absurd hx (by simp)
    · rw [if_neg ho] at hc
      exact absurd hc (by simp)

/-- An edge with an end `x` in `m_X` whose other end is outside has a frontier value, computed
from `x`. -/
theorem frontierValue_of_crossing (h : DSP_handler_naive) (e : Edge) (x : Nat)
    (hx : x ∈ h.m_X) (hinc : x = e.m_vertex1 ∨ x = e.m_vertex2)
    (ho : e.getOtherEnd x ∉ h.m_X) :
    h.frontierValue e = some (int_add e.m_weight (h.m_Dijkstra_weight x)) := by
  unfold DSP_handler_naive.frontierValue DSP_handler_naive._getVertexInX
  unfold Edge.getOtherEnd at ho
  rcases hinc with rfl | rfl
  · rw [if_pos hx]
    simp only [Edge.getOtherEnd, if_true]
    rw [if_pos rfl] at ho
    rw [if_pos ho]
  · by_cases h1 : e.m_vertex1 ∈ h.m_X
    · exfalso
      by_cases h2 : e.m_vertex2 = e.m_vertex1
      · rw [if_pos h2] at ho; exact ho hx
      · rw [if_neg h2] at ho; exact ho h1
    · rw [if_neg h1, if_pos hx]
      have h2 : ¬ e.m_vertex2 = e.m_vertex1 := by
        intro h2; rw [h2] at hx; exact h1 hx
      simp only [Edge.getOtherEnd, if_neg h2]
      rw [if_pos h1]


theorem settle_X (h : DSP_handler_naive) (e : Edge) (x : Nat) (ho : e.getOtherEnd x ∉ h.m_X) :
    (h.settle e x).m_X = e.getOtherEnd x :: h.m_X := by
  unfold DSP_handler_naive.settle
  exact List.insert_of_not_mem ho

theorem settle_graph (h : DSP_handler_naive) (e : Edge) (x : Nat) :
    (h.settle e x).m_graph = h.m_graph := rfl

theorem settle_start (h : DSP_handler_naive) (e : Edge) (x : Nat) :
    (h.settle e x).m_startVertex = h.m_startVertex := rfl

theorem settle_weight (h : DSP_handler_naive) (e : Edge) (x v : Nat) :
    (h.settle e x).m_Dijkstra_weight v =
      if v = e.getOtherEnd x then int_add (h.m_Dijkstra_weight x) e.m_weight
      else h.m_Dijkstra_weight v := rfl

theorem settle_route (h : DSP_handler_naive) (e : Edge) (x v : Nat) :
    (h.settle e x).m_vertex_route v =
      if v = e.getOtherEnd x then some e else h.m_vertex_route v := rfl

/-- What the loop of `run` knows about the edge it selected. -/
theorem selected_edge (h : DSP_handler_naive) (e : Edge) (x : Nat)
    (hm : h._getMinimumEdgeWeight = some e) (hx : h._getVertexInX e = some x) :
    e ∈ h.m_graph.m_edges ∧ x ∈ h.m_X ∧ (x = e.m_vertex1 ∨ x = e.m_vertex2)
      ∧ e.getOtherEnd x ∉ h.m_X
      ∧ h.frontierValue e = some (int_add e.m_weight (h.m_Dijkstra_weight x))
      ∧ int_add e.m_weight (h.m_Dijkstra_weight x) < INT_MAX
      ∧ ∀ e2 ∈ h.m_graph.m_edges, ∀ c2, h.frontierValue e2 = some c2 →
          int_add e.m_weight (h.m_Dijkstra_weight x) ≤ c2 := by
  obtain ⟨he, c, hc, hlt, hmin⟩ := getMin_some h e hm
  obtain ⟨x2, hx2, hxX, hinc, ho, hceq⟩ := frontierValue_some h e c hc
  rw [hx] at hx2
  have : x = x2 := by simpa using hx2
  subst this
  subst hceq
  exact ⟨he, hxX, hinc, ho, hc, hlt, hmin⟩

theorem runLoop_terminates : ∀ (fuel : Nat) (h : DSP_handler_naive),
    h.m_graph.m_vertexes.length - h.m_X.length < fuel →
      ∃ st, DSP_handler_naive.runLoop fuel h = some st := by
  intro fuel
  induction fuel with
  | zero => intro h hlt; omega
  | succ fuel ih =>
    intro h hlt
    unfold DSP_handler_naive.runLoop
    by_cases hc : h.m_X.length < h.m_graph.m_vertexes.length
    · rw [if_pos hc]
      cases hm : h._getMinimumEdgeWeight with
      | none => exact ⟨h, rfl⟩
      | some e =>
        obtain ⟨_, c, hfv, _, _⟩ := getMin_some h e hm
        obtain ⟨x, hx, _, _, ho, _⟩ := frontierValue_some h e c hfv
        simp only [hx]
        apply ih
        rw [settle_X h e x ho, settle_graph]
        simp only [List.length_cons]
        omega
    · rw [if_neg hc]
      exact ⟨h, rfl⟩

theorem runLoop_inv (P : DSP_handler_naive → Prop)
    (hstep : ∀ h e x, P h → h.m_X.length < h.m_graph.m_vertexes.length →
      h._getMinimumEdgeWeight = some e → h._getVertexInX e = some x → P (h.settle e x)) :
    ∀ (fuel : Nat) (h st : DSP_handler_naive), P h →
      DSP_handler_naive.runLoop fuel h = some st →
        P st ∧ (¬ st.m_X.length < st.m_graph.m_vertexes.length
          ∨ st._getMinimumEdgeWeight = none) := by
  intro fuel
  induction fuel with
  | zero =>
    intro h st _ hr
    exact absurd hr (by simp [DSP_handler_naive.runLoop])
  | succ fuel ih =>
    intro h st hP hr
    unfold DSP_handler_naive.runLoop at hr
    by_cases hc : h.m_X.length < h.m_graph.m_vertexes.length
    · rw [if_pos hc] at hr
      cases hm : h._getMinimumEdgeWeight with
      | none =>
        rw [hm] at hr
        have : h = st := by simpa using hr
        subst this
        exact ⟨hP, Or.inr hm⟩
      | some e =>
        rw [hm] at hr
        cases hx : h._getVertexInX e with
        | none =>
          simp only [hx] at hr
          exact absurd hr (by simp)
        | some x =>
          simp only [hx] at hr
          exact ih _ st (hstep h e x hP hc hm hx) hr
    · rw [if_neg hc] at hr
      have : h = st := by simpa using hr
      subst this
      exact ⟨hP, Or.inl hc⟩

theorem getOtherEnd_back (e : Edge) (x : Nat) (hinc : x = e.m_vertex1 ∨ x = e.m_vertex2)
    (hne : e.getOtherEnd x ≠ x) :
    (e.getOtherEnd x = e.m_vertex1 ∨ e.getOtherEnd x = e.m_vertex2)
      ∧ e.getOtherEnd (e.getOtherEnd x) = x := by
  unfold Edge.getOtherEnd at hne ⊢
  rcases hinc with rfl | rfl
  · rw [if_pos rfl] at hne ⊢
    exact ⟨Or.inr rfl, by rw [if_neg hne]⟩
  · by_cases h : e.m_vertex2 = e.m_vertex1
    · rw [if_pos h] at hne; exact absurd rfl hne
    · rw [if_neg h]
      exact ⟨Or.inl rfl, by rw [if_pos rfl]⟩

theorem routeInv_step (g : Graph) (s : Nat) (h : DSP_handler_naive) (e : Edge) (x : Nat)
    (hI : RouteInv g s h) (hm : h._getMinimumEdgeWeight = some e)
    (hx : h._getVertexInX e = some x) : RouteInv g s (h.settle e x) := by
  obtain ⟨hg, hs, hsX, hnd, hroute, hchain, hINF, hzero⟩ := hI
  obtain ⟨he, hxX, hinc, ho, _, _, _⟩ := selected_edge h e x hm hx
  have hXeq := settle_X h e x ho
  have hts : s ≠ e.getOtherEnd x := fun h0 => ho (by rw [← h0]; exact hsX)
  have hxt : e.getOtherEnd x ≠ x := fun h0 => ho (by rw [h0]; exact hxX)
  obtain ⟨hinc2, hback⟩ := getOtherEnd_back e x hinc hxt
  refine ⟨hg, hs, ?_, ?_, ?_, ?_, ?_, ?_⟩
  · rw [hXeq]; exact List.mem_cons_of_mem _ hsX
  · rw [hXeq]; exact List.nodup_cons.mpr ⟨ho, hnd⟩
  · intro v
    rw [settle_route, hXeq]
    by_cases hv : v = e.getOtherEnd x
    · rw [if_pos hv]
      constructor
      · intro h0; exact absurd h0 (by simp)
      · rintro (h0 | h0)
        · exact absurd (hv ▸ List.mem_cons_self _ _) h0
        · exact absurd (h0 ▸ hv) hts
    · rw [if_neg hv, hroute v]
      simp only [List.mem_cons, not_or]
      constructor
      · rintro (h0 | h0)
        · exact Or.inl ⟨hv, h0⟩
        · exact Or.inr h0
      · rintro (h0 | h0)
        · exact Or.inl h0.2
        · exact Or.inr h0
  · intro v e2 hr
    rw [settle_route] at hr
    rw [hXeq]
    by_cases hv : v = e.getOtherEnd x
    · rw [if_pos hv] at hr
      have : e = e2 := by simpa using hr
      subst this
      subst hv
      rw [hback]
      refine ⟨hg ▸ he, hinc2, List.mem_cons_of_mem _ hxX, ?_, ?_⟩
      · rw [List.indexOf_cons_self, List.indexOf_cons_ne _ hxt]
        omega
      · rw [settle_weight, settle_weight, if_pos rfl, if_neg (Ne.symm hxt)]
    · rw [if_neg hv] at hr
      obtain ⟨c1, c2, c3, c4, c5⟩ := hchain v e2 hr
      have hvX : v ∈ h.m_X := by
        by_contra h0
        have := (hroute v).mpr (Or.inl h0)
        rw [this] at hr
        exact absurd hr (by simp)
      have hne2 : e2.getOtherEnd v ≠ e.getOtherEnd x := fun h0 => ho (by rw [← h0]; exact c3)
      refine ⟨c1, c2, List.mem_cons_of_mem _ c3, ?_, ?_⟩
      · rw [List.indexOf_cons_ne _ (Ne.symm hv), List.indexOf_cons_ne _ (Ne.symm hne2)]
        omega
      · rw [settle_weight, settle_weight, if_neg hv, if_neg hne2]
        exact c5
  · intro v hv
    rw [hXeq] at hv
    simp only [List.mem_cons, not_or] at hv
    rw [settle_weight, if_neg hv.1]
    exact hINF v hv.2
  · rw [settle_weight, if_neg hts]
    exact hzero


theorem pathWeight_nil : pathWeight [] = 0 := rfl

theorem pathWeight_cons (e : Edge) (es : List Edge) :
    pathWeight (e :: es) = e.m_weight + pathWeight es := by
  simp [pathWeight]

theorem pathWeight_append (p q : List Edge) :
    pathWeight (p ++ q) = pathWeight p + pathWeight q := by
  simp [pathWeight]

theorem pathWeight_nonneg (g : Graph) (hw : NonNegWeights g) (es : List Edge)
    (hes : ∀ e ∈ es, e ∈ g.m_edges) : 0 ≤ pathWeight es := by
  induction es with
  | nil => simp [pathWeight]
  | cons a l ih =>
    rw [pathWeight_cons]
    have h1 := hw a (hes a (List.mem_cons_self _ _))
    have h2 := ih (fun e he => hes e (List.mem_cons_of_mem _ he))
    omega

theorem pathEnd_snoc (p : List Edge) (e : Edge) : ∀ (a b : Nat), pathEnd a p = some b →
    (b = e.m_vertex1 ∨ b = e.m_vertex2) → pathEnd a (p ++ [e]) = some (e.getOtherEnd b) := by
  induction p with
  | nil =>
    intro a b hab hinc
    have : a = b := by simpa [pathEnd] using hab
    subst this
    simp [pathEnd, hinc]
  | cons c l ih =>
    intro a b hab hinc
    simp only [pathEnd, List.cons_append] at hab ⊢
    by_cases hc : a = c.m_vertex1 ∨ a = c.m_vertex2
    · rw [if_pos hc] at hab ⊢
      exact ih _ b hab hinc
    · rw [if_neg hc] at hab
      exact absurd hab (by simp)

theorem pathVertices_snoc (p : List Edge) (e : Edge) : ∀ (a b : Nat), pathEnd a p = some b →
    pathVertices a (p ++ [e]) = pathVertices a p ++ [e.getOtherEnd b] := by
  induction p with
  | nil =>
    intro a b hab
    have : a = b := by simpa [pathEnd] using hab
    subst this
    simp [pathVertices]
  | cons c l ih =>
    intro a b hab
    simp only [pathEnd] at hab
    by_cases hc : a = c.m_vertex1 ∨ a = c.m_vertex2
    · rw [if_pos hc] at hab
      show a :: pathVertices (c.getOtherEnd a) (l ++ [e]) = _
      rw [ih _ b hab]
      rfl
    · rw [if_neg hc] at hab
      exact absurd hab (by simp)

/-- A walk that starts inside `X` and ends outside leaves `X` along some edge. -/
theorem first_crossing (X : List Nat) (es : List Edge) : ∀ (a b : Nat), a ∈ X → b ∉ X →
    pathEnd a es = some b →
      ∃ pre e post x, es = pre ++ e :: post ∧ pathEnd a pre = some x ∧ x ∈ X
        ∧ (x = e.m_vertex1 ∨ x = e.m_vertex2) ∧ e.getOtherEnd x ∉ X := by
  induction es with
  | nil =>
    intro a b ha hb hab
    have : a = b := by simpa [pathEnd] using hab
    subst this
    exact absurd ha hb
  | cons c l ih =>
    intro a b ha hb hab
    simp only [pathEnd] at hab
    by_cases hc : a = c.m_vertex1 ∨ a = c.m_vertex2
    · rw [if_pos hc] at hab
      by_cases hn : c.getOtherEnd a ∈ X
      · obtain ⟨pre, e, post, x, h1, h2, h3, h4, h5⟩ := ih _ b hn hb hab
        refine ⟨c :: pre, e, post, x, by rw [h1]; rfl, ?_, h3, h4, h5⟩
        simp only [pathEnd]
        rw [if_pos hc]
        exact h2
      · exact ⟨[], c, l, a, rfl, rfl, ha, hc, hn⟩
    · rw [if_neg hc] at hab
      exact absurd hab (by simp)

/-- The value computed for a frontier edge is the true sum, below `INT_MAX`, and it is the
weight of a path without repeated vertex to the outer end. -/
theorem frontier_sum (g : Graph) (s : Nat) (h : DSP_handler_naive) (hw : NonNegWeights g)
    (hsum : PathSumsBelowIntMax g s) (hM : MetricInv g s h) (e : Edge) (x : Nat)
    (he : e ∈ g.m_edges) (hx : x ∈ h.m_X) (hinc : x = e.m_vertex1 ∨ x = e.m_vertex2)
    (ho : e.getOtherEnd x ∉ h.m_X) :
    int_add e.m_weight (h.m_Dijkstra_weight x) = h.m_Dijkstra_weight x + e.m_weight
      ∧ int_add (h.m_Dijkstra_weight x) e.m_weight = h.m_Dijkstra_weight x + e.m_weight
      ∧ ∃ q, IsSimplePath g s (e.getOtherEnd x) q
          ∧ (∀ u ∈ pathVertices s q, u ∈ e.getOtherEnd x :: h.m_X)
          ∧ pathWeight q = h.m_Dijkstra_weight x + e.m_weight := by
  obtain ⟨p, ⟨⟨hp1, hp2⟩, hp3⟩, hp4, hp5⟩ := hM.1 x hx
  have hq1 : ∀ e2 ∈ p ++ [e], e2 ∈ g.m_edges := by
    intro e2 he2
    rcases List.mem_append.mp he2 with h0 | h0
    · exact hp1 e2 h0
    · have : e2 = e := by simpa using h0
      rw [this]; exact he
  have hq2 := pathEnd_snoc p e s x hp2 hinc
  have hq3 := pathVertices_snoc p e s x hp2
  have hq4 : (pathVertices s (p ++ [e])).Nodup := by
    rw [hq3]
    apply List.Nodup.append hp3 (List.nodup_singleton _)
    intro u hu1 hu2
    have : u = e.getOtherEnd x := by simpa using hu2
    exact ho (this ▸ hp4 u hu1)
  have hqw : pathWeight (p ++ [e]) = h.m_Dijkstra_weight x + e.m_weight := by
    rw [pathWeight_append, pathWeight_cons, pathWeight_nil, hp5]
    omega
  have hlt := hsum _ _ ⟨⟨hq1, hq2⟩, hq4⟩
  have hge := pathWeight_nonneg g hw _ hq1
  rw [hqw] at hlt hge
  unfold INT_MAX at hlt
  refine ⟨?_, ?_, p ++ [e], ⟨⟨hq1, hq2⟩, hq4⟩, ?_, hqw⟩
  · rw [int_add_eq _ _ (by omega) (by omega)]; omega
  · rw [int_add_eq _ _ (by omega) (by omega)]
  · intro u hu
    rw [hq3] at hu
    rcases List.mem_append.mp hu with h0 | h0
    · exact List.mem_cons_of_mem _ (hp4 u h0)
    · have : u = e.getOtherEnd x := by simpa using h0
      rw [this]; exact List.mem_cons_self _ _

theorem metricInv_step (g : Graph) (s : Nat) (h : DSP_handler_naive) (e : Edge) (x : Nat)
    (hw : NonNegWeights g) (hsum : PathSumsBelowIntMax g s)
    (hR : RouteInv g s h) (hM : MetricInv g s h) (hm : h._getMinimumEdgeWeight = some e)
    (hx : h._getVertexInX e = some x) : MetricInv g s (h.settle e x) := by
  obtain ⟨hg, hs, hsX, hnd, hroute, hchain, hINF, hzero⟩ := hR
  obtain ⟨he, hxX, hinc, ho, _, _, hmin⟩ := selected_edge h e x hm hx
  rw [hg] at he hmin
  have hXeq := settle_X h e x ho
  have hxt : e.getOtherEnd x ≠ x := fun h0 => ho (by rw [h0]; exact hxX)
  obtain ⟨_, hback⟩ := getOtherEnd_back e x hinc hxt
  obtain ⟨hv1, hv2, q, hq1, hq2, hq3⟩ := frontier_sum g s h hw hsum hM e x he hxX hinc ho
  refine ⟨?_, ?_, ?_⟩
  · intro v hv
    rw [hXeq] at hv ⊢
    rw [settle_weight]
    by_cases hvt : v = e.getOtherEnd x
    · rw [if_pos hvt, hv2, hvt]
      exact ⟨q, hq1, hq2, hq3.symm⟩
    · rw [if_neg hvt]
      have hvX : v ∈ h.m_X := by
        rcases List.mem_cons.mp hv with h0 | h0
        · exact absurd h0 hvt
        · exact h0
      obtain ⟨p, hp1, hp2, hp3⟩ := hM.1 v hvX
      exact ⟨p, hp1, fun u hu => List.mem_cons_of_mem _ (hp2 u hu), hp3⟩
  · intro v hv es hes
    rw [hXeq] at hv
    rw [settle_weight]
    by_cases hvt : v = e.getOtherEnd x
    · rw [if_pos hvt, hv2]
      rw [hvt] at hes
      obtain ⟨pre, e2, post, x2, h1, h2, h3, h4, h5⟩ :=
        first_crossing h.m_X es s (e.getOtherEnd x) hsX ho hes.2
      have he2 : e2 ∈ g.m_edges := hes.1 e2 (by rw [h1]; simp)
      have hpre : ∀ e3 ∈ pre, e3 ∈ g.m_edges := fun e3 h0 => hes.1 e3 (by rw [h1]; simp [h0])
      have hpost : ∀ e3 ∈ post, e3 ∈ g.m_edges := fun e3 h0 => hes.1 e3 (by rw [h1]; simp [h0])
      have hfv := frontierValue_of_crossing h e2 x2 h3 h4 h5
      have hle := hmin e2 he2 _ hfv
      obtain ⟨hv3, _, _⟩ := frontier_sum g s h hw hsum hM e2 x2 he2 h3 h4 h5
      rw [hv1, hv3] at hle
      have hx2 := hM.2.1 x2 h3 pre ⟨hpre, h2⟩
      have hpn := pathWeight_nonneg g hw post hpost
      rw [h1, pathWeight_append, pathWeight_cons]
      omega
    · rw [if_neg hvt]
      have hvX : v ∈ h.m_X := by
        rcases List.mem_cons.mp hv with h0 | h0
        · exact absurd h0 hvt
        · exact h0
      exact hM.2.1 v hvX es hes
  · intro v e2 hr
    rw [settle_route] at hr
    by_cases hvt : v = e.getOtherEnd x
    · rw [if_pos hvt] at hr
      have : e = e2 := by simpa using hr
      subst this
      subst hvt
      rw [hback, settle_weight, settle_weight, if_pos rfl, if_neg (Ne.symm hxt), hv2]
    · rw [if_neg hvt] at hr
      obtain ⟨_, _, c3, _, _⟩ := hchain v e2 hr
      have hne2 : e2.getOtherEnd v ≠ e.getOtherEnd x := fun h0 => ho (by rw [← h0]; exact c3)
      rw [settle_weight, settle_weight, if_neg hvt, if_neg hne2]
      exact hM.2.2 v e2 hr


/-- The state of `run` on a fresh handler when its loop starts. -/
theorem run_fresh_eq (g : Graph) (s : Nat) (fuel : Nat) :
    DSP_handler_naive.run fuel (DSP_handler_naive.fresh g s) =
      DSP_handler_naive.runLoop fuel
        { m_graph := g, m_startVertex := s, m_vertex_route := fun _ => none, m_X := [s],
          m_Dijkstra_weight := fun v => if v = s then 0 else INT_MAX } := rfl

theorem routeInv_init (g : Graph) (s : Nat) :
    RouteInv g s
      { m_graph := g, m_startVertex := s, m_vertex_route := fun _ => none, m_X := [s],
        m_Dijkstra_weight := fun v => if v = s then 0 else INT_MAX } := by
  refine ⟨rfl, rfl, List.mem_singleton_self s, List.nodup_singleton s, ?_, ?_, ?_, ?_⟩
  · intro v
    simp only [List.mem_singleton, true_iff]
    by_cases hv : v = s
    · exact Or.inr hv
    · exact Or.inl hv
  · intro v e hr
    exact absurd hr (by simp)
  · intro v hv
    simp only [List.mem_singleton] at hv
    simp only [if_neg hv]
  · simp only [if_true]

theorem metricInv_init (g : Graph) (s : Nat) (hw : NonNegWeights g) :
    MetricInv g s
      { m_graph := g, m_startVertex := s, m_vertex_route := fun _ => none, m_X := [s],
        m_Dijkstra_weight := fun v => if v = s then 0 else INT_MAX } := by
  refine ⟨?_, ?_, ?_⟩
  · intro v hv
    simp only [List.mem_singleton] at hv
    subst hv
    refine ⟨[], ⟨⟨fun e he => absurd he (List.not_mem_nil e), rfl⟩, ?_⟩, ?_, ?_⟩
    · simp [pathVertices]
    · intro u hu
      simpa [pathVertices] using hu
    · simp [pathWeight]
  · intro v hv es hes
    simp only [List.mem_singleton] at hv
    subst hv
    simp only [if_true]
    exact pathWeight_nonneg g hw es hes.1
  · intro v e hr
    exact absurd hr (by simp)

/-- Source `run` on a fresh handler returns, and the structural invariant holds in the state it
returns, where the loop condition is false or no edge was selected. -/
theorem run_fresh_route (g : Graph) (s : Nat) (fuel : Nat)
    (hf : g.m_vertexes.length < fuel) :
    ∃ st, DSP_handler_naive.run fuel (DSP_handler_naive.fresh g s) = some st
      ∧ RouteInv g s st
      ∧ (¬ st.m_X.length < st.m_graph.m_vertexes.length ∨ st._getMinimumEdgeWeight = none) := by
  rw [run_fresh_eq]
  obtain ⟨st, hst⟩ := runLoop_terminates fuel
    { m_graph := g, m_startVertex := s, m_vertex_route := fun _ => none, m_X := [s],
      m_Dijkstra_weight := fun v => if v = s then 0 else INT_MAX }
    (by simp only [List.length_singleton]; omega)
  have := runLoop_inv (RouteInv g s)
    (fun h e x hP _ hm hx => routeInv_step g s h e x hP hm hx) fuel _ st
    (routeInv_init g s) hst
  exact ⟨st, hst, this.1, this.2⟩

/-- The same with the invariant on the distances, for non-negative weights and path sums below
`INT_MAX`. -/
theorem run_fresh_metric (g : Graph) (s : Nat) (fuel : Nat) (hw : NonNegWeights g)
    (hsum : PathSumsBelowIntMax g s) (hf : g.m_vertexes.length < fuel) :
    ∃ st, DSP_handler_naive.run fuel (DSP_handler_naive.fresh g s) = some st
      ∧ RouteInv g s st ∧ MetricInv g s st
      ∧ (¬ st.m_X.length < st.m_graph.m_vertexes.length ∨ st._getMinimumEdgeWeight = none) := by
  rw [run_fresh_eq]
  obtain ⟨st, hst⟩ := runLoop_terminates fuel
    { m_graph := g, m_startVertex := s, m_vertex_route := fun _ => none, m_X := [s],
      m_Dijkstra_weight := fun v => if v = s then 0 else INT_MAX }
    (by simp only [List.length_singleton]; omega)
  have := runLoop_inv (fun h => RouteInv g s h ∧ MetricInv g s h)
    (fun h e x hP _ hm hx =>
      ⟨routeInv_step g s h e x hP.1 hm hx, metricInv_step g s h e x hw hsum hP.1 hP.2 hm hx⟩)
    fuel _ st ⟨routeInv_init g s, metricInv_init g s hw⟩ hst
  exact ⟨st, hst, this.1.1, this.1.2, this.2⟩

theorem getReversedPath_spec (g : Graph) (s : Nat) (h : DSP_handler_naive)
    (hR : RouteInv g s h) : ∀ (fuel : Nat) (v : Nat), v ∈ h.m_X →
      h.m_X.length - h.m_X.indexOf v ≤ fuel →
        ∃ p, DSP_handler_naive.getReversedPath fuel h v = some p
          ∧ (∀ e ∈ p, e ∈ g.m_edges) ∧ pathEnd v p = some s ∧ (p = [] ↔ v = s) := by
  obtain ⟨hg, hs, hsX, hnd, hroute, hchain, hINF, hzero⟩ := hR
  intro fuel
  induction fuel with
  | zero =>
    intro v hv hle
    have := List.indexOf_lt_length.mpr hv
    omega
  | succ fuel ih =>
    intro v hv hle
    unfold DSP_handler_naive.getReversedPath
    cases hr : h.m_vertex_route v with
    | none =>
      have hvs : v = s := by
        rcases (hroute v).mp hr with h0 | h0
        · exact absurd hv h0
        · exact h0
      subst hvs
      exact ⟨[], rfl, fun e he => absurd he (List.not_mem_nil e), rfl, by simp⟩
    | some e =>
      obtain ⟨c1, c2, c3, c4, _⟩ := hchain v e hr
      have hlt := List.indexOf_lt_length.mpr c3
      obtain ⟨p, hp1, hp2, hp3, _⟩ := ih (e.getOtherEnd v) c3 (by omega)
      refine ⟨e :: p, ?_, ?_, ?_, ?_⟩
      · simp only [hp1, Option.map_some']
      · intro e2 he2
        rcases List.mem_cons.mp he2 with h0 | h0
        · rw [h0]; exact c1
        · exact hp2 e2 h0
      · simp only [pathEnd]
        rw [if_pos c2]
        exact hp3
      · constructor
        · intro h0; exact absurd h0 (by simp)
        · intro h0
          have := (hroute v).mpr (Or.inr h0)
          rw [this] at hr
          exact absurd hr (by simp)

theorem getReversedPath_unsettled (g : Graph) (s : Nat) (h : DSP_handler_naive)
    (hR : RouteInv g s h) (fuel : Nat) (hf : 0 < fuel) (v : Nat) (hv : v ∉ h.m_X) :
    DSP_handler_naive.getReversedPath fuel h v = some [] := by
  cases fuel with
  | zero => omega
  | succ fuel =>
    unfold DSP_handler_naive.getReversedPath
    rw [(hR.2.2.2.2.1 v).mpr (Or.inl hv)]

theorem getReversedPath_weight (g : Graph) (s : Nat) (h : DSP_handler_naive)
    (hR : RouteInv g s h) (hM : MetricInv g s h) : ∀ (fuel : Nat) (v : Nat) (p : List Edge),
      v ∈ h.m_X → DSP_handler_naive.getReversedPath fuel h v = some p →
        pathWeight p = h.m_Dijkstra_weight v := by
  obtain ⟨hg, hs, hsX, hnd, hroute, hchain, hINF, hzero⟩ := hR
  intro fuel
  induction fuel with
  | zero =>
    intro v p _ hp
    exact absurd hp (by simp [DSP_handler_naive.getReversedPath])
  | succ fuel ih =>
    intro v p hv hp
    unfold DSP_handler_naive.getReversedPath at hp
    cases hr : h.m_vertex_route v with
    | none =>
      rw [hr] at hp
      have hvs : v = s := by
        rcases (hroute v).mp hr with h0 | h0
        · exact absurd hv h0
        · exact h0
      have : p = [] := by simpa using hp.symm
      rw [this, hvs, hzero]
      rfl
    | some e =>
      rw [hr] at hp
      simp only [Option.map_eq_some'] at hp
      obtain ⟨p2, hp2, rfl⟩ := hp
      obtain ⟨_, _, c3, _, _⟩ := hchain v e hr
      have := ih _ p2 c3 hp2
      rw [pathWeight_cons, this, hM.2.2 v e hr]
      omega


theorem pathVertices_length (es : List Edge) : ∀ a, (pathVertices a es).length = es.length + 1 := by
  induction es with
  | nil => intro a; rfl
  | cons c l ih => intro a; simp [pathVertices, ih]

theorem pathVertices_subset (g : Graph) (hwf : g.WellFormed) (es : List Edge)
    (hes : ∀ e ∈ es, e ∈ g.m_edges) :
    ∀ a, a ∈ g.m_vertexes → ∀ u ∈ pathVertices a es, u ∈ g.m_vertexes := by
  induction es with
  | nil =>
    intro a ha u hu
    have : u = a := by simpa [pathVertices] using hu
    rw [this]; exact ha
  | cons c l ih =>
    intro a ha u hu
    simp only [pathVertices, List.mem_cons] at hu
    rcases hu with h0 | h0
    · rw [h0]; exact ha
    · have hc := hwf.2 c (hes c (List.mem_cons_self _ _))
      have hn : c.getOtherEnd a ∈ g.m_vertexes := by
        unfold Edge.getOtherEnd
        split
        · exact hc.2
        · exact hc.1
      exact ih (fun e he => hes e (List.mem_cons_of_mem _ he)) _ hn u h0

theorem pathWeight_le (g : Graph) (W : Int) (hW : ∀ e ∈ g.m_edges, e.m_weight ≤ W)
    (es : List Edge) (hes : ∀ e ∈ es, e ∈ g.m_edges) : pathWeight es ≤ es.length * W := by
  induction es with
  | nil => simp [pathWeight]
  | cons c l ih =>
    rw [pathWeight_cons]
    have h1 := hW c (hes c (List.mem_cons_self _ _))
    have h2 := ih (fun e he => hes e (List.mem_cons_of_mem _ he))
    simp only [List.length_cons, Nat.cast_add, Nat.cast_one]
    linarith

/-- A sufficient condition for the path sums to stay below `INT_MAX`: a bound `W` on the edge
weights with `|V| * W < INT_MAX`. -/
theorem pathSums_of_bound (g : Graph) (s : Nat) (hwf : g.WellFormed) (hs : s ∈ g.m_vertexes)
    (W : Int) (hW : ∀ e ∈ g.m_edges, e.m_weight ≤ W) (h0 : 0 ≤ W)
    (hb : (g.m_vertexes.length : Int) * W < INT_MAX) : PathSumsBelowIntMax g s := by
  intro b es hsp
  obtain ⟨⟨h1, _⟩, h3⟩ := hsp
  have hsub := pathVertices_subset g hwf es h1 s hs
  have hlen := (List.subperm_of_subset h3 hsub).length_le
  rw [pathVertices_length] at hlen
  have h4 := pathWeight_le g W hW es h1
  have h5 : (es.length : Int) * W ≤ (g.m_vertexes.length : Int) * W := by
    apply mul_le_mul_of_nonneg_right _ h0
    exact_mod_cast (by omega : es.length ≤ g.m_vertexes.length)
  omega

theorem exampleGraph_wellFormed : exampleGraph.WellFormed := by
  unfold Graph.WellFormed exampleGraph
  decide

theorem exampleGraph_pathSums : PathSumsBelowIntMax exampleGraph 1 :=
  pathSums_of_bound exampleGraph 1 exampleGraph_wellFormed (by decide) 5
    (by unfold exampleGraph; decide) (by decide) (by unfold exampleGraph INT_MAX; decide)

theorem exampleGraph_nonNeg : NonNegWeights exampleGraph := by
  unfold NonNegWeights exampleGraph
  decide

/-- C1. On a graph with non-negative (in particular positive) edge weights whose path sums stay
below `INT_MAX`, `run()` on a fresh handler returns, and afterwards the distance of every
settled vertex is at most the total weight of every path from the source to it. -/
theorem settled_distance_le_every_path (g : Graph) (s : Nat) (fuel : Nat)
    (hw : NonNegWeights g) (hsum : PathSumsBelowIntMax g s)
    (hf : g.m_vertexes.length < fuel) :
    ∃ st, DSP_handler_naive.run fuel (DSP_handler_naive.fresh g s) = some st
      ∧ ∀ v ∈ st.m_X, ∀ es, IsPath g s v es → st.m_Dijkstra_weight v ≤ pathWeight es := by
  obtain ⟨st, hst, _, hM, _⟩ := run_fresh_metric g s fuel hw hsum hf
  exact ⟨st, hst, hM.2.1⟩

/-- Witness of C1 on the example graph 1-2-3, from source 1. -/
theorem settled_distance_le_every_path_witness :
    NonNegWeights exampleGraph ∧ PathSumsBelowIntMax exampleGraph 1
      ∧ exampleGraph.m_vertexes.length < 4
      ∧ ∃ st, DSP_handler_naive.run 4 (DSP_handler_naive.fresh exampleGraph 1) = some st
        ∧ ∀ v ∈ st.m_X, ∀ es, IsPath exampleGraph 1 v es →
            st.m_Dijkstra_weight v ≤ pathWeight es :=
  ⟨exampleGraph_nonNeg, exampleGraph_pathSums, by decide,
    settled_distance_le_every_path exampleGraph 1 4 exampleGraph_nonNeg exampleGraph_pathSums
      (by decide)⟩

/-- C6. On a graph with non-negative weights and path sums below `INT_MAX`, after `run()` on a
fresh handler, for every settled vertex `t` other than the source `getReversedPath(t)` returns a
non-empty sequence of edges of the graph that walks from `t` (each edge has the current vertex
as an end and leads to `getOtherEnd`) to the source, and whose weights sum to the
`m_Dijkstra_weight` of `t`. -/
theorem reversed_path_is_path_of_computed_length (g : Graph) (s : Nat) (fuel : Nat)
    (hw : NonNegWeights g) (hsum : PathSumsBelowIntMax g s)
    (hf : g.m_vertexes.length < fuel) :
    ∃ st, DSP_handler_naive.run fuel (DSP_handler_naive.fresh g s) = some st
      ∧ ∀ t ∈ st.m_X, t ≠ s → ∀ fuel2, st.m_X.length ≤ fuel2 →
          ∃ p, DSP_handler_naive.getReversedPath fuel2 st t = some p ∧ p ≠ []
            ∧ (∀ e ∈ p, e ∈ g.m_edges) ∧ pathEnd t p = some s
            ∧ pathWeight p = st.m_Dijkstra_weight t := by
  obtain ⟨st, hst, hR, hM, _⟩ := run_fresh_metric g s fuel hw hsum hf
  refine ⟨st, hst, ?_⟩
  intro t ht hts fuel2 hf2
  obtain ⟨p, hp1, hp2, hp3, hp4⟩ := getReversedPath_spec g s st hR fuel2 t ht (by omega)
  exact ⟨p, hp1, fun h0 => hts (hp4.mp h0), hp2, hp3,
    getReversedPath_weight g s st hR hM fuel2 t p ht hp1⟩

/-- Witness of C6 on the example graph 1-2-3, from source 1. -/
theorem reversed_path_is_path_of_computed_length_witness :
    NonNegWeights exampleGraph ∧ PathSumsBelowIntMax exampleGraph 1
      ∧ exampleGraph.m_vertexes.length < 4
      ∧ ∃ st, DSP_handler_naive.run 4 (DSP_handler_naive.fresh exampleGraph 1) = some st
        ∧ ∀ t ∈ st.m_X, t ≠ 1 → ∀ fuel2, st.m_X.length ≤ fuel2 →
            ∃ p, DSP_handler_naive.getReversedPath fuel2 st t = some p ∧ p ≠ []
              ∧ (∀ e ∈ p, e ∈ exampleGraph.m_edges) ∧ pathEnd t p = some 1
              ∧ pathWeight p = st.m_Dijkstra_weight t :=
  ⟨exampleGraph_nonNeg, exampleGraph_pathSums, by decide,
    reversed_path_is_path_of_computed_length exampleGraph 1 4 exampleGraph_nonNeg
      exampleGraph_pathSums (by decide)⟩

/-- C7. After `run()` on a fresh handler, for every vertex `t`, `getReversedPath(t)` returns,
and it returns the empty sequence exactly when `t` is not in `m_X` or `t` is the source; on the
single-vertex graph without edges the source has distance 0 and the empty path. -/
theorem reversed_path_empty_iff (g : Graph) (s : Nat) (fuel : Nat)
    (hf : g.m_vertexes.length < fuel) :
    (∃ st, DSP_handler_naive.run fuel (DSP_handler_naive.fresh g s) = some st
      ∧ ∀ t fuel2, st.m_X.length ≤ fuel2 →
          ∃ p, DSP_handler_naive.getReversedPath fuel2 st t = some p
            ∧ (p = [] ↔ (t ∉ st.m_X ∨ t = s)))
    ∧ (∃ st, DSP_handler_naive.run 2 (DSP_handler_naive.fresh singleVertexGraph 1) = some st
        ∧ st.m_Dijkstra_weight 1 = 0
        ∧ DSP_handler_naive.getReversedPath 1 st 1 = some []) := by
  constructor
  · obtain ⟨st, hst, hR, _⟩ := run_fresh_route g s fuel hf
    refine ⟨st, hst, ?_⟩
    intro t fuel2 hf2
    have hpos : 0 < st.m_X.length := List.length_pos_of_mem hR.2.2.1
    by_cases ht : t ∈ st.m_X
    · obtain ⟨p, hp1, _, _, hp4⟩ := getReversedPath_spec g s st hR fuel2 t ht (by omega)
      refine ⟨p, hp1, ?_⟩
      rw [hp4]
      constructor
      · intro h0; exact Or.inr h0
      · rintro (h0 | h0)
        · exact absurd ht h0
        · exact h0
    · exact ⟨[], getReversedPath_unsettled g s st hR fuel2 (by omega) t ht,
        by simp [ht]⟩
  · exact ⟨_, rfl, rfl, rfl⟩

/-- Witness of C7 on the example graph 1-2-3, from source 1. -/
theorem reversed_path_empty_iff_witness :
    exampleGraph.m_vertexes.length < 4
      ∧ ((∃ st, DSP_handler_naive.run 4 (DSP_handler_naive.fresh exampleGraph 1) = some st
        ∧ ∀ t fuel2, st.m_X.length ≤ fuel2 →
            ∃ p, DSP_handler_naive.getReversedPath fuel2 st t = some p
              ∧ (p = [] ↔ (t ∉ st.m_X ∨ t = 1)))
      ∧ (∃ st, DSP_handler_naive.run 2 (DSP_handler_naive.fresh singleVertexGraph 1) = some st
          ∧ st.m_Dijkstra_weight 1 = 0
          ∧ DSP_handler_naive.getReversedPath 1 st 1 = some [])) :=
  ⟨by decide, reversed_path_empty_iff exampleGraph 1 4 (by decide)⟩


theorem getOtherEnd_mem (g : Graph) (hwf : g.WellFormed) (e : Edge) (he : e ∈ g.m_edges)
    (x : Nat) : e.getOtherEnd x ∈ g.m_vertexes := by
  have hc := hwf.2 e he
  unfold Edge.getOtherEnd
  split
  · exact hc.2
  · exact hc.1

/-- Source `run` on a fresh handler over a well-formed graph: `m_X` stays inside the vertex set. -/
theorem run_fresh_full (g : Graph) (s : Nat) (fuel : Nat) (hwf : g.WellFormed)
    (hs : s ∈ g.m_vertexes) (hw : NonNegWeights g)
    (hsum : PathSumsBelowIntMax g s) (hf : g.m_vertexes.length < fuel) :
    ∃ st, DSP_handler_naive.run fuel (DSP_handler_naive.fresh g s) = some st
      ∧ RouteInv g s st ∧ MetricInv g s st ∧ (∀ v ∈ st.m_X, v ∈ g.m_vertexes)
      ∧ (¬ st.m_X.length < st.m_graph.m_vertexes.length ∨ st._getMinimumEdgeWeight = none) := by
  rw [run_fresh_eq]
  obtain ⟨st, hst⟩ := runLoop_terminates fuel
    { m_graph := g, m_startVertex := s, m_vertex_route := fun _ => none, m_X := [s],
      m_Dijkstra_weight := fun v => if v = s then 0 else INT_MAX }
    (by simp only [List.length_singleton]; omega)
  have := runLoop_inv
    (fun h => RouteInv g s h ∧ MetricInv g s h ∧ ∀ v ∈ h.m_X, v ∈ g.m_vertexes)
    (fun h e x hP _ hm hx => by
      refine ⟨routeInv_step g s h e x hP.1 hm hx,
        metricInv_step g s h e x hw hsum hP.1 hP.2.1 hm hx, ?_⟩
      obtain ⟨he, _, _, ho, _⟩ := selected_edge h e x hm hx
      rw [hP.1.1] at he
      intro v hv
      rw [settle_X h e x ho] at hv
      rcases List.mem_cons.mp hv with h0 | h0
      · rw [h0]; exact getOtherEnd_mem g hwf e he x
      · exact hP.2.2 v h0)
    fuel _ st ⟨routeInv_init g s, metricInv_init g s hw, by
      intro v hv
      have : v = s := by simpa using hv
      rw [this]; exact hs⟩ hst
  exact ⟨st, hst, this.1.1, this.1.2.1, this.1.2.2, this.2⟩

/-- C8. On a well-formed graph with non-negative weights and path sums below `INT_MAX`, when
`run()` returns on a fresh handler, a vertex of the graph is in `m_X` exactly when some path
joins it to the source, all vertices are settled or no edge has exactly one end in `m_X`, and
every unsettled vertex still has `m_Dijkstra_weight = INT_MAX`. -/
theorem run_terminal_state (g : Graph) (s : Nat) (fuel : Nat) (hwf : g.WellFormed)
    (hs : s ∈ g.m_vertexes) (hw : NonNegWeights g) (hsum : PathSumsBelowIntMax g s)
    (hf : g.m_vertexes.length < fuel) :
    ∃ st, DSP_handler_naive.run fuel (DSP_handler_naive.fresh g s) = some st
      ∧ (∀ v ∈ g.m_vertexes, v ∈ st.m_X ↔ ∃ es, IsPath g s v es)
      ∧ ((∀ v ∈ g.m_vertexes, v ∈ st.m_X) ∨ ∀ e ∈ g.m_edges, ¬ Crossing st.m_X e)
      ∧ (∀ v ∈ g.m_vertexes, v ∉ st.m_X → st.m_Dijkstra_weight v = INT_MAX) := by
  obtain ⟨st, hst, hR, hM, hsub, hfin⟩ := run_fresh_full g s fuel hwf hs hw hsum hf
  have hg : st.m_graph = g := hR.1
  have hdisj : (∀ v ∈ g.m_vertexes, v ∈ st.m_X) ∨
      ∀ e ∈ g.m_edges, ∀ x ∈ st.m_X, (x = e.m_vertex1 ∨ x = e.m_vertex2) →
        e.getOtherEnd x ∈ st.m_X := by
    rcases hfin with hlen | hnone
    · left
      rw [hg] at hlen
      have hsp := List.subperm_of_subset hR.2.2.2.1 hsub
      have hperm := hsp.perm_of_length_le (by omega)
      exact fun v hv => hperm.symm.subset hv
    · right
      intro e he x hx hinc
      by_contra ho
      have hfv := frontierValue_of_crossing st e x hx hinc ho
      have hge := getMin_none st hnone e (by rw [hg]; exact he) _ hfv
      obtain ⟨h1, _, q, hq1, _, hq3⟩ := frontier_sum g s st hw hsum hM e x he hx hinc ho
      have := hsum _ _ hq1
      rw [h1] at hge
      omega
  have hclosed : ∀ e ∈ g.m_edges, ∀ x ∈ st.m_X, (x = e.m_vertex1 ∨ x = e.m_vertex2) →
      e.getOtherEnd x ∈ st.m_X := by
    rcases hdisj with hall | hcl
    · intro e he x _ _
      exact hall _ (getOtherEnd_mem g hwf e he x)
    · exact hcl
  refine ⟨st, hst, ?_, ?_, ?_⟩
  · intro v _
    constructor
    · intro hvX
      obtain ⟨es, hes, _⟩ := hM.1 v hvX
      exact ⟨es, hes.1⟩
    · rintro ⟨es, hes⟩
      by_contra hvX
      obtain ⟨pre, e, post, x, h1, _, h3, h4, h5⟩ :=
        first_crossing st.m_X es s v hR.2.2.1 hvX hes.2
      exact h5 (hclosed e (hes.1 e (by rw [h1]; simp)) x h3 h4)
  · rcases hdisj with hall | hcl
    · exact Or.inl hall
    · right
      intro e he hcr
      rcases hcr with ⟨h1, h2⟩ | ⟨h1, h2⟩
      · have := hcl e he _ h1 (Or.inl rfl)
        unfold Edge.getOtherEnd at this
        rw [if_pos rfl] at this
        exact h2 this
      · have := hcl e he _ h2 (Or.inr rfl)
        unfold Edge.getOtherEnd at this
        have hne : ¬ e.m_vertex2 = e.m_vertex1 := fun h0 => h1 (h0 ▸ h2)
        rw [if_neg hne] at this
        exact h1 this
  · intro v _ hv
    exact hR.2.2.2.2.2.2.1 v hv

/-- Witness of C8 on the example graph 1-2-3, from source 1. -/
theorem run_terminal_state_witness :
    exampleGraph.WellFormed ∧ 1 ∈ exampleGraph.m_vertexes ∧ NonNegWeights exampleGraph
      ∧ PathSumsBelowIntMax exampleGraph 1 ∧ exampleGraph.m_vertexes.length < 4
      ∧ ∃ st, DSP_handler_naive.run 4 (DSP_handler_naive.fresh exampleGraph 1) = some st
        ∧ (∀ v ∈ exampleGraph.m_vertexes, v ∈ st.m_X ↔ ∃ es, IsPath exampleGraph 1 v es)
        ∧ ((∀ v ∈ exampleGraph.m_vertexes, v ∈ st.m_X)
            ∨ ∀ e ∈ exampleGraph.m_edges, ¬ Crossing st.m_X e)
        ∧ (∀ v ∈ exampleGraph.m_vertexes, v ∉ st.m_X → st.m_Dijkstra_weight v = INT_MAX) :=
  ⟨exampleGraph_wellFormed, by decide, exampleGraph_nonNeg, exampleGraph_pathSums, by decide,
    run_terminal_state exampleGraph 1 4 exampleGraph_wellFormed (by decide) exampleGraph_nonNeg
      exampleGraph_pathSums (by decide)⟩


/-- C14. On the graph with vertices 1, 2, 3 and edge list 1-2 (weight 5), 2-3 (weight 3),
`run()` from source 1 gives vertex 2 the distance 5 and vertex 3 the distance 8;
`getReversedPath(3)` is the edge 2-3 followed by the edge 1-2, of weight sum 8, and
`getReversedPath(2)` is the edge 1-2, of weight sum 5. -/
theorem worked_shortest_path_example :
    ∃ st, DSP_handler_naive.run 4 (DSP_handler_naive.fresh exampleGraph 1) = some st
      ∧ st.m_Dijkstra_weight 2 = 5 ∧ st.m_Dijkstra_weight 3 = 8
      ∧ DSP_handler_naive.getReversedPath 3 st 3 = some [⟨2, 3, 3⟩, ⟨1, 2, 5⟩]
      ∧ pathWeight [⟨2, 3, 3⟩, ⟨1, 2, 5⟩] = 8
      ∧ DSP_handler_naive.getReversedPath 3 st 2 = some [⟨1, 2, 5⟩]
      ∧ pathWeight [⟨1, 2, 5⟩] = 5 :=
  ⟨_, rfl, by decide, by decide, by decide, by decide, by decide, by decide⟩

/-- The loop of `_getMinimumEdgeWeight` keeps the first edge of least value: either it keeps
what it started with, every value being at least the starting weight, or it stops on an edge
whose value is smaller than every value before it and at most every value after it. -/
theorem foldl_minStep_first (h : DSP_handler_naive) (es : List Edge) :
    ∀ acc : Option Edge × Int,
      (es.foldl h.minStep acc = acc
          ∧ ∀ e ∈ es, ∀ c, h.frontierValue e = some c → acc.2 ≤ c)
      ∨ ∃ pre e post c, es = pre ++ e :: post ∧ es.foldl h.minStep acc = (some e, c)
          ∧ h.frontierValue e = some c ∧ c < acc.2
          ∧ (∀ e2 ∈ pre, ∀ c2, h.frontierValue e2 = some c2 → c < c2)
          ∧ (∀ e2 ∈ post, ∀ c2, h.frontierValue e2 = some c2 → c ≤ c2) := by
  induction es with
  | nil =>
    intro acc
    exact Or.inl ⟨rfl, fun e he => absurd he (List.not_mem_nil e)⟩
  | cons a l ih =>
    intro acc
    rw [List.foldl_cons]
    have hs := minStep_eq h acc a
    by_cases hup : ∃ c0, h.frontierValue a = some c0 ∧ c0 < acc.2
    · obtain ⟨c0, hf, hlt⟩ := hup
      rw [hf] at hs
      simp only [if_pos hlt] at hs
      rw [hs]
      rcases ih (some a, c0) with ⟨h1, h2⟩ | ⟨pre, e, post, c, h1, h2, h3, h4, h5, h6⟩
      · exact Or.inr ⟨[], a, l, c0, rfl, h1, hf, hlt,
          fun e2 he2 => absurd he2 (List.not_mem_nil e2), h2⟩
      · simp only at h4
        refine Or.inr ⟨a :: pre, e, post, c, by rw [h1]; rfl, h2, h3, by omega, ?_, h6⟩
        intro e2 he2 c2 hc2
        rcases List.mem_cons.mp he2 with h0 | h0
        · rw [h0, hf] at hc2
          have : c0 = c2 := by simpa using hc2
          omega
        · exact h5 e2 h0 c2 hc2
    · have hkeep : h.minStep acc a = acc := by
        rw [hs]
        cases hf : h.frontierValue a with
        | none => rfl
        | some c0 =>
          simp only
          rw [if_neg (fun hlt => hup ⟨c0, hf, hlt⟩)]
      have hge : ∀ c, h.frontierValue a = some c → acc.2 ≤ c := by
        intro c hc
        by_contra hlt
        exact hup ⟨c, hc, by omega⟩
      rw [hkeep]
      rcases ih acc with ⟨h1, h2⟩ | ⟨pre, e, post, c, h1, h2, h3, h4, h5, h6⟩
      · refine Or.inl ⟨h1, ?_⟩
        intro e2 he2 c2 hc2
        rcases List.mem_cons.mp he2 with h0 | h0
        · rw [h0] at hc2; exact hge c2 hc2
        · exact h2 e2 h0 c2 hc2
      · refine Or.inr ⟨a :: pre, e, post, c, by rw [h1]; rfl, h2, h3, h4, ?_, h6⟩
        intro e2 he2 c2 hc2
        rcases List.mem_cons.mp he2 with h0 | h0
        · rw [h0] at hc2
          have := hge c2 hc2
          omega
        · exact h5 e2 h0 c2 hc2

theorem crossing_iff_settledEnd (X : List Nat) (e : Edge) :
    Crossing X e ↔ ∃ x, IsSettledEnd X e x := by
  unfold Crossing IsSettledEnd Edge.getOtherEnd
  constructor
  · rintro (⟨h1, h2⟩ | ⟨h1, h2⟩)
    · exact ⟨e.m_vertex1, h1, Or.inl rfl, by rw [if_pos rfl]; exact h2⟩
    · have hne : ¬ e.m_vertex2 = e.m_vertex1 := fun h0 => h1 (h0 ▸ h2)
      exact ⟨e.m_vertex2, h2, Or.inr rfl, by rw [if_neg hne]; exact h1⟩
  · rintro ⟨x, hx, hinc, ho⟩
    rcases hinc with rfl | rfl
    · rw [if_pos rfl] at ho
      exact Or.inl ⟨hx, ho⟩
    · by_cases hne : e.m_vertex2 = e.m_vertex1
      · rw [if_pos hne] at ho
        exact absurd hx ho
      · rw [if_neg hne] at ho
        exact Or.inr ⟨ho, hx⟩

theorem frontierValue_iff (h : DSP_handler_naive) (e : Edge) (c : Int) :
    h.frontierValue e = some c ↔
      ∃ x, IsSettledEnd h.m_X e x ∧ c = int_add e.m_weight (h.m_Dijkstra_weight x) := by
  constructor
  · intro hc
    obtain ⟨x, _, h1, h2, h3, h4⟩ := frontierValue_some h e c hc
    exact ⟨x, ⟨h1, h2, h3⟩, h4⟩
  · rintro ⟨x, ⟨h1, h2, h3⟩, h4⟩
    rw [h4]
    exact frontierValue_of_crossing h e x h1 h2 h3

/-- C17. In a handler state where, for every edge with exactly one end in `m_X`, the sum of the
distance of that end and the weight of the edge is a representable `int` below `INT_MAX`:
`_getMinimumEdgeWeight()` returns `nullptr` exactly when no edge has exactly one end in `m_X`;
otherwise it returns an edge with exactly one end in `m_X` whose sum is smaller than the sum of
every such edge before it in `m_edges` and at most the sum of every such edge after it, that
is, the first edge of least sum. -/
theorem frontier_edge_selection (h : DSP_handler_naive)
    (hsum : ∀ e ∈ h.m_graph.m_edges, ∀ x, IsSettledEnd h.m_X e x →
      -2147483648 ≤ h.m_Dijkstra_weight x + e.m_weight
        ∧ h.m_Dijkstra_weight x + e.m_weight < INT_MAX) :
    (h._getMinimumEdgeWeight = none ↔ ∀ e ∈ h.m_graph.m_edges, ¬ Crossing h.m_X e)
      ∧ ∀ e, h._getMinimumEdgeWeight = some e →
          Crossing h.m_X e
            ∧ ∃ pre post x, h.m_graph.m_edges = pre ++ e :: post ∧ IsSettledEnd h.m_X e x
              ∧ (∀ e2 ∈ pre, ∀ x2, IsSettledEnd h.m_X e2 x2 →
                  h.m_Dijkstra_weight x + e.m_weight < h.m_Dijkstra_weight x2 + e2.m_weight)
              ∧ (∀ e2 ∈ post, ∀ x2, IsSettledEnd h.m_X e2 x2 →
                  h.m_Dijkstra_weight x + e.m_weight
                    ≤ h.m_Dijkstra_weight x2 + e2.m_weight) := by
  have hval : ∀ e ∈ h.m_graph.m_edges, ∀ x, IsSettledEnd h.m_X e x →
      h.frontierValue e = some (h.m_Dijkstra_weight x + e.m_weight)
        ∧ h.m_Dijkstra_weight x + e.m_weight < INT_MAX := by
    intro e he x hx
    obtain ⟨b1, b2⟩ := hsum e he x hx
    refine ⟨?_, b2⟩
    rw [frontierValue_iff]
    refine ⟨x, hx, ?_⟩
    unfold INT_MAX at b2
    rw [int_add_eq _ _ (by omega) (by omega)]
    omega
  have hfold := foldl_minStep_first h h.m_graph.m_edges (none, INT_MAX)
  constructor
  · constructor
    · intro hnone e he hcr
      obtain ⟨x, hx⟩ := (crossing_iff_settledEnd _ _).mp hcr
      obtain ⟨v1, v2⟩ := hval e he x hx
      have := getMin_none h hnone e he _ v1
      omega
    · intro hno
      rcases hfold with ⟨h1, _⟩ | ⟨pre, e, post, c, h1, _, h3, _⟩
      · unfold DSP_handler_naive._getMinimumEdgeWeight
        rw [h1]
      · exfalso
        obtain ⟨x, hx, _⟩ := (frontierValue_iff h e c).mp h3
        exact hno e (by rw [h1]; simp) ((crossing_iff_settledEnd _ _).mpr ⟨x, hx⟩)
  · intro e hsome
    unfold DSP_handler_naive._getMinimumEdgeWeight at hsome
    rcases hfold with ⟨h1, _⟩ | ⟨pre, e0, post, c, h1, h2, h3, _, h5, h6⟩
    · rw [h1] at hsome
      exact absurd hsome (by simp)
    · rw [h2] at hsome
      have hee : e0 = e := by simpa using hsome
      subst hee
      obtain ⟨x, hx, hc⟩ := (frontierValue_iff h e0 c).mp h3
      have he0 : e0 ∈ h.m_graph.m_edges := by rw [h1]; simp
      obtain ⟨v1, _⟩ := hval e0 he0 x hx
      rw [h3] at v1
      have hceq : c = h.m_Dijkstra_weight x + e0.m_weight := by simpa using v1
      refine ⟨(crossing_iff_settledEnd _ _).mpr ⟨x, hx⟩, pre, post, x, h1, hx, ?_, ?_⟩
      · intro e2 he2 x2 hx2
        obtain ⟨w1, _⟩ := hval e2 (by rw [h1]; simp [he2]) x2 hx2
        have := h5 e2 he2 _ w1
        omega
      · intro e2 he2 x2 hx2
        obtain ⟨w1, _⟩ := hval e2 (by rw [h1]; simp [he2]) x2 hx2
        have := h6 e2 he2 _ w1
        omega

theorem exampleStart_sums : ∀ e ∈ exampleStart.m_graph.m_edges, ∀ x,
    IsSettledEnd exampleStart.m_X e x →
      -2147483648 ≤ exampleStart.m_Dijkstra_weight x + e.m_weight
        ∧ exampleStart.m_Dijkstra_weight x + e.m_weight < INT_MAX := by
  intro e he x hx
  have hx1 : x = 1 := by
    have := hx.1
    simpa [exampleStart] using this
  subst hx1
  have he2 : e = ⟨1, 2, 5⟩ ∨ e = ⟨2, 3, 3⟩ := by
    simpa [exampleStart, exampleGraph] using he
  rcases he2 with rfl | rfl
  · simp [exampleStart, INT_MAX]
  · simp [exampleStart, INT_MAX]

/-- Witness of C17 on the example graph with only the source settled. -/
theorem frontier_edge_selection_witness :
    (∀ e ∈ exampleStart.m_graph.m_edges, ∀ x, IsSettledEnd exampleStart.m_X e x →
      -2147483648 ≤ exampleStart.m_Dijkstra_weight x + e.m_weight
        ∧ exampleStart.m_Dijkstra_weight x + e.m_weight < INT_MAX)
    ∧ ((exampleStart._getMinimumEdgeWeight = none ↔
          ∀ e ∈ exampleStart.m_graph.m_edges, ¬ Crossing exampleStart.m_X e)
      ∧ ∀ e, exampleStart._getMinimumEdgeWeight = some e →
          Crossing exampleStart.m_X e
            ∧ ∃ pre post x, exampleStart.m_graph.m_edges = pre ++ e :: post
              ∧ IsSettledEnd exampleStart.m_X e x
              ∧ (∀ e2 ∈ pre, ∀ x2, IsSettledEnd exampleStart.m_X e2 x2 →
                  exampleStart.m_Dijkstra_weight x + e.m_weight
                    < exampleStart.m_Dijkstra_weight x2 + e2.m_weight)
              ∧ (∀ e2 ∈ post, ∀ x2, IsSettledEnd exampleStart.m_X e2 x2 →
                  exampleStart.m_Dijkstra_weight x + e.m_weight
                    ≤ exampleStart.m_Dijkstra_weight x2 + e2.m_weight)) :=
  ⟨exampleStart_sums, frontier_edge_selection exampleStart exampleStart_sums⟩


/-- The loop of `run` never lets `m_X` grow beyond the vertex count: it adds one vertex per
iteration and only while `m_X.size() < m_vertexes.size()`. -/
theorem runLoop_size (fuel : Nat) (h st : DSP_handler_naive)
    (h0 : h.m_X.length ≤ 1 ∨ h.m_X.length ≤ h.m_graph.m_vertexes.length)
    (hr : DSP_handler_naive.runLoop fuel h = some st) :
    st.m_X.length ≤ 1 ∨ st.m_X.length ≤ st.m_graph.m_vertexes.length := by
  refine (runLoop_inv
    (fun h => h.m_X.length ≤ 1 ∨ h.m_X.length ≤ h.m_graph.m_vertexes.length)
    ?_ fuel h st h0 hr).1
  intro h e x _ hc hm hx
  obtain ⟨_, _, _, ho, _⟩ := selected_edge h e x hm hx
  right
  rw [settle_X h e x ho, settle_graph]
  simp only [List.length_cons]
  omega

/-- Both ends of an edge are among a vertex and the vertex `getOtherEnd` answers for it, when
the vertex is an end of the edge. -/
theorem ends_of_getOtherEnd (e : Edge) (v : Nat) (hinc : v = e.m_vertex1 ∨ v = e.m_vertex2) :
    (e.m_vertex1 = v ∨ e.m_vertex1 = e.getOtherEnd v)
      ∧ (e.m_vertex2 = v ∨ e.m_vertex2 = e.getOtherEnd v) := by
  unfold Edge.getOtherEnd
  by_cases h1 : v = e.m_vertex1
  · rw [if_pos h1]
    exact ⟨Or.inl h1.symm, Or.inr rfl⟩
  · rw [if_neg h1]
    rcases hinc with h2 | h2
    · exact absurd h2 h1
    · exact ⟨Or.inr rfl, Or.inl h2.symm⟩

/-- The result of `getReversedPath` has fewer edges than the loop condition was evaluated. -/
theorem getReversedPath_length (h : DSP_handler_naive) : ∀ (fuel : Nat) (v : Nat)
    (p : List Edge), DSP_handler_naive.getReversedPath fuel h v = some p → p.length < fuel := by
  intro fuel
  induction fuel with
  | zero =>
    intro v p hp
    exact absurd hp (by simp [DSP_handler_naive.getReversedPath])
  | succ fuel ih =>
    intro v p hp
    unfold DSP_handler_naive.getReversedPath at hp
    cases hr : h.m_vertex_route v with
    | none =>
      rw [hr] at hp
      have : p = [] := by simpa using hp.symm
      rw [this]
      simp
    | some e =>
      rw [hr] at hp
      simp only [Option.map_eq_some'] at hp
      obtain ⟨p2, hp2, rfl⟩ := hp
      have := ih _ p2 hp2
      simp only [List.length_cons]
      omega

/-- The result of `getReversedPath` does not depend on the bound, once the bound exceeds the
number of edges returned. -/
theorem getReversedPath_mono (h : DSP_handler_naive) : ∀ (fuel : Nat) (v : Nat)
    (p : List Edge), DSP_handler_naive.getReversedPath fuel h v = some p →
      ∀ fuel2, p.length < fuel2 → DSP_handler_naive.getReversedPath fuel2 h v = some p := by
  intro fuel
  induction fuel with
  | zero =>
    intro v p hp
    exact absurd hp (by simp [DSP_handler_naive.getReversedPath])
  | succ fuel ih =>
    intro v p hp fuel2 hf2
    unfold DSP_handler_naive.getReversedPath at hp
    cases fuel2 with
    | zero => omega
    | succ fuel2 =>
      unfold DSP_handler_naive.getReversedPath
      cases hr : h.m_vertex_route v with
      | none =>
        rw [hr] at hp
        exact hp
      | some e =>
        rw [hr] at hp
        simp only [Option.map_eq_some'] at hp
        obtain ⟨p2, hp2, rfl⟩ := hp
        simp only [List.length_cons] at hf2
        have := ih _ p2 hp2 fuel2 (by omega)
        simp only [this, Option.map_some']

/-- The loop of `getReversedPath` makes exactly as many iterations as it returns edges. -/
theorem getReversedPath_iff (h : DSP_handler_naive) (fuel : Nat) (v : Nat) (p : List Edge)
    (hp : DSP_handler_naive.getReversedPath fuel h v = some p) (fuel2 : Nat) :
    DSP_handler_naive.getReversedPath fuel2 h v = some p ↔ p.length < fuel2 :=
  ⟨getReversedPath_length h fuel2 v p, getReversedPath_mono h fuel v p hp fuel2⟩

/-- Following the predecessor map moves strictly towards the source in the order of settling:
each step increases the position in `m_X`. -/
theorem routeTarget_index (g : Graph) (s : Nat) (h : DSP_handler_naive) (hR : RouteInv g s h) :
    ∀ (n : Nat) (v u : Nat), h.routeTarget n v = some u →
      h.m_X.indexOf v + n ≤ h.m_X.indexOf u := by
  obtain ⟨hg, hs, hsX, hnd, hroute, hchain, hINF, hzero⟩ := hR
  intro n
  induction n with
  | zero =>
    intro v u hu
    have : v = u := by simpa [DSP_handler_naive.routeTarget] using hu
    rw [this]
    omega
  | succ n ih =>
    intro v u hu
    unfold DSP_handler_naive.routeTarget at hu
    cases hr : h.m_vertex_route v with
    | none =>
      rw [hr] at hu
      exact absurd hu (by simp)
    | some e =>
      rw [hr] at hu
      obtain ⟨_, _, _, c4, _⟩ := hchain v e hr
      have := ih _ u hu
      omega

/-- The walk of `getReversedPath` under the structural invariant: the vertices it visits are
pairwise distinct and each lies at or after the start of the walk in `m_X`, the ends of every
returned edge are visited, no edge is returned twice, and the number of edges is bounded by the
number of vertices settled before the start of the walk. -/
theorem getReversedPath_walk (g : Graph) (s : Nat) (h : DSP_handler_naive)
    (hR : RouteInv g s h) : ∀ (fuel : Nat) (v : Nat) (p : List Edge),
      DSP_handler_naive.getReversedPath fuel h v = some p →
        (∀ u ∈ pathVertices v p, h.m_X.indexOf v ≤ h.m_X.indexOf u)
          ∧ (pathVertices v p).Nodup
          ∧ (∀ e ∈ p, e.m_vertex1 ∈ pathVertices v p ∧ e.m_vertex2 ∈ pathVertices v p)
          ∧ p.Nodup
          ∧ (p = [] ∨ p.length + h.m_X.indexOf v + 1 ≤ h.m_X.length) := by
  obtain ⟨hg, hs, hsX, hnd, hroute, hchain, hINF, hzero⟩ := hR
  intro fuel
  induction fuel with
  | zero =>
    intro v p hp
    exact absurd hp (by simp [DSP_handler_naive.getReversedPath])
  | succ fuel ih =>
    intro v p hp
    unfold DSP_handler_naive.getReversedPath at hp
    cases hr : h.m_vertex_route v with
    | none =>
      rw [hr] at hp
      have : p = [] := by simpa using hp.symm
      subst this
      refine ⟨?_, ?_, ?_, List.nodup_nil, Or.inl rfl⟩
      · intro u hu
        have : u = v := by simpa [pathVertices] using hu
        rw [this]
      · simp [pathVertices]
      · intro e he
        exact absurd he (List.not_mem_nil e)
    | some e =>
      rw [hr] at hp
      simp only [Option.map_eq_some'] at hp
      obtain ⟨p2, hp2, rfl⟩ := hp
      obtain ⟨_, c2, c3, c4, _⟩ := hchain v e hr
      obtain ⟨i1, i2, i3, i4, i5⟩ := ih _ p2 hp2
      have hlt := List.indexOf_lt_length.mpr c3
      have hv : v ∉ pathVertices (e.getOtherEnd v) p2 := by
        intro hmem
        have := i1 v hmem
        omega
      refine ⟨?_, ?_, ?_, ?_, Or.inr ?_⟩
      · intro u hu
        simp only [pathVertices, List.mem_cons] at hu
        rcases hu with h0 | h0
        · rw [h0]
        · have := i1 u h0
          omega
      · simp only [pathVertices]
        exact List.nodup_cons.mpr ⟨hv, i2⟩
      · intro e2 he2
        simp only [pathVertices, List.mem_cons]
        rcases List.mem_cons.mp he2 with h0 | h0
        · rw [h0]
          obtain ⟨e1, e2⟩ := ends_of_getOtherEnd e v c2
          have hm : e.getOtherEnd v ∈ pathVertices (e.getOtherEnd v) p2 := by
            cases p2 <;> simp [pathVertices]
          constructor
          · rcases e1 with e1 | e1
            · exact Or.inl e1
            · right; rw [e1]; exact hm
          · rcases e2 with e2 | e2
            · exact Or.inl e2
            · right; rw [e2]; exact hm
        · exact ⟨Or.inr (i3 e2 h0).1, Or.inr (i3 e2 h0).2⟩
      · refine List.nodup_cons.mpr ⟨?_, i4⟩
        intro hmem
        obtain ⟨m1, m2⟩ := i3 e hmem
        rcases c2 with c2 | c2
        · exact hv (c2 ▸ m1)
        · exact hv (c2 ▸ m2)
      · simp only [List.length_cons]
        rcases i5 with i5 | i5
        · rw [i5]
          simp only [List.length_nil]
          omega
        · omega


/-- C21. On any graph (no assumption on the weights, on parallel edges or on self-loops),
`run()` on a fresh handler returns, and in the state it leaves: `m_vertex_route` has no entry
for the source; following `m_vertex_route` one or more times from a vertex never leads back to
that vertex; and for every `t` the loop of `getReversedPath(t)` stops after exactly as many
iterations as it returns edges, that number is at most the number of vertices minus one (the
loop makes no iteration at all on a graph without vertices), no edge occurs twice in the
returned sequence and no vertex is visited twice. -/
theorem path_reconstruction_terminates (g : Graph) (s : Nat) (fuel : Nat)
    (hf : g.m_vertexes.length < fuel) :
    ∃ st, DSP_handler_naive.run fuel (DSP_handler_naive.fresh g s) = some st
      ∧ st.m_vertex_route s = none
      ∧ (∀ v n, 0 < n → st.routeTarget n v ≠ some v)
      ∧ ∀ t, ∃ p,
          (∀ fuel2, DSP_handler_naive.getReversedPath fuel2 st t = some p ↔ p.length < fuel2)
            ∧ p.length ≤ g.m_vertexes.length - 1
            ∧ (p = [] ∨ p.length < g.m_vertexes.length)
            ∧ p.Nodup ∧ (pathVertices t p).Nodup := by
  obtain ⟨st, hst, hR, _⟩ := run_fresh_route g s fuel hf
  have hsize : st.m_X.length ≤ 1 ∨ st.m_X.length ≤ st.m_graph.m_vertexes.length := by
    rw [run_fresh_eq] at hst
    exact runLoop_size fuel _ st (Or.inl (by simp)) hst
  rw [hR.1] at hsize
  refine ⟨st, hst, (hR.2.2.2.2.1 s).mpr (Or.inr rfl), ?_, ?_⟩
  · intro v n hn hv
    have := routeTarget_index g s st hR n v v hv
    omega
  · intro t
    have hpos : 0 < st.m_X.length := List.length_pos_of_mem hR.2.2.1
    have hex : ∃ p, DSP_handler_naive.getReversedPath st.m_X.length st t = some p := by
      by_cases ht : t ∈ st.m_X
      · obtain ⟨p, hp, _⟩ := getReversedPath_spec g s st hR st.m_X.length t ht (by omega)
        exact ⟨p, hp⟩
      · exact ⟨[], getReversedPath_unsettled g s st hR st.m_X.length hpos t ht⟩
    obtain ⟨p, hp⟩ := hex
    obtain ⟨_, w2, _, w4, w5⟩ := getReversedPath_walk g s st hR st.m_X.length t p hp
    have hlen : p = [] ∨ p.length < g.m_vertexes.length := by
      rcases w5 with w5 | w5
      · exact Or.inl w5
      · rcases hsize with h1 | h1
        · exact Or.inl (List.length_eq_zero.mp (by omega))
        · exact Or.inr (by omega)
    refine ⟨p, fun fuel2 => getReversedPath_iff st st.m_X.length t p hp fuel2, ?_, hlen, w4, w2⟩
    rcases hlen with h0 | h0
    · rw [h0]
      simp
    · omega

/-- Witness of C21 on a graph with a self-loop, parallel edges and zero weights, from source 1. -/
theorem path_reconstruction_terminates_witness :
    degenerateGraph.m_vertexes.length < 4
      ∧ ∃ st, DSP_handler_naive.run 4 (DSP_handler_naive.fresh degenerateGraph 1) = some st
        ∧ st.m_vertex_route 1 = none
        ∧ (∀ v n, 0 < n → st.routeTarget n v ≠ some v)
        ∧ ∀ t, ∃ p,
            (∀ fuel2, DSP_handler_naive.getReversedPath fuel2 st t = some p ↔ p.length < fuel2)
              ∧ p.length ≤ degenerateGraph.m_vertexes.length - 1
              ∧ (p = [] ∨ p.length < degenerateGraph.m_vertexes.length)
              ∧ p.Nodup ∧ (pathVertices t p).Nodup :=
  ⟨by decide, path_reconstruction_terminates degenerateGraph 1 4 (by decide)⟩

end Dijkstra

/-! ## Theorems on the two-pass algorithm of Kosaraju -/

namespace Kosaraju

theorem ReachIn.left {succ : Nat → List Nat} {P : Nat → Prop} {x y : Nat}
    (h : ReachIn succ P x y) : P x := by
  cases h with
  | refl hx => exact hx
  | head hx _ _ => exact hx

theorem ReachIn.right {succ : Nat → List Nat} {P : Nat → Prop} {x y : Nat}
    (h : ReachIn succ P x y) : P y := by
  induction h with
  | refl hx => exact hx
  | head _ _ _ ih => exact ih

theorem ReachIn.trans {succ : Nat → List Nat} {P : Nat → Prop} {x y z : Nat}
    (h1 : ReachIn succ P x y) (h2 : ReachIn succ P y z) : ReachIn succ P x z := by
  induction h1 with
  | refl _ => exact h2
  | head hx hw _ ih => exact ReachIn.head hx hw (ih h2)

theorem ReachIn.mono {succ : Nat → List Nat} {P Q : Nat → Prop} {x y : Nat}
    (hPQ : ∀ u, P u → Q u) (h : ReachIn succ P x y) : ReachIn succ Q x y := by
  induction h with
  | refl hx => exact ReachIn.refl (hPQ _ hx)
  | head hx hw _ ih => exact ReachIn.head (hPQ _ hx) hw ih

theorem ReachIn.tail {succ : Nat → List Nat} {P : Nat → Prop} {x y w : Nat}
    (h : ReachIn succ P x y) (hw : w ∈ succ y) (hPw : P w) : ReachIn succ P x w :=
  h.trans (ReachIn.head h.right hw (ReachIn.refl hPw))

/-- A path inside `P` that starts in a set closed under the successors inside `P` stays in
that set. -/
theorem ReachIn.closed {succ : Nat → List Nat} {P A : Nat → Prop} {x y : Nat}
    (hA : ∀ u, A u → ∀ w ∈ succ u, P w → A w) (h : ReachIn succ P x y) (hx : A x) : A y := by
  induction h with
  | refl _ => exact hx
  | head _ hw hr ih => exact ih (hA _ hx _ hw hr.left)

/-- A path inside `S ++ [v]` either stays inside `S` or reaches `v`. -/
theorem ReachIn.split_last {succ : Nat → List Nat} {S : List Nat} {v x y : Nat}
    (h : ReachIn succ (fun u => u ∈ S ++ [v]) x y) :
    ReachIn succ (fun u => u ∈ S) x y ∨ ReachIn succ (fun u => u ∈ S ++ [v]) x v := by
  induction h with
  | @refl x hx =>
    rcases List.mem_append.mp hx with h0 | h0
    · exact Or.inl (ReachIn.refl h0)
    · have : x = v := by simpa using h0
      subst this
      exact Or.inr (ReachIn.refl hx)
  | @head x w y hx hw hr ih =>
    rcases ih with h1 | h1
    · rcases List.mem_append.mp hx with h0 | h0
      · exact Or.inl (ReachIn.head h0 hw h1)
      · have : x = v := by simpa using h0
        subst this
        exact Or.inr (ReachIn.refl hx)
    · exact Or.inr (ReachIn.head hx hw h1)

theorem stackOrdered_nil (succ : Nat → List Nat) : StackOrdered succ [] := by
  intro x y h
  exact absurd h.left (List.not_mem_nil x)

/-- Pushing the root of a finished search keeps the stack ordered. -/
theorem stackOrdered_push (succ : Nat → List Nat) (S T : List Nat) (v : Nat) (E : Nat → Bool)
    (hord : StackOrdered succ (S ++ T)) (hS : ∀ u ∈ S, E u = true)
    (hcl : ∀ u ∈ S, ∀ w ∈ succ u, E w = true)
    (hT : ∀ u ∈ T, E u = false) (hv : E v = false)
    (hroot : ∀ u ∈ T, ReachIn succ (fun a => a ∈ T ++ [v]) v u) :
    StackOrdered succ (S ++ T ++ [v]) := by
  have hlast : ∀ y, y ∈ S ++ T ++ [v] →
      ∃ l1 l2, S ++ T ++ [v] = l1 ++ y :: l2 ∧ (v = y ∨ v ∈ l2) := by
    intro y hy
    rcases List.mem_append.mp hy with h0 | h0
    · obtain ⟨l1, l2, hl⟩ := List.append_of_mem h0
      refine ⟨l1, l2 ++ [v], ?_, Or.inr (by simp)⟩
      rw [hl]; simp
    · have : y = v := by simpa using h0
      subst this
      exact ⟨S ++ T, [], rfl, Or.inl rfl⟩
  have hvmem : v ∈ S ++ T ++ [v] := by simp
  have hmonoT : ∀ u, u ∈ T ++ [v] → u ∈ S ++ T ++ [v] := by
    intro u hu
    rcases List.mem_append.mp hu with h0 | h0
    · simp [h0]
    · simp at h0; simp [h0]
  intro x y hxy
  rcases ReachIn.split_last hxy with h1 | h1
  · obtain ⟨m, hm1, hm2, l1, l2, hl, hm3⟩ := hord x y h1
    refine ⟨m, hm1.mono (fun u hu => List.mem_append_left _ hu),
      hm2.mono (fun u hu => List.mem_append_left _ hu), l1, l2 ++ [v], ?_, ?_⟩
    · rw [hl]; simp
    · rcases hm3 with h0 | h0
      · exact Or.inl h0
      · exact Or.inr (List.mem_append_left _ h0)
  · have hxT : x ∈ T ++ [v] := by
      by_contra hx
      have hxS : x ∈ S := by
        have := h1.left
        simp only [List.mem_append, List.mem_singleton] at this hx
        tauto
      have hvS : v ∈ S := by
        refine ReachIn.closed (A := fun u => u ∈ S) ?_ h1 hxS
        intro u hu w hw hPw
        have hEw := hcl u hu w hw
        simp only [List.mem_append, List.mem_singleton] at hPw
        rcases hPw with (h0 | h0) | h0
        · exact h0
        · rw [hT w h0] at hEw; exact absurd hEw (by simp)
        · rw [h0, hv] at hEw; exact absurd hEw (by simp)
      have := hS v hvS
      rw [hv] at this
      exact absurd this (by simp)
    have hvx : ReachIn succ (fun u => u ∈ S ++ T ++ [v]) v x := by
      rcases List.mem_append.mp hxT with h0 | h0
      · exact (hroot x h0).mono hmonoT
      · have : x = v := by simpa using h0
        rw [this]
        exact ReachIn.refl hvmem
    obtain ⟨l1, l2, hl, hm⟩ := hlast y hxy.right
    exact ⟨v, h1, hvx, l1, l2, hl, hm⟩


theorem dfsPost_skip (succ : Nat → List Nat) (V : List Nat) (E : Nat → Bool) (cs : List Nat)
    (hcs : ∀ c ∈ cs, E c = true) : DfsPost succ V E cs E [] := by
  refine ⟨fun u => by simp, List.nodup_nil, ?_, ?_, hcs, ?_, ?_⟩
  · intro u hu; exact absurd hu (List.not_mem_nil u)
  · intro u hu; exact absurd hu (List.not_mem_nil u)
  · intro u hu; exact absurd hu (List.not_mem_nil u)
  · intro S hS
    rw [List.append_nil]
    exact hS

theorem dfsPost_append (succ : Nat → List Nat) (V : List Nat) (E E1 E2 : Nat → Bool)
    (cs1 cs2 T1 T2 : List Nat) (h1 : DfsPost succ V E cs1 E1 T1)
    (h2 : DfsPost succ V E1 cs2 E2 T2) : DfsPost succ V E (cs1 ++ cs2) E2 (T1 ++ T2) := by
  obtain ⟨a1, a2, a3, a4, a5, a6, a7⟩ := h1
  obtain ⟨b1, b2, b3, b4, b5, b6, b7⟩ := h2
  refine ⟨?_, ?_, ?_, ?_, ?_, ?_, ?_⟩
  · intro u
    rw [b1, a1, List.mem_append]
    tauto
  · refine List.Nodup.append a2 b2 ?_
    intro u hu1 hu2
    have e1 := (a1 u).mpr (Or.inr hu1)
    rw [b3 u hu2] at e1
    exact absurd e1 (by simp)
  · intro u hu
    rcases List.mem_append.mp hu with h0 | h0
    · exact a3 u h0
    · have e1 := b3 u h0
      cases hE : E u with
      | false => rfl
      | true =>
        rw [(a1 u).mpr (Or.inl hE)] at e1
        exact absurd e1 (by simp)
  · intro u hu
    rcases List.mem_append.mp hu with h0 | h0
    · exact a4 u h0
    · exact b4 u h0
  · intro c hc
    rcases List.mem_append.mp hc with h0 | h0
    · exact (b1 c).mpr (Or.inl (a5 c h0))
    · exact b5 c h0
  · intro u hu
    rcases List.mem_append.mp hu with h0 | h0
    · obtain ⟨c, hc, hr⟩ := a6 u h0
      exact ⟨c, List.mem_append_left _ hc, hr.mono (fun a ha => List.mem_append_left _ ha)⟩
    · obtain ⟨c, hc, hr⟩ := b6 u h0
      exact ⟨c, List.mem_append_right _ hc, hr.mono (fun a ha => List.mem_append_right _ ha)⟩
  · intro S hS
    rw [← List.append_assoc]
    exact b7 _ (a7 S hS)

theorem dfsPost_root (succ : Nat → List Nat) (V : List Nat) (E E2 : Nat → Bool) (v : Nat)
    (T : List Nat) (hv : E v = false) (hvV : v ∈ V)
    (h : DfsPost succ V (fun u => if u = v then true else E u) (succ v) E2 T) :
    DfsPost succ V E [v] E2 (T ++ [v]) := by
  obtain ⟨a1, a2, a3, a4, a5, a6, a7⟩ := h
  have hvT : v ∉ T := by
    intro h0
    have := a3 v h0
    simp at this
  have hE2v : E2 v = true := (a1 v).mpr (Or.inl (by simp))
  have hTE : ∀ u ∈ T, E u = false := by
    intro u hu
    have := a3 u hu
    by_cases huv : u = v
    · rw [huv]; exact hv
    · simpa [huv] using this
  have hroot : ∀ u ∈ T, ReachIn succ (fun a => a ∈ T ++ [v]) v u := by
    intro u hu
    obtain ⟨c, hc, hr⟩ := a6 u hu
    exact ReachIn.head (by simp) hc (hr.mono (fun a ha => List.mem_append_left _ ha))
  refine ⟨?_, ?_, ?_, ?_, ?_, ?_, ?_⟩
  · intro u
    rw [a1, List.mem_append, List.mem_singleton]
    by_cases huv : u = v
    · simp [huv]
    · simp [huv]
  · exact List.Nodup.append a2 (List.nodup_singleton v) (by
      intro u hu1 hu2
      have : u = v := by simpa using hu2
      exact hvT (this ▸ hu1))
  · intro u hu
    rcases List.mem_append.mp hu with h0 | h0
    · exact hTE u h0
    · have : u = v := by simpa using h0
      rw [this]; exact hv
  · intro u hu
    rcases List.mem_append.mp hu with h0 | h0
    · exact a4 u h0
    · have : u = v := by simpa using h0
      rw [this]; exact hvV
  · intro c hc
    have : c = v := by simpa using hc
    rw [this]; exact hE2v
  · intro u hu
    refine ⟨v, List.mem_singleton_self v, ?_⟩
    rcases List.mem_append.mp hu with h0 | h0
    · exact hroot u h0
    · have : u = v := by simpa using h0
      rw [this]
      exact ReachIn.refl (by simp)
  · intro S hS
    obtain ⟨s1, s2, s3⟩ := hS
    have hpre : StackPre succ S (fun u => if u = v then true else E u) := by
      refine ⟨s1, ?_, ?_⟩
      · intro u hu
        by_cases huv : u = v
        · simp [huv]
        · simpa [huv] using s2 u hu
      · intro u hu w hw
        by_cases hwv : w = v
        · simp [hwv]
        · simpa [hwv] using s3 u hu w hw
    obtain ⟨t1, t2, t3⟩ := a7 S hpre
    rw [← List.append_assoc]
    refine ⟨stackOrdered_push succ S T v E t1 s2 s3 hTE hv hroot, ?_, ?_⟩
    · intro u hu
      rcases List.mem_append.mp hu with h0 | h0
      · exact t2 u h0
      · have : u = v := by simpa using h0
        rw [this]; exact hE2v
    · intro u hu w hw
      rcases List.mem_append.mp hu with h0 | h0
      · exact t3 u h0 w hw
      · have : u = v := by simpa using h0
        rw [this] at hw
        exact a5 w hw

theorem dfsList_nil (succ : Nat → List Nat) (fuel : Nat) (acc : (Nat → Bool) × List Nat) :
    dfsList succ fuel acc [] = some acc := rfl

theorem dfsList_cons (succ : Nat → List Nat) (fuel : Nat) (acc : (Nat → Bool) × List Nat)
    (c : Nat) (cs : List Nat) :
    dfsList succ fuel acc (c :: cs) =
      match dfs succ fuel acc.1 c with
      | none => none
      | some r => dfsList succ fuel (r.1, acc.2 ++ r.2) cs := by
  unfold dfsList
  rw [List.foldlM_cons]
  cases dfs succ fuel acc.1 c <;> rfl

theorem dfs_succ_eq (succ : Nat → List Nat) (fuel : Nat) (E : Nat → Bool) (v : Nat) :
    dfs succ (fuel + 1) E v =
      if !E v then
        match dfsList succ fuel (fun u => if u = v then true else E u, []) (succ v) with
        | none => none
        | some r => some (r.1, r.2 ++ [v])
      else some (E, []) := rfl

theorem dfsList_post (succ : Nat → List Nat) (V : List Nat) (fuel : Nat)
    (ih : ∀ E v E2 T, v ∈ V → dfs succ fuel E v = some (E2, T) → DfsPost succ V E [v] E2 T) :
    ∀ (cs : List Nat) (E : Nat → Bool) (T0 : List Nat) (E2 : Nat → Bool) (T2 : List Nat),
      (∀ c ∈ cs, c ∈ V) → dfsList succ fuel (E, T0) cs = some (E2, T2) →
        ∃ T, T2 = T0 ++ T ∧ DfsPost succ V E cs E2 T := by
  intro cs
  induction cs with
  | nil =>
    intro E T0 E2 T2 _ h
    rw [dfsList_nil] at h
    have h1 : E = E2 := by injection h with h; exact (Prod.mk.inj h).1
    have h2 : T0 = T2 := by injection h with h; exact (Prod.mk.inj h).2
    subst h1; subst h2
    exact ⟨[], by simp, dfsPost_skip succ V E [] (fun c hc => absurd hc (List.not_mem_nil c))⟩
  | cons c cs ihl =>
    intro E T0 E2 T2 hcs h
    rw [dfsList_cons] at h
    cases hd : dfs succ fuel E c with
    | none =>
      simp only [hd] at h
      exact absurd h (by simp)
    | some r =>
      obtain ⟨E1, T1⟩ := r
      simp only [hd] at h
      have p1 := ih E c E1 T1 (hcs c (List.mem_cons_self _ _)) hd
      obtain ⟨T, hT, p2⟩ := ihl E1 (T0 ++ T1) E2 T2
        (fun c2 hc2 => hcs c2 (List.mem_cons_of_mem _ hc2)) h
      refine ⟨T1 ++ T, by rw [hT, List.append_assoc], ?_⟩
      exact dfsPost_append succ V E E1 E2 [c] cs T1 T p1 p2

/-- Correctness of what the search returns: whatever `dfs` returns satisfies `DfsPost`. -/
theorem dfs_post (succ : Nat → List Nat) (V : List Nat)
    (hV : ∀ u ∈ V, ∀ w ∈ succ u, w ∈ V) :
    ∀ (fuel : Nat) (E : Nat → Bool) (v : Nat) (E2 : Nat → Bool) (T : List Nat), v ∈ V →
      dfs succ fuel E v = some (E2, T) → DfsPost succ V E [v] E2 T := by
  intro fuel
  induction fuel with
  | zero =>
    intro E v E2 T _ h
    exact absurd h (by simp [dfs])
  | succ fuel ih =>
    intro E v E2 T hv h
    rw [dfs_succ_eq] at h
    cases hE : E v with
    | true =>
      simp only [hE, Bool.not_true, Bool.false_eq_true, if_false] at h
      have h1 : E = E2 := by injection h with h; exact (Prod.mk.inj h).1
      have h2 : [] = T := by injection h with h; exact (Prod.mk.inj h).2
      subst h1; subst h2
      exact dfsPost_skip succ V E [v] (fun c hc => by
        have : c = v := by simpa using hc
        rw [this]; exact hE)
    | false =>
      simp only [hE, Bool.not_false, if_true] at h
      cases hl : dfsList succ fuel (fun u => if u = v then true else E u, []) (succ v) with
      | none =>
        simp only [hl] at h
        exact absurd h (by simp)
      | some r =>
        obtain ⟨E3, T3⟩ := r
        simp only [hl] at h
        have h1 : E3 = E2 := by injection h with h; exact (Prod.mk.inj h).1
        have h2 : T3 ++ [v] = T := by injection h with h; exact (Prod.mk.inj h).2
        subst h1; subst h2
        obtain ⟨T4, hT4, p⟩ := dfsList_post succ V fuel ih (succ v) _ [] E3 T3 (hV v hv) hl
        rw [List.nil_append] at hT4
        subst hT4
        exact dfsPost_root succ V E E3 v T3 hE hv p


theorem unexploredCount_cons (a : Nat) (V : List Nat) (E : Nat → Bool) :
    unexploredCount (a :: V) E = (if E a then 0 else 1) + unexploredCount V E := by
  unfold unexploredCount
  cases h : E a
  · simp [List.filter_cons, h]; omega
  · simp [List.filter_cons, h]

theorem unexploredCount_mono (V : List Nat) (E E2 : Nat → Bool)
    (h : ∀ u, E u = true → E2 u = true) : unexploredCount V E2 ≤ unexploredCount V E := by
  induction V with
  | nil => simp [unexploredCount]
  | cons a l ih =>
    rw [unexploredCount_cons, unexploredCount_cons]
    cases h1 : E a with
    | true =>
      rw [h a h1]
      simpa using ih
    | false =>
      cases h2 : E2 a <;> simp <;> omega

theorem unexploredCount_lt (V : List Nat) (E E2 : Nat → Bool)
    (h : ∀ u, E u = true → E2 u = true) (v : Nat) (hv : v ∈ V) (h1 : E v = false)
    (h2 : E2 v = true) : unexploredCount V E2 < unexploredCount V E := by
  induction V with
  | nil => exact absurd hv (List.not_mem_nil v)
  | cons a l ih =>
    rw [unexploredCount_cons, unexploredCount_cons]
    have hm := unexploredCount_mono l E E2 h
    rcases List.mem_cons.mp hv with h0 | h0
    · rw [← h0, h1, h2]
      simp
      omega
    · have := ih h0
      cases h3 : E a with
      | true =>
        rw [h a h3]
        simpa using this
      | false =>
        cases h4 : E2 a <;> simp <;> omega

theorem dfsList_terminates (succ : Nat → List Nat) (V : List Nat)
    (hV : ∀ u ∈ V, ∀ w ∈ succ u, w ∈ V) (fuel : Nat)
    (ih : ∀ (E : Nat → Bool) (v : Nat), v ∈ V → unexploredCount V E < fuel →
      ∃ r, dfs succ fuel E v = some r) :
    ∀ (cs : List Nat) (E : Nat → Bool) (T0 : List Nat), (∀ c ∈ cs, c ∈ V) →
      unexploredCount V E < fuel → ∃ r, dfsList succ fuel (E, T0) cs = some r := by
  intro cs
  induction cs with
  | nil =>
    intro E T0 _ _
    exact ⟨_, dfsList_nil succ fuel _⟩
  | cons c cs ihl =>
    intro E T0 hcs hlt
    rw [dfsList_cons]
    obtain ⟨r, hr⟩ := ih E c (hcs c (List.mem_cons_self _ _)) hlt
    obtain ⟨E1, T1⟩ := r
    simp only [hr]
    have p := dfs_post succ V hV fuel E c E1 T1 (hcs c (List.mem_cons_self _ _)) hr
    have hmono := unexploredCount_mono V E E1 (fun u hu => (p.1 u).mpr (Or.inl hu))
    exact ihl E1 (T0 ++ T1) (fun c2 hc2 => hcs c2 (List.mem_cons_of_mem _ hc2)) (by omega)

/-- The search returns when the fuel exceeds the number of unexplored vertices. -/
theorem dfs_terminates (succ : Nat → List Nat) (V : List Nat)
    (hV : ∀ u ∈ V, ∀ w ∈ succ u, w ∈ V) :
    ∀ (fuel : Nat) (E : Nat → Bool) (v : Nat), v ∈ V → unexploredCount V E < fuel →
      ∃ r, dfs succ fuel E v = some r := by
  intro fuel
  induction fuel with
  | zero => intro E v _ h; omega
  | succ fuel ih =>
    intro E v hv hlt
    rw [dfs_succ_eq]
    cases hE : E v with
    | true => exact ⟨(E, []), by simp⟩
    | false =>
      simp only [Bool.not_false, if_true]
      have hlt2 : unexploredCount V (fun u => if u = v then true else E u) < fuel := by
        have := unexploredCount_lt V E (fun u => if u = v then true else E u)
          (fun u hu => by by_cases h0 : u = v <;> simp [h0, hu]) v hv hE (by simp)
        omega
      obtain ⟨r, hr⟩ := dfsList_terminates succ V hV fuel ih (succ v) _ [] (hV v hv) hlt2
      exact ⟨(r.1, r.2 ++ [v]), by simp only [hr]⟩


theorem dfsList_acc (succ : Nat → List Nat) (fuel : Nat) :
    ∀ (cs : List Nat) (E : Nat → Bool) (T0 : List Nat),
      dfsList succ fuel (E, T0) cs
        = (dfsList succ fuel (E, []) cs).map fun r => (r.1, T0 ++ r.2) := by
  intro cs
  induction cs with
  | nil =>
    intro E T0
    simp [dfsList_nil]
  | cons c cs ih =>
    intro E T0
    rw [dfsList_cons, dfsList_cons]
    cases hd : dfs succ fuel E c with
    | none => rfl
    | some r =>
      simp only [List.nil_append]
      rw [ih r.1 (T0 ++ r.2), ih r.1 r.2, Option.map_map]
      congr 1
      funext q
      simp [List.append_assoc]

theorem dfsList_prepend (succ : Nat → List Nat) (fuel : Nat) (P : List Nat)
    (cs : List Nat) (E : Nat → Bool) (T0 : List Nat) (E2 : Nat → Bool) (T2 : List Nat)
    (h : dfsList succ fuel (E, T0) cs = some (E2, T2)) :
    dfsList succ fuel (E, P ++ T0) cs = some (E2, P ++ T2) := by
  rw [dfsList_acc] at h ⊢
  cases h0 : dfsList succ fuel (E, []) cs with
  | none =>
    rw [h0] at h
    exact absurd h (by simp)
  | some r =>
    rw [h0] at h
    simp only [Option.map_some'] at h ⊢
    have h1 : r.1 = E2 := by injection h with h; exact (Prod.mk.inj h).1
    have h2 : T0 ++ r.2 = T2 := by injection h with h; exact (Prod.mk.inj h).2
    rw [h1, ← h2, List.append_assoc]

theorem dfsList_strip (succ : Nat → List Nat) (fuel : Nat)
    (cs : List Nat) (E : Nat → Bool) (T0 : List Nat) (E2 : Nat → Bool) (T2 : List Nat)
    (h : dfsList succ fuel (E, T0) cs = some (E2, T2)) :
    ∃ T, T2 = T0 ++ T ∧ dfsList succ fuel (E, []) cs = some (E2, T) := by
  rw [dfsList_acc] at h
  cases h0 : dfsList succ fuel (E, []) cs with
  | none =>
    rw [h0] at h
    exact absurd h (by simp)
  | some r =>
    rw [h0] at h
    simp only [Option.map_some'] at h
    have h1 : r.1 = E2 := by injection h with h; exact (Prod.mk.inj h).1
    have h2 : T0 ++ r.2 = T2 := by injection h with h; exact (Prod.mk.inj h).2
    exact ⟨r.2, h2.symm, by rw [← h1]⟩

/-- The newly explored vertices are at most as many as the unexplored vertices that
disappeared. -/
theorem dfsPost_count (succ : Nat → List Nat) (V : List Nat) (hnd : V.Nodup) (E : Nat → Bool)
    (cs : List Nat) (E2 : Nat → Bool) (T : List Nat) (h : DfsPost succ V E cs E2 T) :
    T.length + unexploredCount V E2 ≤ unexploredCount V E := by
  obtain ⟨a1, a2, a3, a4, _, _, _⟩ := h
  unfold unexploredCount
  rw [← List.length_append]
  apply List.Subperm.length_le
  apply List.subperm_of_subset
  · refine List.Nodup.append a2 (hnd.filter _) ?_
    intro u hu1 hu2
    have := (List.mem_filter.mp hu2).2
    rw [(a1 u).mpr (Or.inr hu1)] at this
    simp at this
  · intro u hu
    rcases List.mem_append.mp hu with h0 | h0
    · exact List.mem_filter.mpr ⟨a4 u h0, by rw [a3 u h0]; rfl⟩
    · obtain ⟨h1, h2⟩ := List.mem_filter.mp h0
      refine List.mem_filter.mpr ⟨h1, ?_⟩
      cases hE : E u with
      | false => rfl
      | true =>
        rw [(a1 u).mpr (Or.inl hE)] at h2
        simp at h2

theorem foldlM_reversed (g : Graph) (fuel : Nat)
    (ih : ∀ (h : DFS_handler) (v : Nat) (E2 : Nat → Bool) (T : List Nat), h._graph = g →
      dfs g.succR fuel h._explored v = some (E2, T) →
        DFS_handler.DFS_Reversed fuel h v
          = some { h with _explored := E2, _stack_finish := h._stack_finish ++ T }) :
    ∀ (es : List Edge) (h : DFS_handler) (E2 : Nat → Bool) (T2 : List Nat), h._graph = g →
      dfsList g.succR fuel (h._explored, h._stack_finish) (es.map fun e => e._tail)
          = some (E2, T2) →
        es.foldlM (fun st _edge => DFS_handler.DFS_Reversed fuel st _edge._tail) h
          = some { h with _explored := E2, _stack_finish := T2 } := by
  intro es
  induction es with
  | nil =>
    intro h E2 T2 _ hl
    simp only [List.map_nil, dfsList_nil] at hl
    have h1 : h._explored = E2 := by injection hl with hl; exact (Prod.mk.inj hl).1
    have h2 : h._stack_finish = T2 := by injection hl with hl; exact (Prod.mk.inj hl).2
    subst h1; subst h2
    rfl
  | cons e es ihl =>
    intro h E2 T2 hg hl
    simp only [List.map_cons] at hl
    rw [dfsList_cons] at hl
    cases hd : dfs g.succR fuel h._explored e._tail with
    | none =>
      simp only [hd] at hl
      exact absurd hl (by simp)
    | some r =>
      obtain ⟨E1, T1⟩ := r
      simp only [hd] at hl
      rw [List.foldlM_cons, ih h e._tail E1 T1 hg hd]
      simp only [Option.bind_eq_bind, Option.some_bind]
      exact ihl { h with _explored := E1, _stack_finish := h._stack_finish ++ T1 } E2 T2 hg hl

/-- Source `DFS_Reversed` performs the search `dfs` along the tails of the in-edges and appends the
newly finished vertices to `_stack_finish`. -/
theorem DFS_Reversed_eq (g : Graph) :
    ∀ (fuel : Nat) (h : DFS_handler) (v : Nat) (E2 : Nat → Bool) (T : List Nat), h._graph = g →
      dfs g.succR fuel h._explored v = some (E2, T) →
        DFS_handler.DFS_Reversed fuel h v
          = some { h with _explored := E2, _stack_finish := h._stack_finish ++ T } := by
  intro fuel
  induction fuel with
  | zero =>
    intro h v E2 T _ hd
    exact absurd hd (by simp [dfs])
  | succ fuel ih =>
    intro h v E2 T hg hd
    rw [dfs_succ_eq] at hd
    unfold DFS_handler.DFS_Reversed
    cases hE : h._explored v with
    | true =>
      simp only [hE, Bool.not_true, Bool.false_eq_true, if_false] at hd ⊢
      have h1 : h._explored = E2 := by injection hd with hd; exact (Prod.mk.inj hd).1
      have h2 : [] = T := by injection hd with hd; exact (Prod.mk.inj hd).2
      subst h1; subst h2
      simp
    | false =>
      simp only [hE, Bool.not_false, if_true] at hd ⊢
      cases hl : dfsList g.succR fuel (fun u => if u = v then true else h._explored u, [])
          (g.succR v) with
      | none =>
        simp only [hl] at hd
        exact absurd hd (by simp)
      | some r =>
        obtain ⟨E3, T3⟩ := r
        simp only [hl] at hd
        have h1 : E3 = E2 := by injection hd with hd; exact (Prod.mk.inj hd).1
        have h2 : T3 ++ [v] = T := by injection hd with hd; exact (Prod.mk.inj hd).2
        subst h1; subst h2
        have hl2 := dfsList_prepend g.succR fuel h._stack_finish _ _ _ _ _ hl
        rw [List.append_nil] at hl2
        have := foldlM_reversed g fuel ih (h._graph._in_edges v)
          { h with _explored := fun u => if u = v then true else h._explored u } E3
          (h._stack_finish ++ T3) hg (by rw [hg]; exact hl2)
        rw [this]
        simp

theorem foldlM_scc (g : Graph) (hnd : g._vertexes.Nodup)
    (hV : ∀ u ∈ g._vertexes, ∀ w ∈ g.succF u, w ∈ g._vertexes) (fuel : Nat)
    (ih : ∀ (h : DFS_handler) (c : Int) (v : Nat) (E2 : Nat → Bool) (T : List Nat),
      h._graph = g → v ∈ g._vertexes → 0 ≤ c →
      c + unexploredCount g._vertexes h._explored ≤ INT_MAX →
      dfs g.succF fuel h._explored v = some (E2, T) →
        DFS_handler.DFS_SCC fuel (h, c) v = some ({ h with _explored := E2 }, c + T.length)) :
    ∀ (es : List Edge) (h : DFS_handler) (c : Int) (E2 : Nat → Bool) (T2 : List Nat),
      h._graph = g → (∀ e ∈ es, e._head ∈ g._vertexes) → 0 ≤ c →
      c + unexploredCount g._vertexes h._explored ≤ INT_MAX →
      dfsList g.succF fuel (h._explored, []) (es.map fun e => e._head) = some (E2, T2) →
        es.foldlM (fun st _edge => DFS_handler.DFS_SCC fuel st _edge._head) (h, c)
          = some ({ h with _explored := E2 }, c + T2.length) := by
  intro es
  induction es with
  | nil =>
    intro h c E2 T2 _ _ _ _ hl
    simp only [List.map_nil, dfsList_nil] at hl
    have h1 : h._explored = E2 := by injection hl with hl; exact (Prod.mk.inj hl).1
    have h2 : [] = T2 := by injection hl with hl; exact (Prod.mk.inj hl).2
    subst h1; subst h2
    simp
  | cons e es ihl =>
    intro h c E2 T2 hg hes hc hb hl
    simp only [List.map_cons] at hl
    rw [dfsList_cons] at hl
    cases hd : dfs g.succF fuel h._explored e._head with
    | none =>
      simp only [hd] at hl
      exact absurd hl (by simp)
    | some r =>
      obtain ⟨E1, T1⟩ := r
      simp only [hd, List.nil_append] at hl
      have hev := hes e (List.mem_cons_self _ _)
      rw [List.foldlM_cons, ih h c e._head E1 T1 hg hev hc hb hd]
      have p := dfs_post g.succF g._vertexes hV fuel h._explored e._head E1 T1 hev hd
      have hcnt := dfsPost_count g.succF g._vertexes hnd _ _ _ _ p
      obtain ⟨T4, hT4, hl0⟩ := dfsList_strip g.succF fuel _ _ _ _ _ hl
      subst hT4
      have := ihl { h with _explored := E1 } (c + T1.length) E2 T4 hg
        (fun e2 he2 => hes e2 (List.mem_cons_of_mem _ he2)) (by omega)
        (by simp only; omega) hl0
      simp only [Option.bind_eq_bind, Option.some_bind]
      rw [this]
      simp only [List.length_append, Nat.cast_add]
      congr 2
      omega


/-- Source `DFS_SCC` performs the search `dfs` along the heads of the out-edges and adds the number
of newly explored vertices to the counter, as long as the counter cannot overflow. -/
theorem DFS_SCC_eq (g : Graph) (hnd : g._vertexes.Nodup)
    (hV : ∀ u ∈ g._vertexes, ∀ w ∈ g.succF u, w ∈ g._vertexes) :
    ∀ (fuel : Nat) (h : DFS_handler) (c : Int) (v : Nat) (E2 : Nat → Bool) (T : List Nat),
      h._graph = g → v ∈ g._vertexes → 0 ≤ c →
      c + unexploredCount g._vertexes h._explored ≤ INT_MAX →
      dfs g.succF fuel h._explored v = some (E2, T) →
        DFS_handler.DFS_SCC fuel (h, c) v
          = some ({ h with _explored := E2 }, c + T.length) := by
  intro fuel
  induction fuel with
  | zero =>
    intro h c v E2 T _ _ _ _ hd
    exact absurd hd (by simp [dfs])
  | succ fuel ih =>
    intro h c v E2 T hg hv hc hb hd
    rw [dfs_succ_eq] at hd
    unfold DFS_handler.DFS_SCC
    cases hE : h._explored v with
    | true =>
      simp only [hE, Bool.not_true, Bool.false_eq_true, if_false] at hd ⊢
      have h1 : h._explored = E2 := by injection hd with hd; exact (Prod.mk.inj hd).1
      have h2 : [] = T := by injection hd with hd; exact (Prod.mk.inj hd).2
      subst h1; subst h2
      simp
    | false =>
      simp only [hE, Bool.not_false, if_true] at hd ⊢
      cases hl : dfsList g.succF fuel (fun u => if u = v then true else h._explored u, [])
          (g.succF v) with
      | none =>
        simp only [hl] at hd
        exact absurd hd (by simp)
      | some r =>
        obtain ⟨E3, T3⟩ := r
        simp only [hl] at hd
        have h1 : E3 = E2 := by injection hd with hd; exact (Prod.mk.inj hd).1
        have h2 : T3 ++ [v] = T := by injection hd with hd; exact (Prod.mk.inj hd).2
        subst h1; subst h2
        have hlt := unexploredCount_lt g._vertexes h._explored
          (fun u => if u = v then true else h._explored u)
          (fun u hu => by by_cases h0 : u = v <;> simp [h0, hu]) v hv hE (by simp)
        have hadd : int_add c 1 = c + 1 := by
          unfold int_add
          unfold INT_MAX at hb
          omega
        rw [hadd]
        have := foldlM_scc g hnd hV fuel ih (h._graph._out_edges v)
          { h with _explored := fun u => if u = v then true else h._explored u } (c + 1) E3 T3
          hg (by
            intro e he
            apply hV v hv
            rw [hg] at he
            exact List.mem_map.mpr ⟨e, he, rfl⟩) (by omega) (by simp only; omega)
          (by rw [hg]; exact hl)
        rw [this]
        simp only [List.length_append, List.length_singleton, Nat.cast_add, Nat.cast_one]
        congr 2
        omega


theorem dfs_explored (succ : Nat → List Nat) (fuel : Nat) (E : Nat → Bool) (v : Nat)
    (r : (Nat → Bool) × List Nat) (hE : E v = true) (h : dfs succ fuel E v = some r) :
    r = (E, []) := by
  cases fuel with
  | zero => exact absurd h (by simp [dfs])
  | succ fuel =>
    rw [dfs_succ_eq] at h
    simp only [hE, Bool.not_true, Bool.false_eq_true, if_false] at h
    injection h with h
    exact h.symm

theorem loop_reversed (g : Graph) (fuel : Nat) :
    ∀ (vs : List Nat) (st : DFS_handler) (E2 : Nat → Bool) (T2 : List Nat), st._graph = g →
      dfsList g.succR fuel (st._explored, st._stack_finish) vs = some (E2, T2) →
        vs.foldlM
          (fun st _vertex =>
            if !st._explored _vertex then DFS_handler.DFS_Reversed fuel st _vertex else some st)
          st = some { st with _explored := E2, _stack_finish := T2 } := by
  intro vs
  induction vs with
  | nil =>
    intro st E2 T2 _ hl
    rw [dfsList_nil] at hl
    have h1 : st._explored = E2 := by injection hl with hl; exact (Prod.mk.inj hl).1
    have h2 : st._stack_finish = T2 := by injection hl with hl; exact (Prod.mk.inj hl).2
    subst h1; subst h2
    rfl
  | cons v vs ih =>
    intro st E2 T2 hg hl
    rw [dfsList_cons] at hl
    cases hd : dfs g.succR fuel st._explored v with
    | none =>
      simp only [hd] at hl
      exact absurd hl (by simp)
    | some r =>
      obtain ⟨E1, T1⟩ := r
      simp only [hd] at hl
      rw [List.foldlM_cons]
      cases hE : st._explored v with
      | true =>
        have := dfs_explored g.succR fuel st._explored v _ hE hd
        have h1 : E1 = st._explored := (Prod.mk.inj this).1
        have h2 : T1 = [] := (Prod.mk.inj this).2
        subst h1; subst h2
        rw [List.append_nil] at hl
        simp only [Bool.not_true, Bool.false_eq_true, if_false, Option.bind_eq_bind,
          Option.some_bind]
        exact ih st E2 T2 hg hl
      | false =>
        simp only [Bool.not_false, if_true]
        rw [DFS_Reversed_eq g fuel st v E1 T1 hg hd]
        simp only [Option.bind_eq_bind, Option.some_bind]
        exact ih { st with _explored := E1, _stack_finish := st._stack_finish ++ T1 } E2 T2 hg hl

theorem unexploredCount_le (V : List Nat) (E : Nat → Bool) : unexploredCount V E ≤ V.length := by
  unfold unexploredCount
  exact List.length_filter_le _ _

/-- The first pass returns; its stack lists every vertex of the graph once and has the
finish-order property for the reversed graph. -/
theorem DFS_Loop_Reversed_spec (g : Graph) (hwf : g.WellFormed) (h : DFS_handler)
    (hg : h._graph = g) (fuel : Nat) (hf : g._vertexes.length < fuel) :
    ∃ h1, h.DFS_Loop_Reversed fuel = some h1 ∧ h1._graph = g
      ∧ h1._stack_finish.Nodup ∧ (∀ u, u ∈ h1._stack_finish ↔ u ∈ g._vertexes)
      ∧ StackOrdered g.succR h1._stack_finish := by
  subst hg
  obtain ⟨hnd, hR, _⟩ := hwf
  have hE0 : ∀ u ∈ h._graph._vertexes, (h.ResetVertexes)._explored u = false := by
    intro u hu
    simp [DFS_handler.ResetVertexes, hu]
  obtain ⟨r, hr⟩ := dfsList_terminates h._graph.succR h._graph._vertexes hR fuel
    (dfs_terminates h._graph.succR h._graph._vertexes hR fuel) h._graph._vertexes
    (h.ResetVertexes)._explored [] (fun c hc => hc)
    (by have := unexploredCount_le h._graph._vertexes (h.ResetVertexes)._explored; omega)
  obtain ⟨E2, T2⟩ := r
  obtain ⟨T, hT, p⟩ := dfsList_post h._graph.succR h._graph._vertexes fuel
    (dfs_post h._graph.succR h._graph._vertexes hR fuel) h._graph._vertexes _ [] E2 T2
    (fun c hc => hc) hr
  rw [List.nil_append] at hT
  subst hT
  obtain ⟨a1, a2, a3, a4, a5, a6, a7⟩ := p
  have hloop := loop_reversed h._graph fuel h._graph._vertexes
    { h.ResetVertexes with _stack_finish := [] } E2 T2 rfl hr
  refine ⟨DFS_handler.mk h._graph E2 T2 h._SCC_sizes,
    by unfold DFS_handler.DFS_Loop_Reversed; exact hloop, rfl, a2, ?_, ?_⟩
  · intro u
    constructor
    · exact a4 u
    · intro hu
      rcases (a1 u).mp (a5 u hu) with h0 | h0
      · rw [hE0 u hu] at h0
        exact absurd h0 (by simp)
      · exact h0
  · have := a7 [] ⟨stackOrdered_nil _, fun u hu => absurd hu (List.not_mem_nil u),
      fun u hu => absurd hu (List.not_mem_nil u)⟩
    rw [List.nil_append] at this
    exact this.1

theorem nodup_split_unique (r : Nat) : ∀ (a b a2 b2 : List Nat), (a ++ r :: b).Nodup →
    a ++ r :: b = a2 ++ r :: b2 → a = a2 ∧ b = b2 := by
  intro a
  induction a with
  | nil =>
    intro b a2 b2 hnd heq
    cases a2 with
    | nil =>
      simp only [List.nil_append, List.cons.injEq, true_and] at heq
      exact ⟨rfl, heq⟩
    | cons x a3 =>
      simp only [List.nil_append, List.cons_append, List.cons.injEq] at heq
      obtain ⟨h1, h2⟩ := heq
      rw [List.nil_append, List.nodup_cons] at hnd
      exact absurd (by rw [h2]; simp) hnd.1
  | cons x a1 ih =>
    intro b a2 b2 hnd heq
    cases a2 with
    | nil =>
      simp only [List.nil_append, List.cons_append, List.cons.injEq] at heq
      obtain ⟨h1, h2⟩ := heq
      rw [List.cons_append, List.nodup_cons] at hnd
      exact absurd (by rw [h1]; simp) hnd.1
    | cons y a3 =>
      simp only [List.cons_append, List.cons.injEq] at heq
      obtain ⟨h1, h2⟩ := heq
      rw [List.cons_append, List.nodup_cons] at hnd
      obtain ⟨e1, e2⟩ := ih b a3 b2 hnd.2 h2
      exact ⟨by rw [h1, e1], e2⟩

/-- Reversing all edges reverses the paths. -/
theorem reach_reverse (g : Graph) (hc : g.Consistent) (x y : Nat)
    (h : ReachIn g.succR (fun u => u ∈ g._vertexes) x y) :
    ReachIn g.succF (fun u => u ∈ g._vertexes) y x := by
  induction h with
  | refl hx => exact ReachIn.refl hx
  | @head x w y hx hw hr ih =>
    exact ih.tail ((hc w hr.left x hx).mpr hw) hx

theorem reach_reverse2 (g : Graph) (hc : g.Consistent) (x y : Nat)
    (h : ReachIn g.succF (fun u => u ∈ g._vertexes) x y) :
    ReachIn g.succR (fun u => u ∈ g._vertexes) y x := by
  induction h with
  | refl hx => exact ReachIn.refl hx
  | @head x w y hx hw hr ih =>
    exact ih.tail ((hc x hx w hr.left).mp hw) hx

/-- The finish order of the first pass, read on the graph itself: when `y` reaches `x`, some
vertex mutually reachable with `x` is `y` or comes after `y` in the stack. -/
theorem stack_forward (g : Graph) (hc : g.Consistent) (S : List Nat)
    (hS : ∀ u, u ∈ S ↔ u ∈ g._vertexes) (hord : StackOrdered g.succR S) (x y : Nat)
    (h : g.Reach y x) :
    ∃ m, g.Reach m x ∧ g.Reach x m ∧ ∃ l1 l2, S = l1 ++ y :: l2 ∧ (m = y ∨ m ∈ l2) := by
  have h1 : ReachIn g.succR (fun u => u ∈ S) x y :=
    (reach_reverse2 g hc y x h).mono (fun u hu => (hS u).mpr hu)
  obtain ⟨m, hm1, hm2, hl⟩ := hord x y h1
  exact ⟨m, reach_reverse g hc x m (hm1.mono (fun u hu => (hS u).mp hu)),
    reach_reverse g hc m x (hm2.mono (fun u hu => (hS u).mp hu)), hl⟩


/-- The vertices newly explored by a forward search started, in the second pass, at an
unexplored stack entry `r` are exactly the vertices mutually reachable with `r`. -/
theorem scc_component (g : Graph) (hc : g.Consistent) (S : List Nat) (hSnd : S.Nodup)
    (hS : ∀ u, u ∈ S ↔ u ∈ g._vertexes) (hord : StackOrdered g.succR S)
    (st : DFS_handler) (done post : List Nat) (comps : List (List Nat)) (r : Nat)
    (hL : S.reverse = done ++ r :: post) (hI : SccInv g st done comps)
    (hEr : st._explored r = false) (E2 : Nat → Bool) (T : List Nat)
    (p : DfsPost g.succF g._vertexes st._explored [r] E2 T) :
    ∀ w ∈ g._vertexes, w ∈ T ↔ (g.Reach r w ∧ g.Reach w r) := by
  obtain ⟨⟨_, _, i3, _, _, i8⟩, _, i7⟩ := hI
  obtain ⟨a1, a2, a3, a4, a5, a6, a7⟩ := p
  have hrT : r ∈ T := by
    rcases (a1 r).mp (a5 r (List.mem_singleton_self r)) with h0 | h0
    · rw [hEr] at h0; exact absurd h0 (by simp)
    · exact h0
  have hcl : ∀ u ∈ T, ∀ w ∈ g.succF u, E2 w = true := by
    have := a7 [] ⟨stackOrdered_nil _, fun u hu => absurd hu (List.not_mem_nil u),
      fun u hu => absurd hu (List.not_mem_nil u)⟩
    rw [List.nil_append] at this
    exact this.2.2
  -- explored vertices are closed under mutual reachability
  have hexp : ∀ m ∈ g._vertexes, st._explored m = true → ∀ w ∈ g._vertexes,
      g.Reach m w → g.Reach w m → st._explored w = true := by
    intro m hm hEm w hw h1 h2
    obtain ⟨c, hcc, hmc⟩ := List.mem_flatten.mp ((i3 m hm).mp hEm)
    have hwc := (i7 c hcc m hmc w hw).mpr ⟨h1, h2⟩
    exact (i3 w hw).mpr (List.mem_flatten.mpr ⟨c, hcc, hwc⟩)
  intro w hw
  constructor
  · intro hwT
    obtain ⟨c0, hc0, hr0⟩ := a6 w hwT
    have hc0r : c0 = r := by simpa using hc0
    subst hc0r
    have hrw : g.Reach c0 w := hr0.mono (fun a ha => a4 a ha)
    refine ⟨hrw, ?_⟩
    obtain ⟨m, hm1, hm2, l1, l2, hl, hm3⟩ := stack_forward g hc S hS hord w c0 hrw
    rcases hm3 with h0 | h0
    · rw [h0] at hm2; exact hm2
    · exfalso
      have hrev : S.reverse = l2.reverse ++ c0 :: l1.reverse := by
        rw [hl]; simp
      have hnd : (done ++ c0 :: post).Nodup := by
        rw [← hL]; exact List.nodup_reverse.mpr hSnd
      have := nodup_split_unique c0 done post l2.reverse l1.reverse hnd (by rw [← hL, hrev])
      have hmd : m ∈ done := by rw [this.1]; exact List.mem_reverse.mpr h0
      have hEm := i8 m hmd
      have hmV : m ∈ g._vertexes := hm1.left
      have := hexp m hmV hEm w hw hm1 hm2
      rw [a3 w hwT] at this
      exact absurd this (by simp)
  · rintro ⟨h1, h2⟩
    have key : ∀ x y, ReachIn g.succF (fun u => u ∈ g._vertexes) x y → x ∈ T →
        (∀ u, g.Reach x u → g.Reach u y → st._explored u = false) → y ∈ T := by
      intro x y hxy
      induction hxy with
      | refl _ => intro hx _; exact hx
      | @head x z y hx hz hr ih =>
        intro hxT hall
        have hzV : z ∈ g._vertexes := hr.left
        have hEz : st._explored z = false :=
          hall z (ReachIn.head hx hz (ReachIn.refl hzV)) hr
        have hzT : z ∈ T := by
          rcases (a1 z).mp (hcl x hxT z hz) with h0 | h0
          · rw [hEz] at h0; exact absurd h0 (by simp)
          · exact h0
        exact ih hzT (fun u hu1 hu2 => hall u (ReachIn.head hx hz hu1) hu2)
    apply key r w h1 hrT
    intro u hu1 hu2
    cases hEu : st._explored u with
    | false => rfl
    | true =>
      have := hexp u hu1.right hEu r hu1.left (hu2.trans h2) hu1
      rw [hEr] at this
      exact absurd this (by simp)


/-- The loop of `DFS_Loop_SCC` preserves every invariant that its two kinds of iteration
preserve, and it returns. -/
theorem loop_scc (g : Graph) (hwf : g.WellFormed) (hsize : (g._vertexes.length : Int) ≤ INT_MAX)
    (fuel : Nat) (hf : g._vertexes.length < fuel) (L : List Nat)
    (Inv : DFS_handler → List Nat → List (List Nat) → Prop)
    (hgraph : ∀ st d c, Inv st d c → st._graph = g)
    (hskip : ∀ st d c r, Inv st d c → st._explored r = true → Inv st (d ++ [r]) c)
    (hstep : ∀ st d c r post E2 T, L = d ++ r :: post → Inv st d c →
      st._explored r = false → DfsPost g.succF g._vertexes st._explored [r] E2 T →
        Inv { st with _explored := E2, _SCC_sizes := st._SCC_sizes ++ [(T.length : Int)] }
          (d ++ [r]) (c ++ [T])) :
    ∀ (post done : List Nat) (st : DFS_handler) (comps : List (List Nat)),
      L = done ++ post → (∀ r ∈ post, r ∈ g._vertexes) → Inv st done comps →
        ∃ st2 comps2,
          post.foldlM
            (fun st _vertex =>
              if !st._explored _vertex then
                match DFS_handler.DFS_SCC fuel (st, 0) _vertex with
                | none => none
                | some (st2, _counter) =>
                  some { st2 with _SCC_sizes := st2._SCC_sizes ++ [_counter] }
              else some st)
            st = some st2 ∧ Inv st2 L comps2 := by
  obtain ⟨hnd, _, hF⟩ := hwf
  intro post
  induction post with
  | nil =>
    intro done st comps hL _ hI
    rw [List.append_nil] at hL
    exact ⟨st, comps, rfl, by rw [hL]; exact hI⟩
  | cons r post ih =>
    intro done st comps hL hpost hI
    have hL2 : L = (done ++ [r]) ++ post := by rw [hL]; simp
    have hpost2 : ∀ r2 ∈ post, r2 ∈ g._vertexes :=
      fun r2 h2 => hpost r2 (List.mem_cons_of_mem _ h2)
    rw [List.foldlM_cons]
    cases hE : st._explored r with
    | true =>
      simp only [Bool.not_true, Bool.false_eq_true, if_false, Option.bind_eq_bind,
        Option.some_bind]
      exact ih (done ++ [r]) st comps hL2 hpost2 (hskip st done comps r hI hE)
    | false =>
      have hg := hgraph st done comps hI
      have hrV := hpost r (List.mem_cons_self _ _)
      have hcnt := unexploredCount_le g._vertexes st._explored
      obtain ⟨res, hres⟩ := dfs_terminates g.succF g._vertexes hF fuel st._explored r hrV
        (by omega)
      obtain ⟨E2, T⟩ := res
      have p := dfs_post g.succF g._vertexes hF fuel st._explored r E2 T hrV hres
      have hscc := DFS_SCC_eq g hnd hF fuel st 0 r E2 T hg hrV (le_refl _)
        (by
          have : (unexploredCount g._vertexes st._explored : Int) ≤ g._vertexes.length := by
            exact_mod_cast hcnt
          omega) hres
      simp only [Bool.not_false, if_true, hscc, Option.bind_eq_bind, Option.some_bind, zero_add]
      exact ih (done ++ [r]) _ (comps ++ [T]) hL2 hpost2
        (hstep st done comps r post E2 T hL hI hE p)

theorem countInv_skip (g : Graph) (st : DFS_handler) (d : List Nat) (c : List (List Nat))
    (r : Nat) (hI : CountInv g st d c) (hE : st._explored r = true) :
    CountInv g st (d ++ [r]) c := by
  obtain ⟨i1, i2, i3, i4, i5, i6⟩ := hI
  refine ⟨i1, i2, i3, i4, i5, ?_⟩
  intro p hp
  rcases List.mem_append.mp hp with h0 | h0
  · exact i6 p h0
  · have : p = r := by simpa using h0
    rw [this]; exact hE

theorem countInv_step (g : Graph) (st : DFS_handler) (d : List Nat) (c : List (List Nat))
    (r : Nat) (E2 : Nat → Bool) (T : List Nat) (hI : CountInv g st d c)
    (p : DfsPost g.succF g._vertexes st._explored [r] E2 T) :
    CountInv g { st with _explored := E2, _SCC_sizes := st._SCC_sizes ++ [(T.length : Int)] }
      (d ++ [r]) (c ++ [T]) := by
  obtain ⟨i1, i2, i3, i4, i5, i6⟩ := hI
  obtain ⟨a1, a2, a3, a4, a5, _, _⟩ := p
  refine ⟨i1, ?_, ?_, ?_, ?_, ?_⟩
  · simp only [List.map_append, List.map_cons, List.map_nil]
    rw [i2]
  · intro u hu
    simp only [List.flatten_append, List.flatten_cons, List.flatten_nil, List.append_nil,
      List.mem_append]
    rw [a1 u, i3 u hu]
  · simp only [List.flatten_append, List.flatten_cons, List.flatten_nil, List.append_nil]
    refine List.Nodup.append i4 a2 ?_
    intro u hu1 hu2
    obtain ⟨c0, hc0, huc⟩ := List.mem_flatten.mp hu1
    have := (i3 u (i5 c0 hc0 u huc)).mpr hu1
    rw [a3 u hu2] at this
    exact absurd this (by simp)
  · intro c0 hc0 u hu
    rcases List.mem_append.mp hc0 with h0 | h0
    · exact i5 c0 h0 u hu
    · have : c0 = T := by simpa using h0
      rw [this] at hu
      exact a4 u hu
  · intro q hq
    rcases List.mem_append.mp hq with h0 | h0
    · exact (a1 q).mpr (Or.inl (i6 q h0))
    · have : q = r := by simpa using h0
      rw [this]
      exact a5 r (List.mem_singleton_self r)

theorem sccInv_step (g : Graph) (hc : g.Consistent) (S : List Nat) (hSnd : S.Nodup)
    (hS : ∀ u, u ∈ S ↔ u ∈ g._vertexes) (hord : StackOrdered g.succR S)
    (st : DFS_handler) (d : List Nat) (c : List (List Nat)) (r : Nat) (post : List Nat)
    (E2 : Nat → Bool) (T : List Nat) (hL : S.reverse = d ++ r :: post)
    (hI : SccInv g st d c) (hE : st._explored r = false)
    (p : DfsPost g.succF g._vertexes st._explored [r] E2 T) :
    SccInv g { st with _explored := E2, _SCC_sizes := st._SCC_sizes ++ [(T.length : Int)] }
      (d ++ [r]) (c ++ [T]) := by
  have hcomp := scc_component g hc S hSnd hS hord st d post c r hL hI hE E2 T p
  have hrV : r ∈ g._vertexes := by
    apply (hS r).mp
    apply List.mem_reverse.mp
    rw [hL]; simp
  have hrT : r ∈ T := (hcomp r hrV).mpr ⟨ReachIn.refl hrV, ReachIn.refl hrV⟩
  refine ⟨countInv_step g st d c r E2 T hI.1 p, ?_, ?_⟩
  · intro c0 hc0
    rcases List.mem_append.mp hc0 with h0 | h0
    · exact hI.2.1 c0 h0
    · have : c0 = T := by simpa using h0
      rw [this]
      exact List.ne_nil_of_mem hrT
  · intro c0 hc0 u hu w hw
    rcases List.mem_append.mp hc0 with h0 | h0
    · exact hI.2.2 c0 h0 u hu w hw
    · have : c0 = T := by simpa using h0
      subst this
      have huV : u ∈ g._vertexes := p.2.2.2.1 u hu
      obtain ⟨hru, hur⟩ := (hcomp u huV).mp hu
      rw [hcomp w hw]
      constructor
      · rintro ⟨h1, h2⟩
        exact ⟨hur.trans h1, h2.trans hru⟩
      · rintro ⟨h1, h2⟩
        exact ⟨hru.trans h1, h2.trans hur⟩


theorem sum_map_length_cast (comps : List (List Nat)) :
    (comps.map (fun c => (c.length : Int))).sum = (comps.flatten.length : Int) := by
  induction comps with
  | nil => simp
  | cons c cs ih =>
    simp only [List.map_cons, List.sum_cons, List.flatten_cons, List.length_append,
      Nat.cast_add]
    rw [ih]

/-- The second pass, run on the stack `S` of the first pass, returns, and every invariant that
its iterations preserve holds at the end for the whole stack. -/
theorem DFS_Loop_SCC_inv (g : Graph) (hwf : g.WellFormed)
    (hsize : (g._vertexes.length : Int) ≤ INT_MAX) (fuel : Nat)
    (hf : g._vertexes.length < fuel) (h1 : DFS_handler)
    (hS : ∀ u, u ∈ h1._stack_finish ↔ u ∈ g._vertexes)
    (Inv : DFS_handler → List Nat → List (List Nat) → Prop)
    (hgraph : ∀ st d c, Inv st d c → st._graph = g)
    (hskip : ∀ st d c r, Inv st d c → st._explored r = true → Inv st (d ++ [r]) c)
    (hstep : ∀ st d c r post E2 T, h1._stack_finish.reverse = d ++ r :: post → Inv st d c →
      st._explored r = false → DfsPost g.succF g._vertexes st._explored [r] E2 T →
        Inv { st with _explored := E2, _SCC_sizes := st._SCC_sizes ++ [(T.length : Int)] }
          (d ++ [r]) (c ++ [T]))
    (hinit : Inv { h1.ResetVertexes with _SCC_sizes := [] } [] []) :
    ∃ h2 comps, h1.DFS_Loop_SCC fuel = some h2 ∧ Inv h2 h1._stack_finish.reverse comps := by
  have := loop_scc g hwf hsize fuel hf h1._stack_finish.reverse Inv hgraph hskip hstep
    h1._stack_finish.reverse [] { h1.ResetVertexes with _SCC_sizes := [] } [] rfl
    (fun r hr => (hS r).mp (List.mem_reverse.mp hr)) hinit
  obtain ⟨st2, comps2, h3, h4⟩ := this
  exact ⟨st2, comps2, h3, h4⟩

theorem countInv_init (g : Graph) (h1 : DFS_handler) (hg : h1._graph = g) :
    CountInv g { h1.ResetVertexes with _SCC_sizes := [] } [] [] := by
  refine ⟨hg, rfl, ?_, List.nodup_nil, ?_, ?_⟩
  · intro u hu
    simp [DFS_handler.ResetVertexes, hg, hu]
  · intro c hc; exact absurd hc (List.not_mem_nil c)
  · intro p hp; exact absurd hp (List.not_mem_nil p)

/-- At the end of the second pass the explored sets list every vertex exactly once. -/
theorem countInv_final (g : Graph) (hnd : g._vertexes.Nodup) (S : List Nat)
    (hS : ∀ u, u ∈ S ↔ u ∈ g._vertexes) (st : DFS_handler) (comps : List (List Nat))
    (hI : CountInv g st S.reverse comps) : comps.flatten.Perm g._vertexes := by
  obtain ⟨_, _, i3, i4, i5, i6⟩ := hI
  rw [List.perm_ext_iff_of_nodup i4 hnd]
  intro u
  constructor
  · intro hu
    obtain ⟨c, hc, huc⟩ := List.mem_flatten.mp hu
    exact i5 c hc u huc
  · intro hu
    exact (i3 u hu).mp (i6 u (List.mem_reverse.mpr ((hS u).mpr hu)))


theorem sccDecomposition_mem_vertexes (g : Graph) (comps : List (List Nat))
    (h : IsSCCDecomposition g comps) (c : List Nat) (hc : c ∈ comps) (u : Nat) (hu : u ∈ c) :
    u ∈ g._vertexes :=
  h.1.subset (List.mem_flatten.mpr ⟨c, hc, hu⟩)

/-- Two members of a decomposition that share a vertex have the same vertices. -/
theorem sccDecomposition_toFinset_eq (g : Graph) (comps1 comps2 : List (List Nat))
    (h1 : IsSCCDecomposition g comps1) (h2 : IsSCCDecomposition g comps2)
    (c1 c2 : List Nat) (hc1 : c1 ∈ comps1) (hc2 : c2 ∈ comps2) (u : Nat) (hu1 : u ∈ c1)
    (hu2 : u ∈ c2) : c1.toFinset = c2.toFinset := by
  ext w
  simp only [List.mem_toFinset]
  constructor
  · intro hw
    have hwV := sccDecomposition_mem_vertexes g comps1 h1 c1 hc1 w hw
    exact (h2.2.2 c2 hc2 u hu2 w hwV).mpr ((h1.2.2 c1 hc1 u hu1 w hwV).mp hw)
  · intro hw
    have hwV := sccDecomposition_mem_vertexes g comps2 h2 c2 hc2 w hw
    exact (h1.2.2 c1 hc1 u hu1 w hwV).mpr ((h2.2.2 c2 hc2 u hu2 w hwV).mp hw)

theorem sccDecomposition_finsets_nodup (g : Graph) (hnd : g._vertexes.Nodup)
    (comps : List (List Nat)) (h : IsSCCDecomposition g comps) :
    (comps.map List.toFinset).Nodup := by
  have hfl : comps.flatten.Nodup := h.1.nodup_iff.mpr hnd
  obtain ⟨_, hdisj⟩ := List.nodup_flatten.mp hfl
  unfold List.Nodup
  rw [List.pairwise_map]
  refine hdisj.imp_of_mem ?_
  intro a b ha _ hab heq
  obtain ⟨u, hu⟩ := List.exists_mem_of_ne_nil a (h.2.1 a ha)
  have : u ∈ b := by
    have : u ∈ b.toFinset := by rw [← heq]; exact List.mem_toFinset.mpr hu
    exact List.mem_toFinset.mp this
  exact hab hu this

/-- The sizes of the strongly connected components do not depend on the way the components
are listed. -/
theorem sccDecomposition_sizes_perm (g : Graph) (hnd : g._vertexes.Nodup)
    (comps1 comps2 : List (List Nat)) (h1 : IsSCCDecomposition g comps1)
    (h2 : IsSCCDecomposition g comps2) :
    (comps1.map (fun c => (c.length : Int))).Perm (comps2.map (fun c => (c.length : Int))) := by
  have key : ∀ (a b : List (List Nat)), IsSCCDecomposition g a → IsSCCDecomposition g b →
      ∀ s, s ∈ a.map List.toFinset → s ∈ b.map List.toFinset := by
    intro a b ha hb s hs
    obtain ⟨c, hc, rfl⟩ := List.mem_map.mp hs
    obtain ⟨u, hu⟩ := List.exists_mem_of_ne_nil c (ha.2.1 c hc)
    have huV := sccDecomposition_mem_vertexes g a ha c hc u hu
    obtain ⟨c2, hc2, hu2⟩ := List.mem_flatten.mp (hb.1.symm.subset huV)
    exact List.mem_map.mpr ⟨c2, hc2,
      (sccDecomposition_toFinset_eq g a b ha hb c c2 hc hc2 u hu hu2).symm⟩
  have hperm : (comps1.map List.toFinset).Perm (comps2.map List.toFinset) := by
    rw [List.perm_ext_iff_of_nodup (sccDecomposition_finsets_nodup g hnd comps1 h1)
      (sccDecomposition_finsets_nodup g hnd comps2 h2)]
    intro s
    exact ⟨key comps1 comps2 h1 h2 s, key comps2 comps1 h2 h1 s⟩
  have hcard : ∀ (a : List (List Nat)), IsSCCDecomposition g a →
      (a.map List.toFinset).map (fun s => (s.card : Int)) = a.map (fun c => (c.length : Int)) := by
    intro a ha
    rw [List.map_map]
    apply List.map_congr_left
    intro c hc
    have hfl : a.flatten.Nodup := ha.1.nodup_iff.mpr hnd
    have hcn : c.Nodup := (List.nodup_flatten.mp hfl).1 c hc
    simp only [Function.comp_apply]
    rw [List.toFinset_card_of_nodup hcn]
  rw [← hcard comps1 h1, ← hcard comps2 h2]
  exact hperm.map _


theorem cycleGraph_wellFormed : cycleGraph.WellFormed := by
  unfold Graph.WellFormed
  decide

theorem cycleGraph_consistent : cycleGraph.Consistent := by
  unfold Graph.Consistent
  decide

/-- C2. On a well-formed graph whose in-edge and out-edge lists describe one edge set (with
fewer than `2^31` vertices, so that the `int` counter cannot overflow), `DFS_Loop_Reversed()`,
`DFS_Loop_SCC()` and `getSCC()` return; each search started in the second pass counts the
vertices of one strongly connected component, every component is counted once, and `getSCC()`
is the ascending list of the component sizes, whichever way the components are listed. -/
theorem kosaraju_scc_sizes (g : Graph) (fuel : Nat) (hwf : g.WellFormed)
    (hc : g.Consistent) (hsize : (g._vertexes.length : Int) ≤ INT_MAX)
    (hf : g._vertexes.length < fuel) :
    (∃ comps, IsSCCDecomposition g comps
      ∧ ∃ h1 h2, (DFS_handler.fresh g).DFS_Loop_Reversed fuel = some h1
        ∧ h1.DFS_Loop_SCC fuel = some h2
        ∧ h2._SCC_sizes = comps.map (fun c => (c.length : Int))
        ∧ h2.getSCC = (comps.map (fun c => (c.length : Int))).insertionSort (· ≤ ·)
        ∧ computeSCCSizes fuel g
            = some ((comps.map (fun c => (c.length : Int))).insertionSort (· ≤ ·)))
    ∧ (∀ comps, IsSCCDecomposition g comps →
        computeSCCSizes fuel g
          = some ((comps.map (fun c => (c.length : Int))).insertionSort (· ≤ ·))) := by
  obtain ⟨h1, hp1, hg, hSnd, hS, hord⟩ :=
    DFS_Loop_Reversed_spec g hwf (DFS_handler.fresh g) rfl fuel hf
  obtain ⟨h2, comps, hp2, hI⟩ := DFS_Loop_SCC_inv g hwf hsize fuel hf h1 hS (SccInv g)
    (fun st d c hI => hI.1.1)
    (fun st d c r hI hE => ⟨countInv_skip g st d c r hI.1 hE, hI.2⟩)
    (fun st d c r post E2 T hL hI hE p =>
      sccInv_step g hc h1._stack_finish hSnd hS hord st d c r post E2 T hL hI hE p)
    ⟨countInv_init g h1 hg, fun c hc => absurd hc (List.not_mem_nil c),
      fun c hc => absurd hc (List.not_mem_nil c)⟩
  have hperm := countInv_final g hwf.1 h1._stack_finish hS h2 comps hI.1
  have hdec : IsSCCDecomposition g comps := ⟨hperm, hI.2.1, hI.2.2⟩
  have hsorted : h2.getSCC = (comps.map (fun c => (c.length : Int))).insertionSort (· ≤ ·) := by
    unfold DFS_handler.getSCC std_sort
    rw [hI.1.2.1]
  have hall : computeSCCSizes fuel g
      = some ((comps.map (fun c => (c.length : Int))).insertionSort (· ≤ ·)) := by
    unfold computeSCCSizes
    simp only [hp1, hp2, hsorted]
  refine ⟨⟨comps, hdec, h1, h2, hp1, hp2, hI.1.2.1, hsorted, hall⟩, ?_⟩
  intro comps2 hdec2
  rw [hall, insertionSort_congr_perm (· ≤ ·) _ _
    (sccDecomposition_sizes_perm g hwf.1 comps comps2 hdec hdec2)]

/-- Witness of C2 on the example graph (cycle 1 -> 2 -> 3 -> 1 and isolated vertex 4). -/
theorem kosaraju_scc_sizes_witness :
    cycleGraph.WellFormed ∧ cycleGraph.Consistent
      ∧ (cycleGraph._vertexes.length : Int) ≤ INT_MAX
      ∧ cycleGraph._vertexes.length < 5
      ∧ ((∃ comps, IsSCCDecomposition cycleGraph comps
        ∧ ∃ h1 h2, (DFS_handler.fresh cycleGraph).DFS_Loop_Reversed 5 = some h1
          ∧ h1.DFS_Loop_SCC 5 = some h2
          ∧ h2._SCC_sizes = comps.map (fun c => (c.length : Int))
          ∧ h2.getSCC = (comps.map (fun c => (c.length : Int))).insertionSort (· ≤ ·)
          ∧ computeSCCSizes 5 cycleGraph
              = some ((comps.map (fun c => (c.length : Int))).insertionSort (· ≤ ·)))
      ∧ (∀ comps, IsSCCDecomposition cycleGraph comps →
          computeSCCSizes 5 cycleGraph
            = some ((comps.map (fun c => (c.length : Int))).insertionSort (· ≤ ·)))) :=
  ⟨cycleGraph_wellFormed, cycleGraph_consistent, by decide, by decide,
    kosaraju_scc_sizes cycleGraph 5 cycleGraph_wellFormed cycleGraph_consistent
      (by decide) (by decide)⟩

/-- C5. On a well-formed graph (with fewer than `2^31` vertices), after `DFS_Loop_Reversed()`
and `DFS_Loop_SCC()` the entries of `_SCC_sizes` sum to the number of vertices: they are the
sizes of the sets explored by the searches of the second pass, and these sets contain every
vertex exactly once. -/
theorem scc_sizes_sum_to_vertex_count (g : Graph) (fuel : Nat) (hwf : g.WellFormed)
    (hsize : (g._vertexes.length : Int) ≤ INT_MAX) (hf : g._vertexes.length < fuel) :
    ∃ h1 h2, (DFS_handler.fresh g).DFS_Loop_Reversed fuel = some h1
      ∧ h1.DFS_Loop_SCC fuel = some h2
      ∧ h2._SCC_sizes.sum = (g._vertexes.length : Int)
      ∧ ∃ comps : List (List Nat), h2._SCC_sizes = comps.map (fun c => (c.length : Int))
          ∧ comps.flatten.Perm g._vertexes := by
  obtain ⟨h1, hp1, hg, _, hS, _⟩ :=
    DFS_Loop_Reversed_spec g hwf (DFS_handler.fresh g) rfl fuel hf
  obtain ⟨h2, comps, hp2, hI⟩ := DFS_Loop_SCC_inv g hwf hsize fuel hf h1 hS (CountInv g)
    (fun st d c hI => hI.1)
    (fun st d c r hI hE => countInv_skip g st d c r hI hE)
    (fun st d c r post E2 T _ hI _ p => countInv_step g st d c r E2 T hI p)
    (countInv_init g h1 hg)
  have hperm := countInv_final g hwf.1 h1._stack_finish hS h2 comps hI
  refine ⟨h1, h2, hp1, hp2, ?_, comps, hI.2.1, hperm⟩
  rw [hI.2.1, sum_map_length_cast, hperm.length_eq]

/-- Witness of C5 on the example graph (cycle 1 -> 2 -> 3 -> 1 and isolated vertex 4). -/
theorem scc_sizes_sum_to_vertex_count_witness :
    cycleGraph.WellFormed ∧ (cycleGraph._vertexes.length : Int) ≤ INT_MAX
      ∧ cycleGraph._vertexes.length < 5
      ∧ ∃ h1 h2, (DFS_handler.fresh cycleGraph).DFS_Loop_Reversed 5 = some h1
        ∧ h1.DFS_Loop_SCC 5 = some h2
        ∧ h2._SCC_sizes.sum = (cycleGraph._vertexes.length : Int)
        ∧ ∃ comps : List (List Nat), h2._SCC_sizes = comps.map (fun c => (c.length : Int))
            ∧ comps.flatten.Perm cycleGraph._vertexes :=
  ⟨cycleGraph_wellFormed, by decide, by decide,
    scc_sizes_sum_to_vertex_count cycleGraph 5 cycleGraph_wellFormed (by decide)
      (by decide)⟩


/-- C15. On the graph with four vertices and the edges 1 -> 2, 2 -> 3, 3 -> 1 (vertex 4
isolated), `DFS_Loop_Reversed()`, `DFS_Loop_SCC()` and `getSCC()` return exactly `[1, 3]`; on
the graph with a single vertex and no edge they return exactly `[1]`. -/
theorem worked_scc_example :
    (∃ h1 h2, (DFS_handler.fresh cycleGraph).DFS_Loop_Reversed 5 = some h1
        ∧ h1.DFS_Loop_SCC 5 = some h2 ∧ h2.getSCC = [1, 3])
      ∧ computeSCCSizes 5 cycleGraph = some [1, 3]
      ∧ (∃ h1 h2, (DFS_handler.fresh singleVertexGraph).DFS_Loop_Reversed 2 = some h1
        ∧ h1.DFS_Loop_SCC 2 = some h2 ∧ h2.getSCC = [1])
      ∧ computeSCCSizes 2 singleVertexGraph = some [1] :=
  ⟨⟨_, _, rfl, rfl, by decide⟩, by decide, ⟨_, _, rfl, rfl, by decide⟩, by decide⟩

end Kosaraju
